import Mathlib

/-!
# KenLM probing-model loader and scorer: a shallow embedding

The C++ sources under `src/main/cpp` are embedded as pure Lean functions.

* Machine integers are natural numbers; wrap-around of `uint64_t` and
  `unsigned char` arithmetic is written out with `%`.
* A `float` is carried as its IEEE-754 binary32 bit pattern (a natural number
  below `2 ^ 32`); the arithmetic the sources use on floats (`+`, `*`, `<`,
  conversions from and to `uint64_t`) is implemented on bit patterns with
  round-to-nearest-even.
* Memory is a list of bytes; a read outside of it has no meaning in C++ and is
  reported as `none` or as `Fault.undefinedBehaviour`.
* The layout of structs is the one of an LP64 little-endian target.
-/

set_option exponentiation.threshold 2000

deriving instance DecidableEq for Except

namespace KenLM

/-! ## Outcomes other than a value -/

/-- The messages of the `FormatLoadException`s the loader throws. -/
inductive FormatError
  /-- Message "This binary file did not finish building" -/
  | didNotFinishBuilding
  /-- Message "Binary file has version ... but this implementation expects version 5" -/
  | versionMismatch (version : Int)
  /-- Message "Looks like this is an old 32-bit format." -/
  | old32BitFormat
  /-- Message "File looks like it should be loaded with mmap, but the test values don't match." -/
  | testValuesDontMatch
  /-- Message "Not a binary format of a file" -/
  | notBinaryFormat
  /-- Message "Binary format claims to have a probing multiplier of ... which is < 1.0." -/
  | probingMultiplierBelowOne
  /-- Message "The binary file claims to be model type ... but this is not implemented" -/
  | modelTypeNotImplemented (model_type : Nat)
  /-- Message "The binary file was built for ... but the inference code is trying to load ..." -/
  | modelTypeMismatch (model_type : Nat)
  /-- Message "The binary file has ... version ... but this code expects ... version ..." -/
  | searchVersionMismatch (search_version : Nat)
  /-- Message "This model has order ... but KenLM was compiled to support up to ..." -/
  | orderTooHigh (order : Nat)
  /-- Message "The decoder requested all the vocabulary strings, but this binary does not have them." -/
  | noVocabulary
  /-- Message "Binary file has size ... but the headers say it should be at least ..." -/
  | fileTooSmall (file_size total_map : Nat)
  /-- Message "The binary file has probing version ... but the code expects version 0." -/
  | vocabularyVersion (version : Nat)
  /-- Message "The data structures took ... but Size says they should take ..." -/
  | sizeMismatch (took goal_size : Nat)
  deriving DecidableEq

/-- What a step of the loader yields instead of a value: one of the two C++
exceptions, or `undefinedBehaviour` where C++ gives the execution no meaning
(a read outside the buffer or a vector, a remainder by zero, a float to integer
conversion out of range, a probe loop that never ends). -/
inductive Fault
  | FormatLoadException (why : FormatError)
  | OverflowException
  | undefinedBehaviour
  deriving DecidableEq

/-! ## IEEE-754 binary32 on bit patterns -/

namespace F32

/-- Sign bit of a bit pattern. -/
def sign (b : Nat) : Bool := b / 2 ^ 31 % 2 == 1

/-- Biased exponent field. -/
def expField (b : Nat) : Nat := b / 2 ^ 23 % 256

/-- Fraction field. -/
def manField (b : Nat) : Nat := b % 2 ^ 23

def isNaN (b : Nat) : Bool := expField b == 255 && manField b != 0

def isInf (b : Nat) : Bool := expField b == 255 && manField b == 0

/-- Significand of a finite value: its magnitude is `sig b * 2 ^ ex b / 2 ^ 150`. -/
def sig (b : Nat) : Nat := if expField b = 0 then manField b else manField b + 2 ^ 23

/-- Scaled exponent of a finite value: its magnitude is `sig b * 2 ^ ex b / 2 ^ 150`. -/
def ex (b : Nat) : Nat := if expField b = 0 then 1 else expField b

def signBit (neg : Bool) : Nat := if neg then 2 ^ 31 else 0

/-- Pattern used for every NaN result (C++ leaves the payload to the platform). -/
def qNaN : Nat := 0x7FC00000

/-- Pattern of positive infinity. -/
def inf : Nat := 0x7F800000

/-- Pattern of `1.0f`. -/
def one : Nat := 0x3F800000

/-- Binary search for the position of the leading binary digit of `n`: the result
is `lo` plus the largest `d < 2 ^ steps` with `2 ^ (lo + d) ≤ n`. -/
def leadingBit (n : Nat) : Nat → Nat → Nat
  | 0, lo => lo
  | steps + 1, lo =>
    if 2 ^ (lo + 2 ^ steps) ≤ n then leadingBit n steps (lo + 2 ^ steps) else leadingBit n steps lo

/-- Number of binary digits of `n`, for `0 < n < 2 ^ 1024`. -/
def bitLen (n : Nat) : Nat := leadingBit n 10 0 + 1

/-- Quotient `num / den` rounded to nearest, ties to even. -/
def roundEven (num den : Nat) : Nat :=
  let q := num / den
  let r := num % den
  if den < 2 * r ∨ (2 * r = den ∧ q % 2 = 1) then q + 1 else q

/-- Nearest binary32 pattern (ties to even, overflow to infinity) of the value
with magnitude `n * 2 ^ E / 2 ^ B` and sign `neg`. -/
def round (neg : Bool) (n E B : Nat) : Nat :=
  if n = 0 then signBit neg
  else
    let e := max 1 (bitLen n + E + 126 - B)
    let bits := (e - 1) * 2 ^ 23 + roundEven (n * 2 ^ (E + 150)) (2 ^ (B + e))
    signBit neg + (if inf ≤ bits then inf else bits)

/-- The C++ `a + b` on floats. -/
def add (a b : Nat) : Nat :=
  if isNaN a || isNaN b then qNaN
  else if isInf a then (if isInf b && sign a != sign b then qNaN else a)
  else if isInf b then b
  else
    let x := sig a * 2 ^ ex a
    let y := sig b * 2 ^ ex b
    if sign a = sign b then round (sign a) (x + y) 0 150
    else if x = y then 0
    else if y < x then round (sign a) (x - y) 0 150
    else round (sign b) (y - x) 0 150

/-- The C++ `a * b` on floats. -/
def mul (a b : Nat) : Nat :=
  if isNaN a || isNaN b then qNaN
  else if isInf a || isInf b then
    (if sig a = 0 ∨ sig b = 0 then qNaN else signBit (sign a != sign b) + inf)
  else round (sign a != sign b) (sig a * sig b) (ex a + ex b) 300

/-- The C++ `static_cast<float>(n)` of a `uint64_t`. -/
def ofU64 (n : Nat) : Nat := round false n 0 0

/-- The C++ `static_cast<uint64_t>(f)`: truncation toward zero, without a
meaning (`none`) when the truncated value is not a `uint64_t`. -/
def toU64 (b : Nat) : Option Nat :=
  if expField b = 255 then none
  else
    let t := sig b * 2 ^ ex b / 2 ^ 150
    if sign b then (if t = 0 then some 0 else none)
    else if t < 2 ^ 64 then some t else none

/-- The C++ `a < b` on floats. -/
def lt (a b : Nat) : Bool :=
  if isNaN a || isNaN b then false
  else
    match sign a, sign b with
    | false, false => decide (a % 2 ^ 31 < b % 2 ^ 31)
    | true, true => decide (b % 2 ^ 31 < a % 2 ^ 31)
    | true, false => !(a % 2 ^ 31 == 0 && b % 2 ^ 31 == 0)
    | false, true => false

/-- Rational value of a finite bit pattern. -/
def toRat (b : Nat) : ℚ :=
  (if sign b then -1 else 1) * ((sig b : ℚ) * (2 : ℚ) ^ ex b / (2 : ℚ) ^ 150)

end F32

/-! ## util/probing_hash_table.hh -/

namespace util

/-- An `Entry` of a probing table: its key (`GetKey()`) and its payload. -/
structure Entry (V : Type) where
  key : Nat
  value : V

namespace DivMod

/-- Embeds `DivMod::RoundBuckets`. -/
def RoundBuckets (n : Nat) : Nat := n

/-- Embeds `DivMod::Ideal`, as an offset from `begin`; the remainder by zero buckets
has no meaning. -/
def Ideal (buckets_ hash : Nat) : Option Nat :=
  if buckets_ = 0 then none else some (hash % buckets_)

/-- Embeds `DivMod::Next` with `begin` at offset 0 and `end` at offset `end_`. -/
def Next (end_ it : Nat) : Nat := if it + 1 = end_ then 0 else it + 1

end DivMod

/-- Embeds `ProbingHashTable`: `slots` is the memory from `begin_` on, read as an array
of `Entry`; `end_` is `begin_ + buckets_` and `mod_` is `DivMod(buckets_)`. -/
structure ProbingHashTable (V : Type) where
  slots : List (Entry V)
  buckets_ : Nat
  invalid_ : Nat
  hash_ : Nat → Nat

namespace ProbingHashTable

/-- Embeds `ProbingHashTable::Size(entries, multiplier)` for entries of `sizeofEntry`
bytes; `none` when the float to integer conversion has no meaning. -/
def Size (sizeofEntry entries multiplier : Nat) : Option Nat :=
  (F32.toU64 (F32.mul multiplier (F32.ofU64 entries))).map fun scaled =>
    DivMod.RoundBuckets (max ((entries + 1) % 2 ^ 64) scaled) * sizeofEntry % 2 ^ 64

/-- The constructor `ProbingHashTable(start, allocated, invalid, hash_func)`. -/
def construct {V : Type} (sizeofEntry : Nat) (slots : List (Entry V)) (allocated invalid : Nat)
    (hash_func : Nat → Nat) : ProbingHashTable V :=
  { slots := slots, buckets_ := allocated / sizeofEntry, invalid_ := invalid, hash_ := hash_func }

/-- Embeds `ProbingHashTable::Ideal`. -/
def Ideal {V : Type} (t : ProbingHashTable V) (key : Nat) : Option Nat :=
  DivMod.Ideal t.buckets_ (t.hash_ key)

/-- The key `i->GetKey()` of the entry at `begin_ + i`; `none` outside the memory. -/
def GetKey {V : Type} (t : ProbingHashTable V) (i : Nat) : Option Nat :=
  (t.slots[i]?).map Entry.key

/-- Embeds `ProbingHashTable::FindFromIdeal`: `fuel` bounds the number of slots that
are inspected; the result is the returned flag and the final iterator. -/
def FindFromIdeal {V : Type} (t : ProbingHashTable V) (key : Nat) : Nat → Nat → Option (Bool × Nat)
  | 0, _ => none
  | fuel + 1, i =>
    match t.GetKey i with
    | none => none
    | some got =>
      if got = key then some (true, i)
      else if got = t.invalid_ then some (false, i)
      else FindFromIdeal t key fuel (DivMod.Next t.buckets_ i)

/-- Embeds `ProbingHashTable::Find`. -/
def Find {V : Type} (t : ProbingHashTable V) (key : Nat) (fuel : Nat) : Option (Bool × Nat) :=
  match t.Ideal key with
  | none => none
  | some out => FindFromIdeal t key fuel out

/-- Slot `j` lies on the forward wrapping probe path from the ideal bucket of
`key`, at distance `d`, with no empty slot before it. -/
def OnProbePath {V : Type} (t : ProbingHashTable V) (key j d : Nat) : Prop :=
  d < t.buckets_ ∧ (t.hash_ key % t.buckets_ + d) % t.buckets_ = j ∧
    ∀ e, e < d → t.GetKey ((t.hash_ key % t.buckets_ + e) % t.buckets_) ≠ some t.invalid_

/-- The keys of the occupied slots are pairwise distinct. -/
def DistinctKeys {V : Type} (t : ProbingHashTable V) : Prop :=
  ∀ a, a < t.buckets_ → ∀ b, b < t.buckets_ →
    t.GetKey a = t.GetKey b → t.GetKey a ≠ some t.invalid_ → a = b

end ProbingHashTable

/-! ## util/murmur_hash.cc -/

/-- Value of a little-endian byte string. -/
def leValue (bs : List Nat) : Nat := bs.foldr (fun b acc => b + 256 * acc) 0

/-- The `n` bytes of `mem` from offset `off` on (fewer at the end of the memory). -/
def slice (mem : List Nat) (off n : Nat) : List Nat := (mem.drop off).take n

/-- The multiplier `m` of MurmurHash64A. -/
def murmurM : Nat := 0xc6a4a7935bd1e995

/-- One round of the block loop of `MurmurHash64A`. -/
def murmurRound (h k : Nat) : Nat :=
  let k1 := k * murmurM % 2 ^ 64
  let k2 := k1 ^^^ (k1 >>> 47)
  let k3 := k2 * murmurM % 2 ^ 64
  (h ^^^ k3) * murmurM % 2 ^ 64

/-- The `while (data != end)` loop of `MurmurHash64A` over `blocks` words. -/
def murmurBlocks : Nat → List Nat → Nat → Nat
  | 0, _, h => h
  | blocks + 1, data, h => murmurBlocks blocks (data.drop 8) (murmurRound h (leValue (data.take 8)))

/-- The `switch (len & 7)` of `MurmurHash64A`: the cases fall through from the
last tail byte down to the first. -/
def murmurTail (tail : List Nat) (h : Nat) : Nat :=
  if tail = [] then h
  else
    ((List.range tail.length).reverse.foldl
      (fun acc i => acc ^^^ (tail.getD i 0 <<< (8 * i)) % 2 ^ 64) h) * murmurM % 2 ^ 64

/-- Embeds `MurmurHash64A(key, len, seed)` with `len` the length of `key`. -/
def MurmurHash64A (key : List Nat) (seed : Nat) : Nat :=
  let h0 := seed ^^^ (key.length * murmurM % 2 ^ 64)
  let h1 := murmurBlocks (key.length / 8) key h0
  let h2 := murmurTail (key.drop (8 * (key.length / 8))) h1
  let h3 := h2 ^^^ (h2 >>> 47)
  let h4 := h3 * murmurM % 2 ^ 64
  h4 ^^^ (h4 >>> 47)

/-- Modelled from the spec: `util::CheckOverflow` of util/exception.hh, which is
not among the sources: on a target whose `std::size_t` has 64 bits every
`uint64_t` fits and the value is returned. -/
def CheckOverflow (value : Nat) : Except Fault Nat := .ok value

end util

/-! ## lm/value.hh, lm/state.hh and the scoring functions of lm/model.cc -/

namespace lm

/-- Modelled from the spec: `ProbBackoff` of lm/weights.hh, which is not among the
sources: "a `(probability, backoff)` pair"; value.hh reads its fields `prob` and
`backoff`, both floats. -/
structure ProbBackoff where
  prob : Nat
  backoff : Nat
  deriving DecidableEq

/-- The constant `util::kSignBit`. -/
def kSignBit : Nat := 0x80000000

namespace GenericProbingProxy

/-- Embeds `GenericProbingProxy::Prob`. -/
def Prob (to_ : ProbBackoff) : Nat := to_.prob ||| kSignBit

/-- Embeds `GenericProbingProxy::Backoff`. -/
def Backoff (to_ : ProbBackoff) : Nat := to_.backoff

/-- Embeds `GenericProbingProxy::IndependentLeft`. -/
def IndependentLeft (to_ : ProbBackoff) : Bool := to_.prob &&& kSignBit != 0

/-- Embeds `BackoffValue::ProbingProxy::Rest`. -/
def Rest (to_ : ProbBackoff) : Nat := Prob to_

end GenericProbingProxy

/-- The constant `kNoExtensionBackoff`, the float `-0.0`. -/
def kNoExtensionBackoff : Nat := 0x80000000

/-- Embeds `HasExtension`. -/
def HasExtension (backoff : Nat) : Bool := kNoExtensionBackoff != backoff

/-- Embeds `State`: the arrays `words` and `backoff` as functions of the index, and `length`. -/
structure State where
  words : Nat → Nat
  backoff : Nat → Nat
  length : Nat

/-- Modelled from the spec: `FullScoreReturn` of lm/return.hh, which is not among
the sources: "probability (log base 10), `ngram_length`, an `independent_left`
flag, an `extend_left` hint, and `rest`"; these are the fields model.cc assigns. -/
structure FullScoreReturn where
  prob : Nat
  ngram_length : Nat
  independent_left : Bool
  extend_left : Nat
  rest : Nat
  deriving DecidableEq

/-- What `search_.LookupUnigram(word, node, independent_left, extend_left)`
returns and leaves in its reference arguments. -/
structure UnigramLookup where
  pointer : ProbBackoff
  node : Nat
  independent_left : Bool
  extend_left : Nat

/-- What `search_.LookupMiddle(order_minus_2, word, node, independent_left,
extend_left)` returns (`none` for a pointer that is not `Found()`) and leaves
in its reference arguments. -/
structure MiddleLookup where
  pointer : Option ProbBackoff
  node : Nat
  independent_left : Bool
  extend_left : Nat

/-- The operations model.cc calls on its `Search` (lm/search_hashed.hh is not
among the sources, so the lookups are arbitrary functions of their arguments):
`Order()`, `LookupUnigram`, `LookupMiddle` and `LookupLongest`, the last one
giving `Prob()` of the pointer, or `none` when it is not `Found()`. -/
structure Search where
  Order : Nat
  LookupUnigram : Nat → UnigramLookup
  LookupMiddle : Nat → Nat → Nat → Bool → Nat → MiddleLookup
  LookupLongest : Nat → Nat → Option Nat

/-- The variables `ResumeScore` updates through its reference and pointer
arguments: `node`, the array behind `backoff_out`, `next_use` and `ret`. -/
structure ScoreWalk where
  node : Nat
  backoff : Nat → Nat
  next_use : Nat
  ret : FullScoreReturn

namespace GenericModel

/-- Embeds `GenericModel::ResumeScore`: `remaining` is `context_rend - hist_iter`, the
context is the array `words` read at index `hist_iter`, and `backoff_out` is an
index into the backoff array of the output state. -/
def ResumeScore (search_ : Search) (words : Nat → Nat) :
    Nat → Nat → Nat → Nat → ScoreWalk → ScoreWalk
  | 0, _, _, _, w => w
  | remaining + 1, hist_iter, order_minus_2, backoff_out, w =>
    if w.ret.independent_left then w
    else if order_minus_2 + 2 = search_.Order then
      let ret := { w.ret with independent_left := true }
      match search_.LookupLongest (words hist_iter) w.node with
      | some prob =>
        { w with ret := { ret with prob := prob, rest := prob, ngram_length := search_.Order } }
      | none => { w with ret := ret }
    else
      let found := search_.LookupMiddle order_minus_2 (words hist_iter) w.node
        w.ret.independent_left w.ret.extend_left
      let ret := { w.ret with independent_left := found.independent_left,
                              extend_left := found.extend_left }
      match found.pointer with
      | none => { w with node := found.node, ret := ret }
      | some pointer =>
        let backoff := Function.update w.backoff backoff_out (GenericProbingProxy.Backoff pointer)
        let ret := { ret with prob := GenericProbingProxy.Prob pointer,
                              rest := GenericProbingProxy.Rest pointer,
                              ngram_length := (order_minus_2 + 2) % 256 }
        let next_use := if HasExtension (backoff backoff_out) then ret.ngram_length else w.next_use
        ResumeScore search_ words remaining (hist_iter + 1) ((order_minus_2 + 1) % 256)
          (backoff_out + 1)
          { node := found.node, backoff := backoff, next_use := next_use, ret := ret }

/-- Embeds `CopyRemainingHistory(from, out_state)`: the loop copies
`out_state.length - 1` words. -/
def CopyRemainingHistory (source : Nat → Nat) (out_state : State) : State :=
  { out_state with
    words := fun i => if 1 ≤ i ∧ i < out_state.length then source (i - 1) else out_state.words i }

/-- Embeds `GenericModel::ScoreExceptBackoff`: the context is the array `context_rbegin`
of `context_length = context_rend - context_rbegin` words. The function begins with
`assert(new_word < vocab_.Bound())`; the value given here is the one of a call whose
assertion holds, and a statement about a caller that looks its word ids up in
a table carries `new_word < Bound()` as a premise. -/
def ScoreExceptBackoff (search_ : Search) (context_rbegin : Nat → Nat) (context_length : Nat)
    (new_word : Nat) (out_state : State) : FullScoreReturn × State :=
  let uni := search_.LookupUnigram new_word
  let backoff := Function.update out_state.backoff 0 (GenericProbingProxy.Backoff uni.pointer)
  let ret : FullScoreReturn :=
    { ngram_length := 1, independent_left := uni.independent_left,
      extend_left := uni.extend_left, prob := GenericProbingProxy.Prob uni.pointer,
      rest := GenericProbingProxy.Rest uni.pointer }
  let length := if HasExtension (backoff 0) then 1 else 0
  let words := Function.update out_state.words 0 new_word
  if context_length = 0 then (ret, { words := words, backoff := backoff, length := length })
  else
    let w := ResumeScore search_ context_rbegin context_length 0 0 1
      { node := uni.node, backoff := backoff, next_use := length, ret := ret }
    (w.ret, CopyRemainingHistory context_rbegin
      { words := words, backoff := w.backoff, length := w.next_use })

/-- The loop of `FullScore`: `count` iterations of `ret.prob += *i` from the
index `i` of the backoff array on. -/
def chargeBackoff (backoff : Nat → Nat) : Nat → Nat → Nat → Nat
  | 0, _, prob => prob
  | count + 1, i, prob => chargeBackoff backoff count (i + 1) (F32.add prob (backoff i))

/-- Embeds `GenericModel::FullScore`; `out_state` is the content of the output storage
before the call. The loop runs over the indices from `ret.ngram_length - 1`
up to `in_state.length`, excluded. -/
def FullScore (search_ : Search) (in_state : State) (new_word : Nat) (out_state : State) :
    FullScoreReturn × State :=
  let scored := ScoreExceptBackoff search_ in_state.words in_state.length new_word out_state
  let ret := scored.1
  let prob := chargeBackoff in_state.backoff (in_state.length - (ret.ngram_length - 1))
    (ret.ngram_length - 1) ret.prob
  ({ ret with prob := prob }, scored.2)

/-- The score `prob` plus the cached backoffs `in_state.backoff[j - 1]` of the
context lengths `j` with `lo < j ≤ hi`, added in increasing order of `j`. -/
def chargedScore (in_state : State) (prob lo hi : Nat) : Nat :=
  ((List.range' (lo + 1) (hi - lo)).map fun j => in_state.backoff (j - 1)).foldl F32.add prob

end GenericModel

/-! ## lm/config.hh and the format loader of lm/model.cc -/

/-- The macro `ALIGN8`, at an argument of type `std::size_t`. -/
def ALIGN8 (a : Nat) : Nat := ((a + 2 ^ 64 - 1) % 2 ^ 64 / 8 + 1) * 8 % 2 ^ 64

/-- Embeds `Config`: the probing multiplier, a float. -/
structure Config where
  probing_multiplier : Nat

/-- Little-endian bytes of the `n`-byte unsigned integer `v`. -/
def leBytes (n v : Nat) : List Nat := (List.range n).map fun i => v / 256 ^ i % 256

/-- The constant `kMagicBeforeVersion`, without the terminating zero byte. -/
def kMagicBeforeVersion : List Nat :=
  "mmap lm http://kheafield.com/code format version".toList.map Char.toNat

/-- The constant `kMagicBytes`: the text before the version, then the characters of
`" 5\n\0"` and the terminating zero byte; `sizeof(kMagicBytes)` is its length. -/
def kMagicBytes : List Nat := kMagicBeforeVersion ++ [0x20, 0x35, 0x0A, 0, 0]

/-- The constant `kMagicIncomplete`, without the terminating zero byte. -/
def kMagicIncomplete : List Nat :=
  "mmap lm http://kheafield.com/code incomplete".toList.map Char.toNat ++ [0x0A]

/-- The constant `kMagicVersion`. -/
def kMagicVersion : Int := 5

namespace Sanity

/-- The bytes of a `Sanity` after `SetToReference()`: `magic` padded to
`ALIGN8(sizeof(kMagicBytes))` bytes, `0.0f`, `1.0f`, `-0.5f`, the word indices
`1`, `UINT_MAX` and `0`, and the 64-bit `1`. -/
def reference : List Nat :=
  kMagicBytes ++ List.replicate (ALIGN8 kMagicBytes.length - kMagicBytes.length) 0
    ++ leBytes 4 0 ++ leBytes 4 0x3F800000 ++ leBytes 4 0xBF000000
    ++ leBytes 4 1 ++ leBytes 4 (2 ^ 32 - 1) ++ leBytes 4 0
    ++ leBytes 8 1

end Sanity

/-- The size `sizeof(Sanity)`. -/
def sizeofSanity : Nat := 88

namespace OldSanity

/-- The bytes of an `OldSanity` after `SetToReference()`: `magic` of
`sizeof(kMagicBytes)` bytes, three padding bytes, the three floats, two word
indices, four padding bytes and the 64-bit `1`. -/
def reference : List Nat :=
  kMagicBytes ++ List.replicate 3 0
    ++ leBytes 4 0 ++ leBytes 4 0x3F800000 ++ leBytes 4 0xBF000000
    ++ leBytes 4 1 ++ leBytes 4 (2 ^ 32 - 1) ++ List.replicate 4 0
    ++ leBytes 8 1

end OldSanity

/-- The test `!std::memcmp(data, pat, n)` with `n` the length of `pat`; without a meaning
when `data` holds fewer than `n` bytes. -/
def memcmpEq (data pat : List Nat) : Option Bool :=
  if data.length < pat.length then none else some (data.take pat.length == pat)

/-- Embeds `isspace` in the "C" locale. -/
def isspace (c : Nat) : Bool := c == 0x20 || (0x09 ≤ c && c ≤ 0x0D)

/-- Embeds `isdigit`. -/
def isdigit (c : Nat) : Bool := 0x30 ≤ c && c ≤ 0x39

/-- The digit scan of `strtol`: the value and the number of digits read up to
the first byte that is not a digit; `none` when the memory ends before. -/
def strtolDigits : List Nat → Nat → Nat → Option (Nat × Nat)
  | [], _, _ => none
  | c :: cs, acc, n =>
    if isdigit c then strtolDigits cs (acc * 10 + (c - 0x30)) (n + 1) else some (acc, n)

/-- The range of `long` on an LP64 target. -/
def strtolClamp (v : Int) : Int := max (-(2 ^ 63)) (min (2 ^ 63 - 1) v)

/-- Embeds `std::strtol(nptr, &end_ptr, 10)` on the bytes from `nptr` on: the value and
`end_ptr - nptr`; `none` when the scan leaves the memory. -/
def strtol (s : List Nat) : Option (Int × Nat) :=
  match s.dropWhile isspace with
  | [] => none
  | c :: rest =>
    let signLen := if c = 0x2B ∨ c = 0x2D then 1 else 0
    match strtolDigits (if signLen = 1 then rest else c :: rest) 0 0 with
    | none => none
    | some (v, n) =>
      if n = 0 then some (0, 0)
      else some (strtolClamp (if c = 0x2D then -(v : Int) else v),
        (s.takeWhile isspace).length + signLen + n)

/-- The constant `util::kBadSize`. -/
def kBadSize : Nat := 2 ^ 64 - 1

/-- Embeds `IsBinaryFormat(file_size, data)`; `data` is the memory from the pointer on. -/
def IsBinaryFormat (file_size : Nat) (data : List Nat) : Except Fault Bool :=
  if file_size = kBadSize ∨ file_size ≤ sizeofSanity then .ok false
  else
    match memcmpEq data Sanity.reference with
    | none => .error .undefinedBehaviour
    | some true => .ok true
    | some false =>
      match memcmpEq data kMagicIncomplete with
      | none => .error .undefinedBehaviour
      | some true => .error (.FormatLoadException .didNotFinishBuilding)
      | some false =>
        match memcmpEq data kMagicBeforeVersion with
        | none => .error .undefinedBehaviour
        | some false => .ok false
        | some true =>
          match strtol (data.drop kMagicBeforeVersion.length) with
          | none => .error .undefinedBehaviour
          | some (version, len) =>
            if len ≠ 0 ∧ version ≠ kMagicVersion then
              .error (.FormatLoadException (.versionMismatch version))
            else
              match memcmpEq data OldSanity.reference with
              | none => .error .undefinedBehaviour
              | some true => .error (.FormatLoadException .old32BitFormat)
              | some false => .error (.FormatLoadException .testValuesDontMatch)

/-- The `n`-byte little-endian unsigned integer at offset `off` of `mem`; `none`
when the bytes are not all inside `mem`. -/
def readLE (n : Nat) (mem : List Nat) (off : Nat) : Option Nat :=
  if mem.length < off + n then none else some (util.leValue (util.slice mem off n))

/-- Embeds `FixedWidthParameters`; `model_type` is the number of the `ModelType`. -/
structure FixedWidthParameters where
  order : Nat
  probing_multiplier : Nat
  model_type : Nat
  has_vocabulary : Bool
  search_version : Nat
  deriving DecidableEq

/-- The size `sizeof(FixedWidthParameters)`: `order` at offset 0, `probing_multiplier` at 4,
`model_type` at 8, `has_vocabulary` at 12 and `search_version` at 16. -/
def sizeofFixedWidthParameters : Nat := 20

/-- The copy `memcpy(&parameters.fixed, mem + off, sizeof(FixedWidthParameters))`; a
`bool` is true when its byte is not zero. -/
def FixedWidthParameters.read (mem : List Nat) (off : Nat) : Option FixedWidthParameters :=
  if mem.length < off + sizeofFixedWidthParameters then none
  else some
    { order := util.leValue (util.slice mem off 1)
      probing_multiplier := util.leValue (util.slice mem (off + 4) 4)
      model_type := util.leValue (util.slice mem (off + 8) 4)
      has_vocabulary := util.leValue (util.slice mem (off + 12) 1) != 0
      search_version := util.leValue (util.slice mem (off + 16) 4) }

/-- Embeds `Parameters`. -/
structure Parameters where
  fixed : FixedWidthParameters
  counts : List Nat
  deriving DecidableEq

/-- Embeds `TotalHeaderSize`. -/
def TotalHeaderSize (order : Nat) : Nat :=
  ALIGN8 (sizeofSanity + sizeofFixedWidthParameters + 8 * order)

/-- Embeds `CheckHeader`: the multiplier test, then `counts.resize(order)`. -/
def CheckHeader (fixed : FixedWidthParameters) : Except Fault Parameters :=
  if F32.lt fixed.probing_multiplier F32.one then
    .error (.FormatLoadException .probingMultiplierBelowOne)
  else .ok { fixed := fixed, counts := List.replicate fixed.order 0 }

/-- The `memcpy` of the counts in the constructor: `order` 64-bit counts right
after the fixed-width parameters, nothing for order zero. -/
def readCounts (readen_content : List Nat) (parameters : Parameters) : Option (List Nat) :=
  if parameters.fixed.order = 0 then some parameters.counts
  else if readen_content.length
      < sizeofSanity + sizeofFixedWidthParameters + 8 * parameters.fixed.order then none
  else some ((List.range parameters.fixed.order).map fun i =>
    util.leValue (util.slice readen_content (sizeofSanity + sizeofFixedWidthParameters + 8 * i) 8))

/-- The size `sizeof(kModelNames) / sizeof(const char *)`. -/
def kModelNamesLength : Nat := 1

/-- Embeds `MatchCheck`. -/
def MatchCheck (model_type search_version : Nat) (params : Parameters) : Except Fault Unit :=
  if params.fixed.model_type ≠ model_type then
    if kModelNamesLength ≤ params.fixed.model_type then
      .error (.FormatLoadException (.modelTypeNotImplemented params.fixed.model_type))
    else .error (.FormatLoadException (.modelTypeMismatch params.fixed.model_type))
  else if search_version ≠ params.fixed.search_version then
    .error (.FormatLoadException (.searchVersionMismatch params.fixed.search_version))
  else .ok ()

/-! ### lm/vocab.hh and lm/vocab.cc -/

/-- Embeds `detail::HashForVocab`. -/
def HashForVocab (str : List Nat) : Nat := util.MurmurHash64A str 0

/-- The constant `kProbingVocabularyVersion`. -/
def kProbingVocabularyVersion : Nat := 0

/-- The size `sizeof(detail::ProbingVocabularyHeader)`: `version` at offset 0, `bound` at 4. -/
def sizeofProbingVocabularyHeader : Nat := 8

/-- The size `sizeof(ProbingVocabularyEntry)` under `#pragma pack(4)`: `key` at offset 0,
`value` at 8. -/
def sizeofProbingVocabularyEntry : Nat := 12

/-- The memory `mem` read as an array of entries of `sizeofEntry` bytes, the
64-bit key first and the value, decoded by `value`, behind it. -/
def readEntries {V : Type} (sizeofEntry : Nat) (value : List Nat → V) (mem : List Nat) :
    List (util.Entry V) :=
  (List.range (mem.length / sizeofEntry)).map fun i =>
    { key := util.leValue (util.slice mem (sizeofEntry * i) 8)
      value := value (util.slice mem (sizeofEntry * i + 8) (sizeofEntry - 8)) }

/-- Embeds `util::IdentityHash`. -/
def IdentityHash (arg : Nat) : Nat := arg

/-- Embeds `ProbingVocabulary`, with the special word indices of `base::Vocabulary`. -/
structure ProbingVocabulary where
  lookup_ : util.ProbingHashTable Nat
  bound_ : Nat
  begin_sentence_ : Nat
  end_sentence_ : Nat
  not_found_ : Nat

namespace ProbingVocabulary

/-- Embeds `ProbingVocabulary::Index` on the table `lookup_`; the probe loop either ends
within `buckets_` inspections or never. -/
def Index (lookup_ : util.ProbingHashTable Nat) (str : List Nat) : Option Nat :=
  match lookup_.Find (HashForVocab str) lookup_.buckets_ with
  | none => none
  | some (true, i) => (lookup_.slots[i]?).map util.Entry.value
  | some (false, _) => some 0

/-- Embeds `ProbingVocabulary::Size`. -/
def Size (entries probing_multiplier : Nat) : Option Nat :=
  (util.ProbingHashTable.Size sizeofProbingVocabularyEntry entries probing_multiplier).map
    fun table => (ALIGN8 sizeofProbingVocabularyHeader + table) % 2 ^ 64

/-- Embeds `ProbingVocabulary::SetupMemory(start, allocated)`; `start` is the memory
from the pointer on. -/
def SetupMemory (start : List Nat) (allocated : Nat) : Except Fault ProbingVocabulary :=
  let lookup_ : util.ProbingHashTable Nat :=
    util.ProbingHashTable.construct sizeofProbingVocabularyEntry
      (readEntries sizeofProbingVocabularyEntry util.leValue
        (start.drop (ALIGN8 sizeofProbingVocabularyHeader)))
      allocated 0 IdentityHash
  match readLE 4 start 0 with
  | none => .error .undefinedBehaviour
  | some version =>
    if version ≠ kProbingVocabularyVersion then
      .error (.FormatLoadException (.vocabularyVersion version))
    else
      match readLE 4 start 4 with
      | none => .error .undefinedBehaviour
      | some bound =>
        match Index lookup_ ("<s>".toList.map Char.toNat),
              Index lookup_ ("</s>".toList.map Char.toNat) with
        | some begin_sentence, some end_sentence =>
          .ok { lookup_ := lookup_, bound_ := bound, begin_sentence_ := begin_sentence,
                end_sentence_ := end_sentence, not_found_ := 0 }
        | _, _ => .error .undefinedBehaviour

end ProbingVocabulary

/-! ### lm/search_hashed.cc -/

/-- Modelled from the spec: the class `Unigram` of lm/search_hashed.hh, which is not
among the sources, as constructed by `Unigram(start, count)`: "one dense array
for unigrams, indexed directly by `WordIndex`". -/
structure Unigram where
  start : List Nat
  count : Nat

/-- The members of `HashedSearch` that `SetupMemory` assigns. -/
structure HashedSearch where
  unigram_ : Unigram
  middle_ : List (util.ProbingHashTable ProbBackoff)
  longest_ : util.ProbingHashTable Nat

/-- The size `sizeof(BackoffValue::ProbingEntry)`: `key` at offset 0, `value` at 8. -/
def sizeofProbingEntry : Nat := 16

/-- Modelled from the spec: a `ProbBackoff` in memory, "{prob:f32, backoff:f32}". -/
def readProbBackoff (bytes : List Nat) : ProbBackoff :=
  { prob := util.leValue (util.slice bytes 0 4), backoff := util.leValue (util.slice bytes 4 4) }

/-- What is compiled into the engine by headers that are not among the sources:
`KENLM_MAX_ORDER` (lm/max_order.hh), and from lm/search_hashed.hh the constants
`Search::kModelType` and `Search::kVersion`, `Unigram::Size`, the size of an
entry of the longest table, `Search::Size`, and the lookups on a search that
`SetupMemory` has placed. -/
structure Build where
  KENLM_MAX_ORDER : Nat
  kModelType : Nat
  kVersion : Nat
  UnigramSize : Nat → Nat
  sizeofLongestEntry : Nat
  SearchSize : List Nat → Config → Option Nat
  ops : HashedSearch → Search

/-- Embeds `CheckCounts`; the loop over the counts is compiled out where `std::size_t`
has 64 bits. -/
def CheckCounts (b : Build) (counts : List Nat) : Except Fault Unit :=
  if b.KENLM_MAX_ORDER < counts.length then
    .error (.FormatLoadException (.orderTooHigh counts.length))
  else .ok ()

namespace HashedSearch

/-- The `for` loop of `HashedSearch::SetupMemory` over the counts of the middle
orders: the tables pushed to `middle_` and the advanced offset. -/
def SetupMiddle (mem : List Nat) (config : Config) :
    List Nat → Nat → List (util.ProbingHashTable ProbBackoff) →
      Option (List (util.ProbingHashTable ProbBackoff) × Nat)
  | [], start, middle_ => some (middle_, start)
  | count :: counts, start, middle_ =>
    match util.ProbingHashTable.Size sizeofProbingEntry count config.probing_multiplier with
    | none => none
    | some allocated =>
      SetupMiddle mem config counts (start + allocated)
        (middle_ ++ [util.ProbingHashTable.construct sizeofProbingEntry
          (readEntries sizeofProbingEntry readProbBackoff (mem.drop start)) allocated 0
          IdentityHash])

/-- Embeds `HashedSearch::SetupMemory(start, counts, config)`: the search and the
number of bytes the returned pointer is advanced from `start`. -/
def SetupMemory (b : Build) (start : List Nat) (counts : List Nat) (config : Config) :
    Except Fault (HashedSearch × Nat) :=
  match counts.head?, counts.getLast? with
  | some first, some last =>
    match SetupMiddle start config (counts.drop 1).dropLast (b.UnigramSize first) [] with
    | none => .error .undefinedBehaviour
    | some (middle_, offset) =>
      match util.ProbingHashTable.Size b.sizeofLongestEntry last config.probing_multiplier with
      | none => .error .undefinedBehaviour
      | some allocated =>
        .ok ({ unigram_ := { start := start, count := first }
               middle_ := middle_
               longest_ := util.ProbingHashTable.construct b.sizeofLongestEntry
                 (readEntries b.sizeofLongestEntry util.leValue (start.drop offset)) allocated 0
                 IdentityHash },
             offset + allocated)
  | _, _ => .error .undefinedBehaviour

/-- Modelled from the spec: `HashedSearch::Size`, declared in lm/search_hashed.hh,
which is not among the sources. "Memory sizing: unigram bytes + Σ middle-table
bytes (each sized via the Open-Addressing Table capacity contract with the
configured load-factor multiplier) + longest-table bytes." -/
def Size (UnigramSize : Nat → Nat) (sizeofLongestEntry : Nat) (counts : List Nat)
    (config : Config) : Option Nat :=
  match counts.head?, counts.getLast? with
  | some first, some last =>
    match ((counts.drop 1).dropLast).mapM
        (fun count => util.ProbingHashTable.Size sizeofProbingEntry count
          config.probing_multiplier),
      util.ProbingHashTable.Size sizeofLongestEntry last config.probing_multiplier with
    | some middle, some longest => some ((UnigramSize first + middle.sum + longest) % 2 ^ 64)
    | _, _ => none
  | _, _ => none

end HashedSearch

/-! ### The constructor of `GenericModel` -/

/-- The members of a constructed `GenericModel`: the vocabulary, the search with
its lookups, and what `Init` stores. -/
structure GenericModel where
  vocab_ : ProbingVocabulary
  search_ : HashedSearch
  ops : Search
  begin_sentence_ : State
  null_context_ : State
  order_ : Nat

namespace GenericModel

/-- Embeds `GenericModel::Size`. -/
def Size (b : Build) (counts : List Nat) (config : Config) : Option Nat :=
  match counts.head? with
  | none => none
  | some first =>
    match ProbingVocabulary.Size first config.probing_multiplier, b.SearchSize counts config with
    | some vocab, some search => some ((vocab + search) % 2 ^ 64)
    | _, _ => none

/-- Embeds `GenericModel::SetupMemory(base, counts, config)`; `base` is the memory from
the pointer on. -/
def SetupMemory (b : Build) (base : List Nat) (counts : List Nat) (config : Config) :
    Except Fault (ProbingVocabulary × HashedSearch) :=
  match Size b counts config with
  | none => .error .undefinedBehaviour
  | some size =>
    match util.CheckOverflow size with
    | .error e => .error e
    | .ok goal_size =>
      match counts.head?.bind fun first => ProbingVocabulary.Size first config.probing_multiplier with
      | none => .error .undefinedBehaviour
      | some allocated =>
        match ProbingVocabulary.SetupMemory base allocated with
        | .error e => .error e
        | .ok vocab_ =>
          match HashedSearch.SetupMemory b (base.drop allocated) counts config with
          | .error e => .error e
          | .ok (search_, advanced) =>
            if (allocated + advanced) % 2 ^ 64 ≠ goal_size then
              .error (.FormatLoadException (.sizeMismatch ((allocated + advanced) % 2 ^ 64) goal_size))
            else .ok (vocab_, search_)

/-- The constructor up to the recognition of the format: the copy of the buffer
to `readen_content`, `IsBinaryFormat`, and the throw when it is false. -/
def recognise (file_size : Nat) (data : List Nat) : Except Fault (List Nat) :=
  if data.length < file_size then .error .undefinedBehaviour
  else
    match IsBinaryFormat file_size (data.take file_size) with
    | .error e => .error e
    | .ok false => .error (.FormatLoadException .notBinaryFormat)
    | .ok true => .ok (data.take file_size)

/-- The constructor from the `memcpy` of the fixed-width parameters to the test
of `has_vocabulary`: the parameters read from `readen_content` and validated. -/
def readParameters (b : Build) (readen_content : List Nat) : Except Fault Parameters :=
  match FixedWidthParameters.read readen_content sizeofSanity with
  | none => .error .undefinedBehaviour
  | some fixed =>
    match CheckHeader fixed with
    | .error e => .error e
    | .ok resized =>
      match readCounts readen_content resized with
      | none => .error .undefinedBehaviour
      | some counts =>
        let parameters : Parameters := { fixed := fixed, counts := counts }
        match MatchCheck b.kModelType b.kVersion parameters with
        | .error e => .error e
        | .ok _ =>
          match CheckCounts b parameters.counts with
          | .error e => .error e
          | .ok _ =>
            if !parameters.fixed.has_vocabulary then .error (.FormatLoadException .noVocabulary)
            else .ok parameters

/-- The constructor from the computation of `size` to the test of the file size
against `total_map`: the header size when the test passes. -/
def checkFileSize (b : Build) (file_size : Nat) (parameters : Parameters) : Except Fault Nat :=
  let header_size := TotalHeaderSize parameters.counts.length
  match Size b parameters.counts { probing_multiplier := parameters.fixed.probing_multiplier } with
  | none => .error .undefinedBehaviour
  | some size =>
    let total_map := (header_size + size) % 2 ^ 64
    if file_size ≠ kBadSize ∧ file_size < total_map then
      .error (.FormatLoadException (.fileTooSmall file_size total_map))
    else .ok header_size

/-- The end of the constructor: `SetupMemory` on the bytes behind the header,
the begin-of-sentence and null-context states, and `Init`. -/
def setup (b : Build) (readen_content : List Nat) (parameters : Parameters) (header_size : Nat) :
    Except Fault GenericModel :=
  match SetupMemory b (readen_content.drop header_size) parameters.counts
      { probing_multiplier := parameters.fixed.probing_multiplier } with
  | .error e => .error e
  | .ok (vocab_, search_) =>
    let ops := b.ops search_
    .ok { vocab_ := vocab_
          search_ := search_
          ops := ops
          begin_sentence_ :=
            { words := Function.update (fun _ => 0) 0 vocab_.begin_sentence_
              backoff := Function.update (fun _ => 0) 0
                (GenericProbingProxy.Backoff (ops.LookupUnigram vocab_.begin_sentence_).pointer)
              length := 1 }
          null_context_ := { words := fun _ => 0, backoff := fun _ => 0, length := 0 }
          order_ := ops.Order }

/-- The constructor `GenericModel(file_size, data, init_config)`; the multiplier
of `init_config` is overwritten by the one of the file. -/
def construct (b : Build) (file_size : Nat) (data : List Nat) (_init_config : Config) :
    Except Fault GenericModel :=
  match recognise file_size data with
  | .error e => .error e
  | .ok readen_content =>
    match readParameters b readen_content with
    | .error e => .error e
    | .ok parameters =>
      match checkFileSize b file_size parameters with
      | .error e => .error e
      | .ok header_size => setup b readen_content parameters header_size

end GenericModel

/-- Modelled from the spec: a build whose search has the layout the spec gives
for the parts declared in lm/search_hashed.hh, which is not among the sources:
a unigram array of `count[0]` records of a 4-byte probability and a 4-byte
backoff, entries of the longest table made of the 8-byte key and a 4-byte
probability, and `HashedSearch::Size` as modelled above; `PROBING` is the only
model type and has the number 0. -/
def specBuild (KENLM_MAX_ORDER kVersion : Nat) (ops : HashedSearch → Search) : Build :=
  { KENLM_MAX_ORDER := KENLM_MAX_ORDER
    kModelType := 0
    kVersion := kVersion
    UnigramSize := fun count => 8 * count % 2 ^ 64
    sizeofLongestEntry := 12
    SearchSize := HashedSearch.Size (fun count => 8 * count % 2 ^ 64) 12
    ops := ops }

end lm

/-! ## Notions for the statements about the scoring walk -/

namespace lm
namespace GenericModel

/-- The variables of `ScoreExceptBackoff` after the unigram lookup, as they are
handed to `ResumeScore`. -/
def seedWalk (search_ : Search) (new_word : Nat) (out_state : State) : ScoreWalk :=
  let uni := search_.LookupUnigram new_word
  let backoff := Function.update out_state.backoff 0 (GenericProbingProxy.Backoff uni.pointer)
  { node := uni.node, backoff := backoff, next_use := if HasExtension (backoff 0) then 1 else 0,
    ret := { ngram_length := 1, independent_left := uni.independent_left,
             extend_left := uni.extend_left, prob := GenericProbingProxy.Prob uni.pointer,
             rest := GenericProbingProxy.Rest uni.pointer } }

/-- The walk of `ScoreExceptBackoff` over the first `Order() - 2` words of the
context: the unigram lookup and the lookups in the middle tables, up to the
point where `ResumeScore` leaves its loop for the longest table. -/
def middleWalk (search_ : Search) (context_rbegin : Nat → Nat) (new_word : Nat)
    (out_state : State) : ScoreWalk :=
  ResumeScore search_ context_rbegin (search_.Order - 2) 0 0 1
    (seedWalk search_ new_word out_state)

/-- Follows the spec's words ("walk the input context words nearest-first through
increasing orders ... on a miss, stop; on a hit, update ... the output backoff
slot for that order"; an independent-left tag stops the walk, and so does the
order of the longest table): the backoffs looked up in the middle tables, the
one of order `i + 2` being looked up with the context word `i`. -/
def middleBackoffs (search_ : Search) (words : Nat → Nat) :
    Nat → Nat → Nat → Bool → Nat → List Nat
  | 0, _, _, _, _ => []
  | remaining + 1, i, node, independent_left, extend_left =>
    if independent_left then []
    else if i + 2 = search_.Order then []
    else
      let found := search_.LookupMiddle i (words i) node independent_left extend_left
      match found.pointer with
      | none => []
      | some pointer =>
        GenericProbingProxy.Backoff pointer ::
          middleBackoffs search_ words remaining (i + 1) found.node found.independent_left
            found.extend_left

/-- Follows the spec's words: the backoffs looked up during the walk of one
scoring step, in increasing order: entry `n - 1` of the list is the backoff
looked up at order `n`, the one of the unigram first. -/
def lookedUpBackoffs (search_ : Search) (context_rbegin : Nat → Nat) (context_length : Nat)
    (new_word : Nat) : List Nat :=
  let uni := search_.LookupUnigram new_word
  GenericProbingProxy.Backoff uni.pointer ::
    middleBackoffs search_ context_rbegin context_length 0 uni.node uni.independent_left
      uni.extend_left

/-- Follows the spec's words: `n` is the useful output-context length of the
looked-up backoffs `bs`, "the largest order whose looked-up backoff is not the
no-extension sentinel, or 0 if there is none". -/
def IsUsefulLength (bs : List Nat) (n : Nat) : Prop :=
  n ≤ bs.length ∧ (n ≠ 0 → HasExtension (bs.getD (n - 1) 0) = true) ∧
    ∀ j, n < j → j ≤ bs.length → HasExtension (bs.getD (j - 1) 0) = false

/-- The states a caller can hold: `BeginSentenceState()`, `NullContextState()`, and
the output state of `FullScore` on a state it holds, whatever word is scored and
whatever the output storage held before. -/
inductive Reachable (model : GenericModel) : State → Prop
  | begin_sentence : Reachable model model.begin_sentence_
  | null_context : Reachable model model.null_context_
  | full_score (in_state : State) (new_word : Nat) (out_state : State) :
      Reachable model in_state →
      Reachable model (FullScore model.ops in_state new_word out_state).2

end GenericModel
end lm

/-! ## clb/clb.cc -/

namespace clb

/-- Modelled from the spec: the tokens the loop of `kenlm_query` cuts out of the
text with `piece.find_first_of(' ', prev_pos)` and `piece.substr(prev_pos, pos -
prev_pos)`; `StringPiece` of util/string_piece.hh is not among the sources, and
the two operations are taken to be the ones of `std::string`. The loop is a
`do ... while`, so a text without a blank is one token, and two blanks in a row
enclose an empty token. The first argument holds the bytes of the token being
read. -/
def splitWords : List Nat → List Nat → List (List Nat)
  | word, [] => [word]
  | word, c :: rest => if c = 0x20 then word :: splitWords [] rest else splitWords (word ++ [c]) rest

/-- The variables of `kenlm_query` that its loop updates, and the values `ret`
has taken so far. -/
structure QueryLoop where
  total : Nat
  state : lm.State
  out : lm.State
  rets : List lm.FullScoreReturn

/-- The loop of `kenlm_query` over the tokens of the text; `none` when `Index` does
not return. -/
def scoreWords (pModel : lm.GenericModel) : List (List Nat) → QueryLoop → Option QueryLoop
  | [], q => some q
  | word :: rest, q =>
    match lm.ProbingVocabulary.Index pModel.vocab_.lookup_ word with
    | none => none
    | some vocab =>
      let scored := lm.GenericModel.FullScore pModel.ops q.state vocab q.out
      scoreWords pModel rest
        { total := F32.add q.total scored.1.prob, state := scored.2, out := scored.2,
          rets := q.rets ++ [scored.1] }

/-- The body of `kenlm_query` for a handle that is not null: the loop over the
tokens from `BeginSentenceState()` on and the final score of `EndSentence()`; the
argument `out` is the content of the local `out` before the first call. -/
def queryLoop (pModel : lm.GenericModel) (pTag : List Nat) (out : lm.State) : Option QueryLoop :=
  match scoreWords pModel (splitWords [] pTag)
      { total := 0, state := pModel.begin_sentence_, out := out, rets := [] } with
  | none => none
  | some q =>
    let scored := lm.GenericModel.FullScore pModel.ops q.state pModel.vocab_.end_sentence_ q.out
    some { total := F32.add q.total scored.1.prob, state := q.state, out := scored.2,
           rets := q.rets ++ [scored.1] }

/-- Embeds `kenlm_query(pHandle, pTag)`: the handle is `none` for the null pointer and
`pTag` holds the bytes of the text before its terminating zero. Nothing in
the body throws, so the `catch` clause is never entered. -/
def kenlm_query (pHandle : Option lm.GenericModel) (pTag : List Nat) (out : lm.State) :
    Option Nat :=
  match pHandle with
  | none => some 0
  | some pModel => (queryLoop pModel pTag out).map QueryLoop.total

end clb

/-! ## The consistency check of util/probing_hash_table.hh -/

namespace util

/-- What `CheckConsistency` throws, and the reads it does outside the memory. -/
inductive ConsistencyFault
  /-- The `ProbingSizeException` with the text "Completely full". -/
  | ProbingSizeException
  /-- The `Exception` "Inconsistency at position `position` should be at `ideal`". -/
  | shouldBeAt (position ideal : Nat)
  /-- The `Exception` "Inconsistency at position `position` with ideal `ideal`". -/
  | withIdeal (position ideal : Nat)
  /-- A read outside the memory, or a remainder by zero buckets. -/
  | undefinedBehaviour
  deriving DecidableEq

namespace ProbingHashTable

/-- The first loop of `CheckConsistency`, `for (last = end_ - 1; last >= begin_ &&
!equal_(last->GetKey(), invalid_); --last)`, with `n` slots left to inspect: the
final `last` as an offset from `begin_`, `none` standing for `begin_ - 1`; the
outer `none` is a read outside the memory. -/
def lastInvalid {V : Type} (t : ProbingHashTable V) : Nat → Option (Option Nat)
  | 0 => some none
  | n + 1 =>
    match t.GetKey n with
    | none => none
    | some got => if got = t.invalid_ then some (some n) else lastInvalid t n

/-- The comparison `ideal <= last` of two iterators, `last` being `none` for
`begin_ - 1`. -/
def leLast (ideal : Nat) : Option Nat → Bool
  | none => false
  | some last => decide (ideal ≤ last)

/-- The second loop of `CheckConsistency`, `for (i = begin_; !equal_(i->GetKey(),
invalid_); ++i)`, over the memory `mem` from the iterator `i` on: the final `i`.
The loop does not compare `i` with `end_`. -/
def checkWrapped {V : Type} (t : ProbingHashTable V) (last : Option Nat) :
    List (Entry V) → Nat → Except ConsistencyFault Nat
  | [], _ => .error .undefinedBehaviour
  | entry :: mem, i =>
    if entry.key = t.invalid_ then .ok i
    else
      match t.Ideal entry.key with
      | none => .error .undefinedBehaviour
      | some ideal =>
        if i < ideal ∧ leLast ideal last = true then .error (.shouldBeAt i ideal)
        else checkWrapped t last mem (i + 1)

/-- The third loop of `CheckConsistency`, `for (; i != end_; ++i)`, over the memory
`mem` from the iterator `i` on. -/
def checkRuns {V : Type} (t : ProbingHashTable V) :
    List (Entry V) → Nat → Nat → Except ConsistencyFault Unit
  | [], i, _ => if i = t.buckets_ then .ok () else .error .undefinedBehaviour
  | entry :: mem, i, pre_gap =>
    if i = t.buckets_ then .ok ()
    else if entry.key = t.invalid_ then checkRuns t mem (i + 1) i
    else
      match t.Ideal entry.key with
      | none => .error .undefinedBehaviour
      | some ideal =>
        if i < ideal ∨ ideal ≤ pre_gap then .error (.withIdeal i ideal)
        else checkRuns t mem (i + 1) pre_gap

/-- Embeds `ProbingHashTable::CheckConsistency`. -/
def CheckConsistency {V : Type} (t : ProbingHashTable V) : Except ConsistencyFault Unit :=
  match lastInvalid t t.buckets_ with
  | none => .error .undefinedBehaviour
  | some last =>
    if last = some 0 then .error .ProbingSizeException
    else
      match checkWrapped t last t.slots 0 with
      | .error e => .error e
      | .ok i => checkRuns t (t.slots.drop i) i i

/-- Follows the spec's words: the table "contains at least one empty slot". -/
def HasEmptySlot {V : Type} (t : ProbingHashTable V) : Prop :=
  ∃ s, s < t.buckets_ ∧ t.GetKey s = some t.invalid_

/-- Follows the spec's words: "each occupied slot is reachable from its key's ideal
bucket by forward wrapping probing without crossing an empty slot". -/
def EachOccupiedReachable {V : Type} (t : ProbingHashTable V) : Prop :=
  ∀ j key, j < t.buckets_ → t.GetKey j = some key → key ≠ t.invalid_ → ∃ d, t.OnProbePath key j d

end ProbingHashTable
end util

/-! ## Notions for the statements about sequences of scoring steps -/

namespace lm
namespace GenericModel

/-- Follows the spec's words: `Prob()` of the entries matched above the unigram
during the walk, in increasing order: the hits in the middle tables, the one of
order `i + 2` being looked up with the context word `i`, and the hit in the
longest table. -/
def matchedProbs (search_ : Search) (words : Nat → Nat) :
    Nat → Nat → Nat → Bool → Nat → List Nat
  | 0, _, _, _, _ => []
  | remaining + 1, i, node, independent_left, extend_left =>
    if independent_left then []
    else if i + 2 = search_.Order then
      match search_.LookupLongest (words i) node with
      | some prob => [prob]
      | none => []
    else
      let found := search_.LookupMiddle i (words i) node independent_left extend_left
      match found.pointer with
      | none => []
      | some pointer =>
        GenericProbingProxy.Prob pointer ::
          matchedProbs search_ words remaining (i + 1) found.node found.independent_left
            found.extend_left

/-- Follows the spec's words: `Prob()` of the entries matched by one scoring step,
in increasing order, the unigram first; the last one belongs to "the
highest-order entry matched". -/
def matchedEntries (search_ : Search) (context_rbegin : Nat → Nat) (context_length : Nat)
    (new_word : Nat) : List Nat :=
  let uni := search_.LookupUnigram new_word
  GenericProbingProxy.Prob uni.pointer ::
    matchedProbs search_ context_rbegin context_length 0 uni.node uni.independent_left
      uni.extend_left

/-- What a scoring step reads or writes at an index that the walk computes. -/
inductive Access
  /-- The table `middle_[order_minus_2]` that `LookupMiddle` is called on. -/
  | middleTable (order_minus_2 : Nat)
  /-- The read of `in_state.words[index]`. -/
  | contextWord (index : Nat)
  /-- The write to `out_state.backoff[index]`. -/
  | backoffWrite (index : Nat)
  deriving DecidableEq

/-- Embeds `GenericModel::ResumeScore` once more, now with the list of the accesses
it makes: `*hist_iter` is the read of the context word `hist_iter`, and
`*backoff_out = ...` the write to the backoff slot `backoff_out`. -/
def ResumeScoreLogged (search_ : Search) (words : Nat → Nat) :
    Nat → Nat → Nat → Nat → ScoreWalk → ScoreWalk × List Access
  | 0, _, _, _, w => (w, [])
  | remaining + 1, hist_iter, order_minus_2, backoff_out, w =>
    if w.ret.independent_left then (w, [])
    else if order_minus_2 + 2 = search_.Order then
      let ret := { w.ret with independent_left := true }
      match search_.LookupLongest (words hist_iter) w.node with
      | some prob =>
        ({ w with ret := { ret with prob := prob, rest := prob, ngram_length := search_.Order } },
          [.contextWord hist_iter])
      | none => ({ w with ret := ret }, [.contextWord hist_iter])
    else
      let found := search_.LookupMiddle order_minus_2 (words hist_iter) w.node
        w.ret.independent_left w.ret.extend_left
      let ret := { w.ret with independent_left := found.independent_left,
                              extend_left := found.extend_left }
      match found.pointer with
      | none =>
        ({ w with node := found.node, ret := ret },
          [.middleTable order_minus_2, .contextWord hist_iter])
      | some pointer =>
        let backoff := Function.update w.backoff backoff_out (GenericProbingProxy.Backoff pointer)
        let ret := { ret with prob := GenericProbingProxy.Prob pointer,
                              rest := GenericProbingProxy.Rest pointer,
                              ngram_length := (order_minus_2 + 2) % 256 }
        let next_use := if HasExtension (backoff backoff_out) then ret.ngram_length else w.next_use
        let rest := ResumeScoreLogged search_ words remaining (hist_iter + 1)
          ((order_minus_2 + 1) % 256) (backoff_out + 1)
          { node := found.node, backoff := backoff, next_use := next_use, ret := ret }
        (rest.1,
          [.middleTable order_minus_2, .contextWord hist_iter, .backoffWrite backoff_out] ++ rest.2)

/-- The accesses of `ScoreExceptBackoff`: the write of `out_state.backoff[0]`, the
ones of `ResumeScore`, and the reads `*in` of `CopyRemainingHistory`, which
copies `out_state.length - 1` words. -/
def ScoreExceptBackoffLogged (search_ : Search) (context_rbegin : Nat → Nat) (context_length : Nat)
    (new_word : Nat) (out_state : State) : (FullScoreReturn × State) × List Access :=
  let uni := search_.LookupUnigram new_word
  let backoff := Function.update out_state.backoff 0 (GenericProbingProxy.Backoff uni.pointer)
  let ret : FullScoreReturn :=
    { ngram_length := 1, independent_left := uni.independent_left,
      extend_left := uni.extend_left, prob := GenericProbingProxy.Prob uni.pointer,
      rest := GenericProbingProxy.Rest uni.pointer }
  let length := if HasExtension (backoff 0) then 1 else 0
  let words := Function.update out_state.words 0 new_word
  if context_length = 0 then
    ((ret, { words := words, backoff := backoff, length := length }), [.backoffWrite 0])
  else
    let walk := ResumeScoreLogged search_ context_rbegin context_length 0 0 1
      { node := uni.node, backoff := backoff, next_use := length, ret := ret }
    ((walk.1.ret, CopyRemainingHistory context_rbegin
        { words := words, backoff := walk.1.backoff, length := walk.1.next_use }),
      [.backoffWrite 0] ++ walk.2 ++
        (List.range (walk.1.next_use - 1)).map fun index => Access.contextWord index)

/-- The accesses of `FullScore` to the middle tables, to the words of `in_state`
and to the backoffs of `out_state`; its own loop reads `in_state.backoff` only. -/
def FullScoreAccesses (search_ : Search) (in_state : State) (new_word : Nat)
    (out_state : State) : List Access :=
  (ScoreExceptBackoffLogged search_ in_state.words in_state.length new_word out_state).2

/-- Follows the spec's words: the table index is "inside the order - 2 middle
tables", the context word is "at an index < in_state.length", and the write to
`out_state.backoff` is "at an index <= order - 2". -/
def Access.InRange (order length : Nat) : Access → Prop
  | .middleTable order_minus_2 => order_minus_2 + 3 ≤ order
  | .contextWord index => index < length
  | .backoffWrite index => index + 2 ≤ order

end GenericModel
end lm

namespace clb

end clb

/-! ## The function kenlm_init of clb/clb.cc -/

namespace clb

/-- The C function `strlen` on the memory from a pointer on: the number of bytes
before the first zero byte; `none` when the memory holds no zero byte, so that
the scan leaves it. -/
def strlen (mem : List Nat) : Option Nat :=
  if 0 ∈ mem then some (mem.takeWhile fun c => c != 0).length else none

/-- The C function `memcpy(dest, src, n)` on the memory from the two pointers on: the
content of the destination afterwards; `none` when `n` bytes do not fit the
destination or are not there in the source. -/
def memcpy (dest src : List Nat) (n : Nat) : Option (List Nat) :=
  if dest.length < n ∨ src.length < n then none else some (src.take n ++ dest.drop n)

/-- What `kenlm_init` leaves: the returned handle, `none` for the null pointer, and
the content of the buffer `ex_msg`, `none` when the caller passed no buffer. -/
structure Init where
  handle : Option lm.GenericModel
  ex_msg : Option (List Nat)

/-- Embeds `kenlm_init(size, data, ex_msg_size, ex_msg)`; `ex_msg` is the content of the
caller's buffer, `none` for the null pointer. The default `Config()` and
`Exception::what()` are declared in files that are not among the sources:
`init_config` is the former, and `what` gives for the exception caught the
memory `ex.what()` points to, `none` for the null pointer. The subtraction
`ex_msg_size - 1` is the one of `size_t`. An execution without a meaning has the
result `none`. -/
def kenlm_init (b : lm.Build) (init_config : lm.Config) (what : Fault → Option (List Nat))
    (size : Nat) (data : List Nat) (ex_msg_size : Nat) (ex_msg : Option (List Nat)) :
    Option Init :=
  match lm.GenericModel.construct b size data init_config with
  | .ok pModel => some { handle := some pModel, ex_msg := ex_msg }
  | .error ex =>
    if ex = .undefinedBehaviour then none
    else
      match ex_msg with
      | none => some { handle := none, ex_msg := none }
      | some buffer =>
        match what ex with
        | none => some { handle := none, ex_msg := some buffer }
        | some text =>
          match strlen text with
          | none => none
          | some length =>
            let len := min length ((ex_msg_size + 2 ^ 64 - 1) % 2 ^ 64)
            (memcpy buffer text ((len + 1) % 2 ^ 64)).map fun written =>
              { handle := none, ex_msg := some written }

/-- Follows the spec's words: the bytes `written` "form a NUL-terminated string (a
prefix of what followed by a terminating zero byte ...)", `text` being the
bytes of `what` before its terminating zero. -/
def IsTerminatedPrefix (text written : List Nat) : Prop :=
  ∃ n, n ≤ text.length ∧ written = text.take n ++ [0]

end clb

/-! ## Fixtures -/

namespace Fixture

/-- A table of four buckets with identity hash and sentinel key 0: key 7 has
ideal bucket 3, which key 3 occupies, so it sits in bucket 0 after the wrap. -/
def table : util.ProbingHashTable Nat :=
  { slots := [⟨7, 70⟩, ⟨0, 0⟩, ⟨0, 0⟩, ⟨3, 30⟩], buckets_ := 4, invalid_ := 0,
    hash_ := lm.IdentityHash }

/-- Memory of seven entries for a table sized for five: buckets 1 and 4 are empty. -/
def slots7 : List (util.Entry Nat) :=
  [⟨7, 70⟩, ⟨0, 0⟩, ⟨9, 90⟩, ⟨3, 30⟩, ⟨0, 0⟩, ⟨12, 120⟩, ⟨13, 130⟩]

/-- A search of order 2 whose unigrams all carry the probability `-1.0`, stored
without the independent-left tag, and the backoff `-0.0`, and whose longest
table holds nothing. -/
def search : lm.Search :=
  { Order := 2
    LookupUnigram := fun word =>
      { pointer := { prob := 0x3F800000, backoff := 0x80000000 }, node := word,
        independent_left := false, extend_left := word }
    LookupMiddle := fun _ _ node independent_left extend_left =>
      { pointer := none, node := node, independent_left := independent_left,
        extend_left := extend_left }
    LookupLongest := fun _ _ => none }

/-- An input state of length 1: the word 7 with the cached backoff `-0.5`. -/
def inState : lm.State :=
  { words := fun _ => 7, backoff := fun _ => 0xBF000000, length := 1 }

/-- Zeroed storage for an output state. -/
def outState : lm.State := { words := fun _ => 0, backoff := fun _ => 0, length := 0 }

/-- A buffer of 89 bytes: the reference sanity block and one more byte. -/
def recognised : List Nat := lm.Sanity.reference ++ [0]

/-- The buffer `recognised` with the version digit `5` at offset 49 replaced by `6`. -/
def version6 : List Nat := recognised.set 49 0x36

/-- The lookups of the fixture search, whatever tables `SetupMemory` placed. -/
def ops : lm.HashedSearch → lm.Search := fun _ => search

/-- A build for at most 6 orders and search version 0 with the layout of the spec. -/
def build : lm.Build := lm.specBuild 6 0 ops

/-- A header of 128 bytes: the reference sanity block, then order 2, the probing
multiplier `0.5`, model type 0, `has_vocabulary` set, search version 0, the
counts 3 and 1, and four bytes of padding. -/
def lowMultiplier : List Nat :=
  lm.Sanity.reference ++ [2, 0, 0, 0] ++ lm.leBytes 4 0x3F000000 ++ lm.leBytes 4 0
    ++ [1, 0, 0, 0] ++ lm.leBytes 4 0 ++ lm.leBytes 8 3 ++ lm.leBytes 8 1
    ++ List.replicate 4 0

/-- A bigram count chosen so that the sizes of the structures add up to
`2 ^ 64 - 64` in 64-bit arithmetic. -/
def hugeCount : Nat := 7686143364045646497

/-- A buffer of 160 bytes: the reference sanity block, then order 2, the probing
multiplier `1.0`, model type 0, `has_vocabulary` set, search version 0, the
counts 1 and `hugeCount`, and zero bytes up to the end. -/
def overflowing : List Nat :=
  lm.Sanity.reference ++ [2, 0, 0, 0] ++ lm.leBytes 4 0x3F800000 ++ lm.leBytes 4 0
    ++ [1, 0, 0, 0] ++ lm.leBytes 4 0 ++ lm.leBytes 8 1 ++ lm.leBytes 8 hugeCount
    ++ List.replicate 36 0

/-- Storage for an output state left over from earlier use: every word is 9. -/
def usedState : lm.State := { words := fun _ => 9, backoff := fun _ => 0x3F800000, length := 3 }

/-- A search of order 3: every unigram carries the probability `-1.0` and the
backoff `-0.25`; the middle table of order 2 holds an entry, of probability
`-0.5` and backoff `-0.0`, exactly for the context word 7; the longest table
holds an entry, of probability `-0.25`, exactly for the context word 8. -/
def trigrams : lm.Search :=
  { Order := 3
    LookupUnigram := fun word =>
      { pointer := { prob := 0x3F800000, backoff := 0xBE800000 }, node := word,
        independent_left := false, extend_left := word }
    LookupMiddle := fun _ word node _ extend_left =>
      { pointer := if word = 7 then some { prob := 0x3F000000, backoff := 0x80000000 } else none
        node := 16 * node + word, independent_left := !(word == 7), extend_left := extend_left }
    LookupLongest := fun word _ => if word = 8 then some 0xBE800000 else none }

/-- An input state of length 2: the words 7 and 8, each with the cached backoff `-0.5`. -/
def context : lm.State :=
  { words := fun i => 7 + i, backoff := fun _ => 0xBF000000, length := 2 }

/-- A vocabulary table of seven buckets holding the hashes of `<s>`, `a`, `</s>`
and `b`, each in its ideal bucket, with the ids 1, 3, 2 and 4; `<unk>` has the
id 0 and no entry. -/
def vocabularyTable : util.ProbingHashTable Nat :=
  { slots := [⟨33080154819493488, 1⟩, ⟨510903276987443985, 3⟩, ⟨0, 0⟩, ⟨0, 0⟩,
              ⟨7773339941609106442, 2⟩, ⟨16900879642891266615, 4⟩, ⟨0, 0⟩]
    buckets_ := 7, invalid_ := 0, hash_ := lm.IdentityHash }

/-- The vocabulary of the fixture models. -/
def vocabulary : lm.ProbingVocabulary :=
  { lookup_ := vocabularyTable, bound_ := 5, begin_sentence_ := 1, end_sentence_ := 2,
    not_found_ := 0 }

/-- The members a constructor leaves in a model with the fixture vocabulary and
the lookups `ops`. -/
def modelOf (ops : lm.Search) : lm.GenericModel :=
  { vocab_ := vocabulary
    search_ :=
      { unigram_ := { start := [], count := 5 }
        middle_ := []
        longest_ := { slots := [], buckets_ := 0, invalid_ := 0, hash_ := lm.IdentityHash } }
    ops := ops
    begin_sentence_ :=
      { words := Function.update (fun _ => 0) 0 vocabulary.begin_sentence_
        backoff := Function.update (fun _ => 0) 0
          (lm.GenericProbingProxy.Backoff (ops.LookupUnigram vocabulary.begin_sentence_).pointer)
        length := 1 }
    null_context_ := { words := fun _ => 0, backoff := fun _ => 0, length := 0 }
    order_ := ops.Order }

/-- A search whose only n-grams are the unigrams `<unk>`, `<s>`, `</s>`, `a` and `b`
(the words 0 to 4) with the stored probabilities `p4`, `p0`, `p3`, `p1` and `p2`;
as no unigram is extended by a longer n-gram, every backoff is the
no-extension sentinel, and no lookup in a table of a higher order finds an
entry. The value `order` is what `Order()` returns: 1 when the binary file was
built with one count, more when it carries counts of zero for higher orders. -/
def unigrams (order p0 p1 p2 p3 p4 : Nat) : lm.Search :=
  { Order := order
    LookupUnigram := fun word =>
      { pointer := { prob := [p4, p0, p3, p1, p2].getD word p4, backoff := lm.kNoExtensionBackoff }
        node := word
        independent_left := lm.GenericProbingProxy.IndependentLeft
          { prob := [p4, p0, p3, p1, p2].getD word p4, backoff := lm.kNoExtensionBackoff }
        extend_left := word }
    LookupMiddle := fun _ _ node _ extend_left =>
      { pointer := none, node := node, independent_left := true, extend_left := extend_left }
    LookupLongest := fun _ _ => none }

/-- The fixture model of the sentence-level scenario. -/
def unigramModel (order p0 p1 p2 p3 p4 : Nat) : lm.GenericModel :=
  modelOf (unigrams order p0 p1 p2 p3 p4)

/-- Memory of 64 bytes for the structures of a model with the counts 1 and 1 and
the probing multiplier `1.0`, whose vocabulary header carries the version 1. -/
def otherVocabularyVersion : List Nat := lm.leBytes 4 1 ++ lm.leBytes 4 2 ++ List.replicate 56 0

/-- A table of two buckets with identity hash and sentinel key 0: bucket 0 is
empty and key 1 sits in bucket 1, its ideal bucket. -/
def emptyFirst : util.ProbingHashTable Nat :=
  { slots := [⟨0, 0⟩, ⟨1, 10⟩], buckets_ := 2, invalid_ := 0, hash_ := lm.IdentityHash }

/-- The input state `context` with other content behind its two valid entries. -/
def contextWithRest : lm.State :=
  { words := fun i => if i < 2 then 7 + i else 99
    backoff := fun i => if i < 2 then 0xBF000000 else 0x3F800000
    length := 2 }

/-- The search `trigrams` with the backoff `+0.0` in the entry of its middle table. -/
def plusZero : lm.Search :=
  { trigrams with
    LookupMiddle := fun _ word node _ extend_left =>
      { pointer := if word = 7 then some { prob := 0x3F000000, backoff := 0 } else none
        node := 16 * node + word, independent_left := !(word == 7), extend_left := extend_left } }


/-- A message for every exception: the bytes of the text that the sources give at
the throw of "Not a binary format of a file", and the terminating zero. The
location that `UTIL_THROW_IF` puts in front of it makes the message of the
engine longer. -/
def what : Fault → Option (List Nat) := fun _ =>
  some ("Not a binary format of a file".toList.map Char.toNat ++ [0])

/-- A buffer of eight bytes for a message, filled with the byte `0xAA`. -/
def shortBuffer : List Nat := List.replicate 8 0xAA

/-- A table of one bucket, which is occupied: it has no empty slot. -/
def fullTable : util.ProbingHashTable Nat :=
  { slots := [⟨8032350403825138502, 3⟩], buckets_ := 1, invalid_ := 0, hash_ := lm.IdentityHash }

/-- The fixture model of the unigrams with the vocabulary table `fullTable`, which
has no empty slot. -/
def fullTableModel : lm.GenericModel :=
  { unigramModel 2 0 0x3F800000 0x40000000 0x3F000000 0x40800000 with
    vocab_ := { vocabulary with lookup_ := fullTable } }

/-- The fixture model of the unigrams with `Bound()` lowered to 3, which the ids 3
and 4 stored in its vocabulary table are not below. -/
def lowBoundModel : lm.GenericModel :=
  { unigramModel 2 0 0x3F800000 0x40000000 0x3F000000 0x40800000 with
    vocab_ := { vocabulary with bound_ := 3 } }

end Fixture

/-! ## Theorems -/

namespace F32

theorem leadingBit_spec (n : Nat) : ∀ (steps lo : Nat), 2 ^ lo ≤ n → n < 2 ^ (lo + 2 ^ steps) →
    2 ^ leadingBit n steps lo ≤ n ∧ n < 2 ^ (leadingBit n steps lo + 1) := by
  intro steps
  induction steps with
  | zero =>
    intro lo h1 h2
    exact ⟨h1, h2⟩
  | succ s ih =>
    intro lo h1 h2
    unfold leadingBit
    by_cases h : 2 ^ (lo + 2 ^ s) ≤ n
    · rw [if_pos h]
      apply ih _ h
      have : lo + 2 ^ s + 2 ^ s = lo + 2 ^ (s + 1) := by rw [pow_succ]; omega
      rw [this]
      exact h2
    · rw [if_neg h]
      exact ih _ h1 (by omega)

theorem bitLen_spec {n : Nat} (hpos : 0 < n) (hbig : n < 2 ^ 1024) :
    2 ^ (bitLen n - 1) ≤ n ∧ n < 2 ^ bitLen n := by
  have := leadingBit_spec n 10 0 (by simpa using hpos) (by simpa using hbig)
  unfold bitLen
  simpa using this

theorem bitLen_pos (n : Nat) : 0 < bitLen n := by unfold bitLen; omega

theorem roundEven_of_dvd {q den : Nat} (hden : 0 < den) : roundEven (q * den) den = q := by
  unfold roundEven
  simp only [Nat.mul_mod_left, Nat.mul_div_cancel _ hden]
  rw [if_neg]
  omega

/-- Rounding is exact for a significand of at most 24 digits in the normal range. -/
theorem round_exact (N E B : Nat) (hN : 0 < N) (hbig : N < 2 ^ 1024)
    (hlo : B + 1 ≤ bitLen N + E + 126) (hhi : bitLen N + E + 126 ≤ B + 254)
    (hdiv : 2 ^ (bitLen N - 24) ∣ N) :
    sign (round false N E B) = false ∧
    expField (round false N E B) = bitLen N + E + 126 - B ∧
    sig (round false N E B) * 2 ^ bitLen N = N * 2 ^ 24 ∧
    2 ^ 23 ≤ sig (round false N E B) ∧ sig (round false N E B) < 2 ^ 24 := by
  obtain ⟨hL1, hL2⟩ := bitLen_spec hN hbig
  have hLpos := bitLen_pos N
  -- the exact 24-digit significand
  have hdvd : 2 ^ bitLen N ∣ N * 2 ^ 24 := by
    by_cases h24 : bitLen N ≤ 24
    · exact Dvd.dvd.mul_left (pow_dvd_pow 2 h24) N
    · have : bitLen N = (bitLen N - 24) + 24 := by omega
      rw [this, pow_add]
      exact Nat.mul_dvd_mul hdiv (dvd_refl _)
  obtain ⟨q, hq⟩ := hdvd
  have hqlo : 2 ^ 23 ≤ q := by
    by_contra hlt
    have h1 : 2 ^ bitLen N * q < 2 ^ bitLen N * 2 ^ 23 :=
      mul_lt_mul_of_pos_left (by omega) (by positivity)
    have h2 : 2 ^ (bitLen N - 1) * 2 ^ 24 ≤ N * 2 ^ 24 := Nat.mul_le_mul_right _ hL1
    have h3 : 2 ^ (bitLen N - 1) * 2 ^ 24 = 2 ^ bitLen N * 2 ^ 23 := by
      have h4 : bitLen N - 1 + 24 = bitLen N + 23 := by omega
      rw [← pow_add, ← pow_add, h4]
    omega
  have hqhi : q < 2 ^ 24 := by
    by_contra hge
    have h1 : 2 ^ bitLen N * 2 ^ 24 ≤ 2 ^ bitLen N * q := Nat.mul_le_mul_left _ (by omega)
    have h2 : N * 2 ^ 24 < 2 ^ bitLen N * 2 ^ 24 := mul_lt_mul_of_pos_right hL2 (by positivity)
    omega
  have he : max 1 (bitLen N + E + 126 - B) = bitLen N + E + 126 - B := by omega
  have hround : roundEven (N * 2 ^ (E + 150)) (2 ^ (B + (bitLen N + E + 126 - B))) = q := by
    have h1 : B + (bitLen N + E + 126 - B) = bitLen N + (E + 126) := by omega
    have h2 : N * 2 ^ (E + 150) = q * 2 ^ (bitLen N + (E + 126)) := by
      have : E + 150 = 24 + (E + 126) := by omega
      rw [this, pow_add, ← Nat.mul_assoc, hq, pow_add]
      ring
    rw [h1, h2]
    exact roundEven_of_dvd (by positivity)
  have hbits : round false N E B = (bitLen N + E + 126 - B - 1) * 2 ^ 23 + q := by
    unfold round
    rw [if_neg (by omega)]
    dsimp only
    rw [he, hround]
    unfold signBit inf
    rw [if_neg (by decide), if_neg (by omega)]
    omega
  have hq' : q * 2 ^ bitLen N = N * 2 ^ 24 := by rw [hq]; ring
  rw [hbits]
  have hexp : expField ((bitLen N + E + 126 - B - 1) * 2 ^ 23 + q) ≠ 0 := by
    unfold expField
    omega
  have hsig : sig ((bitLen N + E + 126 - B - 1) * 2 ^ 23 + q) = q := by
    unfold sig manField
    rw [if_neg hexp]
    omega
  refine ⟨?_, ?_, ?_, ?_, ?_⟩
  · unfold sign
    simp only [beq_eq_false_iff_ne, ne_eq]
    omega
  · unfold expField
    omega
  · rw [hsig, hq']
  · rw [hsig]; exact hqlo
  · rw [hsig]; exact hqhi


theorem ex_of_normal {b : Nat} (h : expField b ≠ 0) : ex b = expField b := by
  unfold ex
  rw [if_neg h]

theorem ofU64_exact {n : Nat} (hpos : 0 < n) (h24 : n < 2 ^ 24) :
    sign (ofU64 n) = false ∧ expField (ofU64 n) = bitLen n + 126 ∧
    sig (ofU64 n) * 2 ^ bitLen n = n * 2 ^ 24 ∧
    2 ^ 23 ≤ sig (ofU64 n) ∧ sig (ofU64 n) < 2 ^ 24 ∧ bitLen n ≤ 24 := by
  have hbig : n < 2 ^ 1024 := lt_trans h24 (by norm_num)
  obtain ⟨hL1, _⟩ := bitLen_spec hpos hbig
  have hL : bitLen n ≤ 24 := by
    have : 2 ^ (bitLen n - 1) < 2 ^ 24 := lt_of_le_of_lt hL1 h24
    have := (Nat.pow_lt_pow_iff_right (by norm_num : 1 < 2)).mp this
    omega
  have hdiv : 2 ^ (bitLen n - 24) ∣ n := by
    have : bitLen n - 24 = 0 := by omega
    rw [this]
    exact one_dvd n
  obtain ⟨h1, h2, h3, h4, h5⟩ := round_exact n 0 0 hpos hbig (by omega) (by omega) hdiv
  exact ⟨h1, by rw [ofU64, h2]; omega, h3, h4, h5, hL⟩

/-- The single-precision product of a positive normal `m` with a count below
`2 ^ 24` is exact when the exact product has at most 24 significant digits. -/
theorem mul_ofU64_exact {m n : Nat} (hsign : sign m = false) (hnormal : expField m ≠ 0)
    (hfinite : expField m ≠ 255) (hpos : 0 < n) (h24 : n < 2 ^ 24)
    (hexact : ∃ q k, sig m * n = q * 2 ^ k ∧ q < 2 ^ 24)
    (hrange : sig m * n * 2 ^ ex m < 2 ^ 214) :
    sign (mul m (ofU64 n)) = false ∧ expField (mul m (ofU64 n)) ≠ 255 ∧
    sig (mul m (ofU64 n)) * 2 ^ ex (mul m (ofU64 n)) = sig m * n * 2 ^ ex m := by
  obtain ⟨hxs, hxe, hxsig, hxlo, hxhi, hL⟩ := ofU64_exact hpos h24
  have hLpos := bitLen_pos n
  obtain ⟨hn1, hn2⟩ := bitLen_spec hpos (lt_trans h24 (by norm_num))
  have hmsig : sig m = manField m + 2 ^ 23 := by unfold sig; rw [if_neg hnormal]
  have hmlo : 2 ^ 23 ≤ sig m := by omega
  have hmhi : sig m < 2 ^ 24 := by
    have : manField m < 2 ^ 23 := Nat.mod_lt _ (by norm_num)
    omega
  have hmex : ex m = expField m := by unfold ex; rw [if_neg hnormal]
  have hmex1 : 1 ≤ ex m := by omega
  have hxex : ex (ofU64 n) = bitLen n + 126 := by unfold ex; rw [if_neg (by omega), hxe]
  -- the significand product
  have hNlo : 2 ^ 46 ≤ sig m * sig (ofU64 n) := by
    calc 2 ^ 46 = 2 ^ 23 * 2 ^ 23 := by norm_num
      _ ≤ sig m * sig (ofU64 n) := Nat.mul_le_mul hmlo hxlo
  have hNhi : sig m * sig (ofU64 n) < 2 ^ 48 := by
    calc sig m * sig (ofU64 n) < 2 ^ 24 * 2 ^ 24 := Nat.mul_lt_mul'' hmhi hxhi
      _ = 2 ^ 48 := by norm_num
  have hNpos : 0 < sig m * sig (ofU64 n) := lt_of_lt_of_le (by norm_num) hNlo
  have hNbig : sig m * sig (ofU64 n) < 2 ^ 1024 := lt_trans hNhi (by norm_num)
  obtain ⟨hLN1, hLN2⟩ := bitLen_spec hNpos hNbig
  have hLNhi : bitLen (sig m * sig (ofU64 n)) ≤ 48 := by
    have : 2 ^ (bitLen (sig m * sig (ofU64 n)) - 1) < 2 ^ 48 := lt_of_le_of_lt hLN1 hNhi
    have := (Nat.pow_lt_pow_iff_right (by norm_num : 1 < 2)).mp this
    omega
  have hLNlo : 47 ≤ bitLen (sig m * sig (ofU64 n)) := by
    have : 2 ^ 46 < 2 ^ bitLen (sig m * sig (ofU64 n)) := lt_of_le_of_lt hNlo hLN2
    have := (Nat.pow_lt_pow_iff_right (by norm_num : 1 < 2)).mp this
    omega
  -- the product times 2 ^ L
  have hNL : sig m * sig (ofU64 n) * 2 ^ bitLen n = sig m * n * 2 ^ 24 := by
    rw [Nat.mul_assoc, hxsig, Nat.mul_assoc]
  -- range of the exponents
  have hexp : bitLen n + ex m ≤ 191 := by
    have h1 : 2 ^ 23 * 2 ^ (bitLen n - 1) * 2 ^ ex m ≤ sig m * n * 2 ^ ex m :=
      Nat.mul_le_mul_right _ (Nat.mul_le_mul hmlo hn1)
    have h2 : 2 ^ (23 + (bitLen n - 1) + ex m) < 2 ^ 214 := by
      rw [pow_add, pow_add]
      exact lt_of_le_of_lt h1 hrange
    have := (Nat.pow_lt_pow_iff_right (by norm_num : 1 < 2)).mp h2
    omega
  -- divisibility
  obtain ⟨q, k, hqk, hq⟩ := hexact
  have hdiv : 2 ^ (bitLen (sig m * sig (ofU64 n)) - 24) ∣ sig m * sig (ofU64 n) := by
    have hprod : sig m * sig (ofU64 n) * 2 ^ bitLen n = q * 2 ^ (k + 24) := by
      rw [hNL, hqk, pow_add, Nat.mul_assoc]
    have hj : bitLen (sig m * sig (ofU64 n)) - 24 + bitLen n ≤ k + 24 := by
      have h1 : 2 ^ (bitLen (sig m * sig (ofU64 n)) - 1) * 2 ^ bitLen n
          ≤ sig m * sig (ofU64 n) * 2 ^ bitLen n := Nat.mul_le_mul_right _ hLN1
      have h2 : q * 2 ^ (k + 24) < 2 ^ 24 * 2 ^ (k + 24) :=
        mul_lt_mul_of_pos_right hq (by positivity)
      have h3 : 2 ^ (bitLen (sig m * sig (ofU64 n)) - 1 + bitLen n) < 2 ^ (24 + (k + 24)) := by
        rw [pow_add, pow_add]
        omega
      have := (Nat.pow_lt_pow_iff_right (by norm_num : 1 < 2)).mp h3
      omega
    obtain ⟨j, hjeq⟩ : ∃ j, k + 24 = j + bitLen n ∧
        bitLen (sig m * sig (ofU64 n)) - 24 ≤ j := ⟨k + 24 - bitLen n, by omega, by omega⟩
    rw [hjeq.1, pow_add, ← Nat.mul_assoc] at hprod
    have hN : sig m * sig (ofU64 n) = q * 2 ^ j :=
      Nat.eq_of_mul_eq_mul_right (by positivity) hprod
    exact (pow_dvd_pow 2 hjeq.2).trans ⟨q, by rw [hN, Nat.mul_comm]⟩
  obtain ⟨hps, hpe, hpsig, _, _⟩ := round_exact (sig m * sig (ofU64 n)) (ex m + ex (ofU64 n)) 300
    hNpos hNbig (by omega) (by omega) hdiv
  have hmul : mul m (ofU64 n) = round false (sig m * sig (ofU64 n)) (ex m + ex (ofU64 n)) 300 := by
    have hnan1 : isNaN m = false := by unfold isNaN; simp [hfinite]
    have hnan2 : isNaN (ofU64 n) = false := by unfold isNaN; simp [hxe]; omega
    have hinf1 : isInf m = false := by unfold isInf; simp [hfinite]
    have hinf2 : isInf (ofU64 n) = false := by unfold isInf; simp [hxe]; omega
    unfold mul
    simp [hnan1, hnan2, hinf1, hinf2, hsign, hxs]
  rw [hmul]
  refine ⟨hps, by rw [hpe]; omega, ?_⟩
  have hpex : ex (round false (sig m * sig (ofU64 n)) (ex m + ex (ofU64 n)) 300)
      = bitLen (sig m * sig (ofU64 n)) + (ex m + ex (ofU64 n)) + 126 - 300 := by
    rw [ex_of_normal (by rw [hpe]; omega), hpe]
  rw [hpex]
  apply Nat.eq_of_mul_eq_mul_right (show 0 < 2 ^ (bitLen (sig m * sig (ofU64 n)) + bitLen n) by positivity)
  have he : bitLen (sig m * sig (ofU64 n)) + (ex m + ex (ofU64 n)) + 126 - 300 + 48
      = bitLen (sig m * sig (ofU64 n)) + bitLen n + ex m := by omega
  calc sig (round false (sig m * sig (ofU64 n)) (ex m + ex (ofU64 n)) 300)
        * 2 ^ (bitLen (sig m * sig (ofU64 n)) + (ex m + ex (ofU64 n)) + 126 - 300)
        * 2 ^ (bitLen (sig m * sig (ofU64 n)) + bitLen n)
      = (sig (round false (sig m * sig (ofU64 n)) (ex m + ex (ofU64 n)) 300)
          * 2 ^ bitLen (sig m * sig (ofU64 n))) * 2 ^ bitLen n
          * 2 ^ (bitLen (sig m * sig (ofU64 n)) + (ex m + ex (ofU64 n)) + 126 - 300) := by
        rw [pow_add]; ring
    _ = sig m * n * (2 ^ 48
          * 2 ^ (bitLen (sig m * sig (ofU64 n)) + (ex m + ex (ofU64 n)) + 126 - 300)) := by
        rw [hpsig, Nat.mul_assoc (sig m * sig (ofU64 n)), Nat.mul_comm (2 ^ 24),
          ← Nat.mul_assoc (sig m * sig (ofU64 n)), hNL]
        ring
    _ = sig m * n * 2 ^ (bitLen (sig m * sig (ofU64 n)) + bitLen n + ex m) := by
        rw [← pow_add, Nat.add_comm 48, he]
    _ = sig m * n * 2 ^ ex m * 2 ^ (bitLen (sig m * sig (ofU64 n)) + bitLen n) := by
        rw [pow_add]; ring

end F32

namespace lm
namespace GenericModel

theorem chargeBackoff_eq_foldl (backoff : Nat → Nat) :
    ∀ (count i prob : Nat),
      chargeBackoff backoff count i prob = ((List.range' i count).map backoff).foldl F32.add prob := by
  intro count
  induction count with
  | zero => intro i prob; rfl
  | succ n ih =>
    intro i prob
    rw [chargeBackoff, ih, List.range'_succ, List.map_cons, List.foldl_cons]

theorem map_pred_range' (f : Nat → Nat) :
    ∀ (n lo : Nat), (List.range' (lo + 1) n).map (fun j => f (j - 1)) = (List.range' lo n).map f := by
  intro n
  induction n with
  | zero => intro lo; rfl
  | succ n ih =>
    intro lo
    rw [List.range'_succ, List.range'_succ, List.map_cons, List.map_cons, ih (lo + 1)]
    rfl

/-- C1 (as stated, refuted). In the fixture the input state has length `L = 1`
and the word is matched at order `k = 1 < L + 1`; `FullScore` returns `-1.5`,
the unigram probability `-1.0` plus the cached backoff `-0.5` of the context
length 1, whereas the sum over the lengths in `(k, L]` is empty and gives `-1.0`. -/
theorem FullScore_open_range_counterexample :
    (ScoreExceptBackoff Fixture.search Fixture.inState.words Fixture.inState.length 3
        Fixture.outState).1.ngram_length = 1 ∧
    1 < Fixture.inState.length + 1 ∧
    (FullScore Fixture.search Fixture.inState 3 Fixture.outState).1.prob = 0xBFC00000 ∧
    chargedScore Fixture.inState
      (ScoreExceptBackoff Fixture.search Fixture.inState.words Fixture.inState.length 3
        Fixture.outState).1.prob 1 Fixture.inState.length = 0xBF800000 ∧
    (FullScore Fixture.search Fixture.inState 3 Fixture.outState).1.prob ≠
      chargedScore Fixture.inState
        (ScoreExceptBackoff Fixture.search Fixture.inState.words Fixture.inState.length 3
          Fixture.outState).1.prob 1 Fixture.inState.length := by
  refine ⟨by decide, by decide, by decide, by decide, by decide⟩

/-- The loop of `FullScore` as a sum over context lengths: what `ScoreExceptBackoff`
returns as `prob`, plus the cached backoffs of the lengths from its
`ngram_length` up to the length of the input state. -/
theorem FullScore_eq_chargedScore (search_ : Search) (in_state : State) (new_word : Nat)
    (out_state : State) :
    (FullScore search_ in_state new_word out_state).1.prob =
      chargedScore in_state
        (ScoreExceptBackoff search_ in_state.words in_state.length new_word out_state).1.prob
        ((ScoreExceptBackoff search_ in_state.words in_state.length new_word
          out_state).1.ngram_length - 1)
        in_state.length := by
  simp only [FullScore, chargedScore]
  rw [chargeBackoff_eq_foldl, map_pred_range']

end GenericModel
end lm

namespace lm

theorem Sanity.length_reference : Sanity.reference.length = sizeofSanity := by decide

theorem memcmpEq_eq_some_true {data pat : List Nat} :
    memcmpEq data pat = some true ↔ pat.length ≤ data.length ∧ data.take pat.length = pat := by
  unfold memcmpEq
  split
  · next h => simp; omega
  · next h =>
    simp only [Option.some.injEq, beq_iff_eq]
    constructor
    · intro heq; exact ⟨by omega, heq⟩
    · intro heq; exact heq.2

theorem memcmpEq_eq_some_false {data pat : List Nat} :
    memcmpEq data pat = some false ↔ pat.length ≤ data.length ∧ data.take pat.length ≠ pat := by
  unfold memcmpEq
  split
  · next h => simp; omega
  · next h =>
    simp only [Option.some.injEq, beq_eq_false_iff_ne]
    constructor
    · intro heq; exact ⟨by omega, heq⟩
    · intro heq; exact heq.2

theorem memcmpEq_isSome (data pat : List Nat) (h : pat.length ≤ data.length) :
    memcmpEq data pat = some (data.take pat.length == pat) := by
  unfold memcmpEq
  rw [if_neg (by omega)]

theorem length_ge_of_take_eq {data pat : List Nat} {n : Nat} (h : data.take n = pat)
    (hn : pat.length = n) : n ≤ data.length := by
  have := congrArg List.length h
  rw [List.length_take, hn] at this
  omega

/-- C6 (as stated, refuted). A buffer of exactly `sizeof(Sanity)` bytes that is
the reference sanity pattern is not shorter than the sanity block and its head
equals the pattern, yet `IsBinaryFormat` returns `false`. -/
theorem IsBinaryFormat_boundary_counterexample :
    Sanity.reference.length = sizeofSanity ∧
    sizeofSanity ≤ Sanity.reference.length ∧
    Sanity.reference.take sizeofSanity = Sanity.reference ∧
    IsBinaryFormat Sanity.reference.length Sanity.reference = .ok false := by
  refine ⟨by decide, by decide, by decide, by decide⟩

/-- C6 (amended). Sanity recognition: for every buffer longer than the sanity
block (`file_size > sizeof(Sanity)`, `file_size` not the bad-size marker) whose
first `sizeof(Sanity)` bytes equal the reference sanity pattern, `IsBinaryFormat`
returns `true` without raising. -/
theorem IsBinaryFormat_recognises (file_size : Nat) (data : List Nat)
    (hsize : sizeofSanity < file_size) (hbad : file_size ≠ kBadSize)
    (hhead : data.take sizeofSanity = Sanity.reference) :
    IsBinaryFormat file_size data = .ok true := by
  have hlen : Sanity.reference.length ≤ data.length := by
    rw [Sanity.length_reference]
    exact length_ge_of_take_eq hhead Sanity.length_reference
  have hcmp : memcmpEq data Sanity.reference = some true :=
    memcmpEq_eq_some_true.mpr ⟨hlen, by rw [Sanity.length_reference]; exact hhead⟩
  unfold IsBinaryFormat
  rw [if_neg (by omega), hcmp]

/-- Witness of `IsBinaryFormat_recognises`: the reference block followed by one byte. -/
theorem IsBinaryFormat_recognises_witness :
    IsBinaryFormat 89 Fixture.recognised = .ok true :=
  IsBinaryFormat_recognises 89 Fixture.recognised (by decide) (by decide) (by decide)

theorem IsBinaryFormat_eq_true_iff (file_size : Nat) (data : List Nat) :
    IsBinaryFormat file_size data = .ok true ↔
      file_size ≠ kBadSize ∧ sizeofSanity < file_size ∧
        data.take sizeofSanity = Sanity.reference := by
  constructor
  · intro h
    unfold IsBinaryFormat at h
    split at h
    · exact absurd h (by simp)
    · next hcond =>
      refine ⟨by omega, by omega, ?_⟩
      have hcmp : memcmpEq data Sanity.reference = some true := by
        revert h
        cases memcmpEq data Sanity.reference with
        | none => simp
        | some v =>
          cases v with
          | true => simp
          | false =>
            simp only
            cases memcmpEq data kMagicIncomplete with
            | none => simp
            | some v2 =>
              cases v2 with
              | true => simp
              | false =>
                simp only
                cases memcmpEq data kMagicBeforeVersion with
                | none => simp
                | some v3 =>
                  cases v3 with
                  | false => simp
                  | true =>
                    simp only
                    cases strtol (List.drop kMagicBeforeVersion.length data) with
                    | none => simp
                    | some r =>
                      obtain ⟨version, len⟩ := r
                      simp only
                      split
                      · simp
                      · cases memcmpEq data OldSanity.reference with
                        | none => simp
                        | some v4 => cases v4 <;> simp
      have := (memcmpEq_eq_some_true.mp hcmp).2
      rwa [Sanity.length_reference] at this
  · rintro ⟨h1, h2, h3⟩
    exact IsBinaryFormat_recognises file_size data h2 h1 h3

theorem strtolDigits_none : ∀ (s : List Nat) (acc n : Nat),
    strtolDigits s acc n = none → ∀ c ∈ s, isdigit c = true := by
  intro s
  induction s with
  | nil => intro _ _ _ c hc; exact absurd hc (List.not_mem_nil c)
  | cons d ds ih =>
    intro acc n h c hc
    unfold strtolDigits at h
    by_cases hd : isdigit d = true
    · rw [if_pos hd] at h
      rcases List.mem_cons.mp hc with rfl | hmem
      · exact hd
      · exact ih _ _ h c hmem
    · rw [if_neg hd] at h
      exact absurd h (by simp)

/-- The scan of `strtol` stays inside the memory when a zero byte follows. -/
theorem strtol_isSome_of_zero_mem {s : List Nat} (h : 0 ∈ s) : strtol s ≠ none := by
  intro hnone
  unfold strtol at hnone
  have hsplit := List.takeWhile_append_dropWhile isspace s
  rw [← hsplit] at h
  rcases List.mem_append.mp h with htake | hdrop
  · have := List.mem_takeWhile_imp htake
    exact absurd this (by decide)
  · revert hnone hdrop
    cases List.dropWhile isspace s with
    | nil => intro _ hdrop; exact absurd hdrop (List.not_mem_nil 0)
    | cons c rest =>
      intro hnone hdrop
      dsimp only at hnone
      have hu : 0 ∈ (if (if c = 0x2B ∨ c = 0x2D then 1 else 0) = 1 then rest else c :: rest) := by
        by_cases hsign : c = 0x2B ∨ c = 0x2D
        · rw [if_pos hsign, if_pos rfl]
          rcases List.mem_cons.mp hdrop with h0 | hmem
          · rcases hsign with h1 | h1 <;> omega
          · exact hmem
        · rw [if_neg hsign, if_neg (by decide)]
          exact hdrop
      generalize (if (if c = 0x2B ∨ c = 0x2D then 1 else 0) = 1 then rest else c :: rest) = u
        at hnone hu
      cases hd : strtolDigits u 0 0 with
      | none => exact absurd (strtolDigits_none u 0 0 hd 0 hu) (by decide)
      | some r =>
        obtain ⟨v, n⟩ := r
        rw [hd] at hnone
        dsimp only at hnone
        split at hnone <;> exact absurd hnone (by simp)

/-- When the head of the buffer is not the reference pattern, `IsBinaryFormat`
returns `false` or raises `FormatLoadException`, provided the version scan
stays inside the memory. -/
theorem IsBinaryFormat_of_head_ne (file_size : Nat) (data : List Nat)
    (hlen : sizeofSanity ≤ data.length)
    (hhead : data.take sizeofSanity ≠ Sanity.reference)
    (hscan : strtol (data.drop kMagicBeforeVersion.length) ≠ none) :
    IsBinaryFormat file_size data = .ok false ∨
      ∃ why, IsBinaryFormat file_size data = .error (.FormatLoadException why) := by
  have h88 : sizeofSanity = 88 := rfl
  have hcmp : memcmpEq data Sanity.reference = some false :=
    memcmpEq_eq_some_false.mpr
      ⟨by rw [Sanity.length_reference]; exact hlen, by rw [Sanity.length_reference]; exact hhead⟩
  have hinc := memcmpEq_isSome data kMagicIncomplete
    (by have : kMagicIncomplete.length = 45 := by decide
        omega)
  have hbef := memcmpEq_isSome data kMagicBeforeVersion
    (by have : kMagicBeforeVersion.length = 48 := by decide
        omega)
  have hold := memcmpEq_isSome data OldSanity.reference
    (by have : OldSanity.reference.length = 88 := by decide
        omega)
  unfold IsBinaryFormat
  split
  · exact Or.inl rfl
  · rw [hcmp, hinc, hbef, hold]
    simp only
    cases List.take kMagicIncomplete.length data == kMagicIncomplete with
    | true => exact Or.inr ⟨_, rfl⟩
    | false =>
      simp only
      cases List.take kMagicBeforeVersion.length data == kMagicBeforeVersion with
      | false => exact Or.inl rfl
      | true =>
        simp only
        revert hscan
        cases strtol (List.drop kMagicBeforeVersion.length data) with
        | none => intro hscan; exact absurd rfl hscan
        | some r =>
          intro _
          obtain ⟨version, len⟩ := r
          simp only
          split
          · exact Or.inr ⟨_, rfl⟩
          · cases List.take OldSanity.reference.length data == OldSanity.reference with
            | true => exact Or.inr ⟨_, rfl⟩
            | false => exact Or.inr ⟨_, rfl⟩

theorem dropWhile_append_of_mem {f : Nat → Bool} {q : List Nat} {x : Nat} (hx : x ∈ q)
    (hf : f x = false) (t : List Nat) : (q ++ t).dropWhile f = q.dropWhile f ++ t := by
  induction q with
  | nil => exact absurd hx (List.not_mem_nil x)
  | cons c cs ih =>
    by_cases hc : f c = true
    · rcases List.mem_cons.mp hx with rfl | hmem
      · rw [hf] at hc; exact absurd hc (by simp)
      · simp only [List.cons_append, List.dropWhile_cons, hc, if_true]
        exact ih hmem
    · simp only [List.cons_append, List.dropWhile_cons, hc, if_false, Bool.false_eq_true]

theorem takeWhile_append_of_mem {f : Nat → Bool} {q : List Nat} {x : Nat} (hx : x ∈ q)
    (hf : f x = false) (t : List Nat) : (q ++ t).takeWhile f = q.takeWhile f := by
  induction q with
  | nil => exact absurd hx (List.not_mem_nil x)
  | cons c cs ih =>
    by_cases hc : f c = true
    · rcases List.mem_cons.mp hx with rfl | hmem
      · rw [hf] at hc; exact absurd hc (by simp)
      · simp only [List.cons_append, List.takeWhile_cons, hc, if_true]
        rw [ih hmem]
    · simp only [List.cons_append, List.takeWhile_cons, hc, if_false, Bool.false_eq_true]

theorem strtolDigits_append {u : List Nat} (h0 : 0 ∈ u) (t : List Nat) :
    ∀ (acc n : Nat), strtolDigits (u ++ t) acc n = strtolDigits u acc n := by
  induction u with
  | nil => exact absurd h0 (List.not_mem_nil 0)
  | cons c cs ih =>
    intro acc n
    by_cases hc : isdigit c = true
    · have hmem : 0 ∈ cs := by
        rcases List.mem_cons.mp h0 with h | h
        · rw [← h] at hc; exact absurd hc (by decide)
        · exact h
      simp only [List.cons_append, strtolDigits, hc, if_true]
      exact ih hmem _ _
    · simp only [List.cons_append, strtolDigits, hc, if_false, Bool.false_eq_true]

/-- The scan of `strtol` reads nothing behind a zero byte. -/
theorem strtol_append {q : List Nat} (h0 : 0 ∈ q) (t : List Nat) :
    strtol (q ++ t) = strtol q := by
  have hspace : isspace 0 = false := by decide
  unfold strtol
  rw [dropWhile_append_of_mem h0 hspace, takeWhile_append_of_mem h0 hspace]
  have hsplit := List.takeWhile_append_dropWhile isspace q
  have hdrop : 0 ∈ q.dropWhile isspace := by
    rw [← hsplit] at h0
    rcases List.mem_append.mp h0 with htake | hdrop
    · exact absurd (List.mem_takeWhile_imp htake) (by decide)
    · exact hdrop
  revert hdrop
  cases List.dropWhile isspace q with
  | nil => intro hdrop; exact absurd hdrop (List.not_mem_nil 0)
  | cons c rest =>
    intro hdrop
    simp only [List.cons_append]
    have hu : (if (if c = 0x2B ∨ c = 0x2D then 1 else 0) = 1 then rest ++ t else c :: (rest ++ t))
        = (if (if c = 0x2B ∨ c = 0x2D then 1 else 0) = 1 then rest else c :: rest) ++ t := by
      split <;> rfl
    have hmem : 0 ∈ (if (if c = 0x2B ∨ c = 0x2D then 1 else 0) = 1 then rest else c :: rest) := by
      by_cases hsign : c = 0x2B ∨ c = 0x2D
      · rw [if_pos hsign, if_pos rfl]
        rcases List.mem_cons.mp hdrop with h | h
        · rcases hsign with h1 | h1 <;> omega
        · exact h
      · rw [if_neg hsign, if_neg (by decide)]
        exact hdrop
    rw [hu, strtolDigits_append hmem]

/-- The function `IsBinaryFormat` depends on the first `sizeof(Sanity)` bytes only when the
version text ends with a zero byte inside them. -/
theorem IsBinaryFormat_congr (file_size : Nat) (head tail tail2 : List Nat)
    (hhead : head.length = sizeofSanity)
    (hzero : 0 ∈ head.drop kMagicBeforeVersion.length) :
    IsBinaryFormat file_size (head ++ tail) = IsBinaryFormat file_size (head ++ tail2) := by
  have h88 : sizeofSanity = 88 := rfl
  have hcmp : ∀ (pat t : List Nat), pat.length ≤ 88 →
      memcmpEq (head ++ t) pat = some (head.take pat.length == pat) := by
    intro pat t hpat
    rw [memcmpEq_isSome _ _ (by rw [List.length_append]; omega),
      List.take_append_of_le_length (by omega)]
  have hstr : ∀ t : List Nat, strtol ((head ++ t).drop kMagicBeforeVersion.length)
      = strtol (head.drop kMagicBeforeVersion.length) := by
    intro t
    have h48 : kMagicBeforeVersion.length = 48 := by decide
    rw [List.drop_append_of_le_length (by omega), strtol_append hzero]
  unfold IsBinaryFormat
  rw [hcmp Sanity.reference tail (by decide), hcmp Sanity.reference tail2 (by decide),
    hcmp kMagicIncomplete tail (by decide), hcmp kMagicIncomplete tail2 (by decide),
    hcmp kMagicBeforeVersion tail (by decide), hcmp kMagicBeforeVersion tail2 (by decide),
    hcmp OldSanity.reference tail (by decide), hcmp OldSanity.reference tail2 (by decide),
    hstr tail, hstr tail2]

/-- After one byte of the sanity block of a recognised buffer is replaced, the
block differs from the reference pattern and the version text still ends with
a zero byte inside the block. -/
theorem corrupted_head (data : List Nat) (off value : Nat)
    (hlen : sizeofSanity < data.length)
    (hhead : data.take sizeofSanity = Sanity.reference)
    (hoff : off < sizeofSanity) (hvalue : data[off]? ≠ some value) :
    (data.set off value).take sizeofSanity ≠ Sanity.reference ∧
      0 ∈ ((data.set off value).take sizeofSanity).drop kMagicBeforeVersion.length := by
  have h88 : sizeofSanity = 88 := rfl
  have href : ∀ i, i < sizeofSanity → data[i]? = Sanity.reference[i]? := by
    intro i hi
    rw [← hhead, List.getElem?_take_of_lt hi]
  constructor
  · intro heq
    have h1 : ((data.set off value).take sizeofSanity)[off]? = some value := by
      rw [List.getElem?_take_of_lt hoff, List.getElem?_set_self (by omega)]
    rw [heq, ← href off hoff] at h1
    exact hvalue h1
  · have h48 : kMagicBeforeVersion.length = 48 := by decide
    have hat : ∀ i, i < sizeofSanity → i ≠ off →
        ((data.set off value).take sizeofSanity)[i]? = Sanity.reference[i]? := by
      intro i hi hne
      rw [List.getElem?_take_of_lt hi, List.getElem?_set_ne (Ne.symm hne), href i hi]
    rw [h48]
    by_cases h51 : off = 51
    · apply List.getElem?_mem (n := 4)
      rw [List.getElem?_drop, hat 52 (by omega) (by omega)]
      decide
    · apply List.getElem?_mem (n := 3)
      rw [List.getElem?_drop, hat 51 (by omega) (by omega)]
      decide

/-- C7. Single-byte corruption of the sanity block: when `IsBinaryFormat`
recognises a buffer and the byte at an offset inside the sanity block is
replaced by a different value, `IsBinaryFormat` on the result returns `false`
or raises `FormatLoadException`; the constructor fails with a
`FormatLoadException` raised by its recognition step, before the parameters are
read; and that outcome is the same whatever bytes follow the sanity block. -/
theorem corrupted_sanity_detected (b : Build) (data : List Nat) (init_config : Config)
    (off value : Nat)
    (hrecognised : IsBinaryFormat data.length data = .ok true)
    (hoff : off < sizeofSanity) (hvalue : data[off]? ≠ some value) :
    (IsBinaryFormat data.length (data.set off value) = .ok false ∨
      ∃ why, IsBinaryFormat data.length (data.set off value)
        = .error (.FormatLoadException why)) ∧
    ∃ why,
      GenericModel.recognise data.length (data.set off value)
        = .error (.FormatLoadException why) ∧
      GenericModel.construct b data.length (data.set off value) init_config
        = .error (.FormatLoadException why) ∧
      ∀ tail : List Nat, tail.length + sizeofSanity = data.length →
        GenericModel.construct b data.length
          ((data.set off value).take sizeofSanity ++ tail) init_config
          = .error (.FormatLoadException why) := by
  have h88 : sizeofSanity = 88 := rfl
  obtain ⟨hbad, hsize, hhead⟩ := (IsBinaryFormat_eq_true_iff _ _).mp hrecognised
  obtain ⟨hne, hzero⟩ := corrupted_head data off value hsize hhead hoff hvalue
  have hlen : (data.set off value).length = data.length := List.length_set _ _ _
  have hsplit : (data.set off value).take sizeofSanity ++ (data.set off value).drop sizeofSanity
      = data.set off value := List.take_append_drop _ _
  have hscan : strtol ((data.set off value).drop kMagicBeforeVersion.length) ≠ none := by
    apply strtol_isSome_of_zero_mem
    have h48 : kMagicBeforeVersion.length = 48 := by decide
    rw [← hsplit, List.drop_append_of_le_length (by rw [List.length_take]; omega)]
    exact List.mem_append_left _ hzero
  have hout := IsBinaryFormat_of_head_ne data.length (data.set off value) (by omega) hne hscan
  refine ⟨hout, ?_⟩
  have hrec : ∀ d : List Nat, d.length = data.length →
      IsBinaryFormat data.length d = IsBinaryFormat data.length (data.set off value) →
      ∀ why, (match IsBinaryFormat data.length (data.set off value) with
          | .error e => (.error e : Except Fault (List Nat))
          | .ok false => .error (.FormatLoadException .notBinaryFormat)
          | .ok true => .ok (data.set off value)) = .error (.FormatLoadException why) →
        GenericModel.recognise data.length d = .error (.FormatLoadException why) := by
    intro d hd heq why hwhy
    unfold GenericModel.recognise
    rw [if_neg (by omega), ← hd, List.take_length, hd, heq]
    revert hwhy
    rcases hout with h | ⟨w, h⟩ <;> rw [h] <;> exact id
  have hwhy : ∃ why, (match IsBinaryFormat data.length (data.set off value) with
      | .error e => (.error e : Except Fault (List Nat))
      | .ok false => .error (.FormatLoadException .notBinaryFormat)
      | .ok true => .ok (data.set off value)) = .error (.FormatLoadException why) := by
    rcases hout with h | ⟨w, h⟩ <;> rw [h] <;> exact ⟨_, rfl⟩
  obtain ⟨why, hwhy⟩ := hwhy
  have hself := hrec (data.set off value) hlen rfl why hwhy
  refine ⟨why, hself, ?_, ?_⟩
  · unfold GenericModel.construct
    rw [hself]
  · intro tail htail
    have hcongr : IsBinaryFormat data.length ((data.set off value).take sizeofSanity ++ tail)
        = IsBinaryFormat data.length (data.set off value) := by
      conv_rhs => rw [← hsplit]
      exact IsBinaryFormat_congr _ _ _ _ (by rw [List.length_take]; omega) hzero
    have := hrec ((data.set off value).take sizeofSanity ++ tail)
      (by rw [List.length_append, List.length_take]; omega) hcongr why hwhy
    unfold GenericModel.construct
    rw [this]

/-- Witness of `corrupted_sanity_detected`: with the version digit of the fixture
buffer replaced by 6 the constructor raises the version-mismatch error. -/
theorem corrupted_sanity_detected_witness :
    GenericModel.construct Fixture.build Fixture.recognised.length
      (Fixture.recognised.set 49 0x36) { probing_multiplier := 0 }
      = .error (.FormatLoadException (.versionMismatch 6)) := by
  obtain ⟨why, hrec, hconstruct, _⟩ :=
    (corrupted_sanity_detected Fixture.build Fixture.recognised { probing_multiplier := 0 }
      49 0x36 (by decide) (by decide) (by decide)).2
  have heval : GenericModel.recognise Fixture.recognised.length (Fixture.recognised.set 49 0x36)
      = .error (.FormatLoadException (.versionMismatch 6)) := by decide
  rw [heval] at hrec
  obtain rfl : FormatError.versionMismatch 6 = why := by
    injection hrec with h
    injection h
  exact hconstruct

/-- C8. Outcome classification of unrecognised buffers: for a buffer longer than
the sanity block whose head differs from the reference pattern, `IsBinaryFormat`
(i) raises `FormatLoadException` when the buffer starts with the incomplete-build
marker; (ii) otherwise, when it starts with the marker before the version, never
returns a value: it raises the version-mismatch error when a decimal version is
parsed and differs from 5, otherwise the obsolete-format error when the head
equals the old 32-bit sanity pattern, otherwise the generic error that the test
values do not match (the scan of the version has no defined outcome only when
the digits run to the end of the memory); (iii) otherwise returns `false`. -/
theorem IsBinaryFormat_unrecognised (file_size : Nat) (data : List Nat)
    (hsize : sizeofSanity < file_size) (hbad : file_size ≠ kBadSize)
    (hlen : file_size ≤ data.length)
    (hhead : data.take sizeofSanity ≠ Sanity.reference) :
    (data.take kMagicIncomplete.length = kMagicIncomplete →
      IsBinaryFormat file_size data = .error (.FormatLoadException .didNotFinishBuilding)) ∧
    (data.take kMagicIncomplete.length ≠ kMagicIncomplete →
      data.take kMagicBeforeVersion.length = kMagicBeforeVersion →
      (∃ fault, IsBinaryFormat file_size data = .error fault) ∧
      (strtol (data.drop kMagicBeforeVersion.length) = none →
        IsBinaryFormat file_size data = .error .undefinedBehaviour) ∧
      ∀ version len, strtol (data.drop kMagicBeforeVersion.length) = some (version, len) →
        IsBinaryFormat file_size data = .error (.FormatLoadException
          (if len ≠ 0 ∧ version ≠ kMagicVersion then .versionMismatch version
           else if data.take OldSanity.reference.length = OldSanity.reference then .old32BitFormat
           else .testValuesDontMatch))) ∧
    (data.take kMagicIncomplete.length ≠ kMagicIncomplete →
      data.take kMagicBeforeVersion.length ≠ kMagicBeforeVersion →
      IsBinaryFormat file_size data = .ok false) := by
  have h88 : sizeofSanity = 88 := rfl
  have hcmp : memcmpEq data Sanity.reference = some false :=
    memcmpEq_eq_some_false.mpr
      ⟨by rw [Sanity.length_reference]; omega, by rw [Sanity.length_reference]; exact hhead⟩
  have hinc := memcmpEq_isSome data kMagicIncomplete
    (by have : kMagicIncomplete.length = 45 := by decide
        omega)
  have hbef := memcmpEq_isSome data kMagicBeforeVersion
    (by have : kMagicBeforeVersion.length = 48 := by decide
        omega)
  have hold := memcmpEq_isSome data OldSanity.reference
    (by have : OldSanity.reference.length = 88 := by decide
        omega)
  have hstart : IsBinaryFormat file_size data =
      (match (some (data.take kMagicIncomplete.length == kMagicIncomplete) : Option Bool) with
      | none => .error .undefinedBehaviour
      | some true => .error (.FormatLoadException .didNotFinishBuilding)
      | some false =>
        match (some (data.take kMagicBeforeVersion.length == kMagicBeforeVersion) : Option Bool) with
        | none => .error .undefinedBehaviour
        | some false => .ok false
        | some true =>
          match strtol (data.drop kMagicBeforeVersion.length) with
          | none => .error .undefinedBehaviour
          | some (version, len) =>
            if len ≠ 0 ∧ version ≠ kMagicVersion then
              .error (.FormatLoadException (.versionMismatch version))
            else
              match (some (data.take OldSanity.reference.length == OldSanity.reference)
                  : Option Bool) with
              | none => .error .undefinedBehaviour
              | some true => .error (.FormatLoadException .old32BitFormat)
              | some false => .error (.FormatLoadException .testValuesDontMatch)) := by
    unfold IsBinaryFormat
    rw [if_neg (by omega), hcmp, hinc, hbef, hold]
  rw [hstart]
  refine ⟨?_, ?_, ?_⟩
  · intro h1
    rw [beq_iff_eq.mpr h1]
  · intro h1 h2
    rw [beq_eq_false_iff_ne.mpr h1, beq_iff_eq.mpr h2]
    refine ⟨?_, ?_, ?_⟩
    · cases strtol (List.drop kMagicBeforeVersion.length data) with
      | none => exact ⟨_, rfl⟩
      | some r =>
        obtain ⟨version, len⟩ := r
        dsimp only
        split
        · exact ⟨_, rfl⟩
        · cases List.take OldSanity.reference.length data == OldSanity.reference <;>
            exact ⟨_, rfl⟩
    · intro hnone
      rw [hnone]
    · intro version len hsome
      rw [hsome]
      dsimp only
      by_cases hv : len ≠ 0 ∧ version ≠ kMagicVersion
      · rw [if_pos hv, if_pos hv]
      · rw [if_neg hv, if_neg hv]
        by_cases ho : data.take OldSanity.reference.length = OldSanity.reference
        · rw [beq_iff_eq.mpr ho, if_pos ho]
        · rw [beq_eq_false_iff_ne.mpr ho, if_neg ho]
  · intro h1 h2
    rw [beq_eq_false_iff_ne.mpr h1, beq_eq_false_iff_ne.mpr h2]

/-- Witness of `IsBinaryFormat_unrecognised`: the fixture buffer whose version
digit reads 6 raises the version-mismatch error. -/
theorem IsBinaryFormat_unrecognised_witness :
    IsBinaryFormat 89 Fixture.version6 = .error (.FormatLoadException (.versionMismatch 6)) :=
  ((IsBinaryFormat_unrecognised 89 Fixture.version6 (by decide) (by decide) (by decide)
    (by decide)).2.1 (by decide) (by decide)).2.2 6 2 (by decide)

namespace GenericModel

theorem recognise_of_recognised {data : List Nat}
    (hrecognised : IsBinaryFormat data.length data = .ok true) :
    recognise data.length data = .ok data := by
  unfold recognise
  rw [if_neg (Nat.lt_irrefl _), List.take_length, hrecognised]

theorem readCounts_length {data : List Nat} {fixed : FixedWidthParameters} {counts : List Nat}
    (h : readCounts data { fixed := fixed, counts := List.replicate fixed.order 0 } = some counts) :
    counts.length = fixed.order := by
  unfold readCounts at h
  dsimp only at h
  split at h
  · obtain rfl : List.replicate fixed.order 0 = counts := by simpa using h
    exact List.length_replicate _ _
  · split at h
    · exact absurd h (by simp)
    · obtain rfl := Option.some.inj h
      rw [List.length_map, List.length_range]

/-- A header with a violated parameter makes the validation raise. -/
theorem readParameters_of_invalid (b : Build) (data : List Nat) (fixed : FixedWidthParameters)
    (counts : List Nat)
    (hfixed : FixedWidthParameters.read data sizeofSanity = some fixed)
    (hcounts : readCounts data { fixed := fixed, counts := List.replicate fixed.order 0 }
      = some counts)
    (hbad : F32.lt fixed.probing_multiplier F32.one = true ∨ b.KENLM_MAX_ORDER < fixed.order ∨
      fixed.has_vocabulary = false ∨ fixed.model_type ≠ b.kModelType ∨
      fixed.search_version ≠ b.kVersion) :
    ∃ why, readParameters b data = .error (.FormatLoadException why) := by
  have hlength := readCounts_length hcounts
  unfold readParameters CheckHeader
  rw [hfixed]
  dsimp only
  by_cases hlt : F32.lt fixed.probing_multiplier F32.one = true
  · rw [if_pos hlt]
    exact ⟨_, rfl⟩
  · rw [if_neg hlt]
    dsimp only
    rw [hcounts]
    dsimp only
    unfold MatchCheck
    dsimp only
    by_cases hmt : fixed.model_type ≠ b.kModelType
    · rw [if_pos hmt]
      by_cases hnames : kModelNamesLength ≤ fixed.model_type
      · rw [if_pos hnames]
        exact ⟨_, rfl⟩
      · rw [if_neg hnames]
        exact ⟨_, rfl⟩
    · rw [if_neg hmt]
      by_cases hsv : b.kVersion ≠ fixed.search_version
      · rw [if_pos hsv]
        exact ⟨_, rfl⟩
      · rw [if_neg hsv]
        dsimp only
        unfold CheckCounts
        by_cases hord : b.KENLM_MAX_ORDER < counts.length
        · rw [if_pos hord]
          exact ⟨_, rfl⟩
        · rw [if_neg hord]
          dsimp only
          have hvocab : fixed.has_vocabulary = false := by
            rcases hbad with h | h | h | h | h
            · exact absurd h hlt
            · rw [hlength] at hord; exact absurd h hord
            · exact h
            · exact absurd h hmt
            · exact absurd (Ne.symm h) hsv
          rw [hvocab]
          exact ⟨_, rfl⟩

/-- A header whose parameters are all valid passes the validation. -/
theorem readParameters_of_valid (b : Build) (data : List Nat) (fixed : FixedWidthParameters)
    (counts : List Nat)
    (hfixed : FixedWidthParameters.read data sizeofSanity = some fixed)
    (hcounts : readCounts data { fixed := fixed, counts := List.replicate fixed.order 0 }
      = some counts)
    (hgood : ¬ (F32.lt fixed.probing_multiplier F32.one = true ∨ b.KENLM_MAX_ORDER < fixed.order ∨
      fixed.has_vocabulary = false ∨ fixed.model_type ≠ b.kModelType ∨
      fixed.search_version ≠ b.kVersion)) :
    readParameters b data = .ok { fixed := fixed, counts := counts } := by
  have hlength := readCounts_length hcounts
  simp only [not_or, not_lt, ne_eq, not_not, Bool.not_eq_true, Bool.not_eq_false] at hgood
  obtain ⟨h1, h2, h3, h4, h5⟩ := hgood
  unfold readParameters CheckHeader
  rw [hfixed]
  dsimp only
  rw [if_neg (by rw [h1]; simp)]
  dsimp only
  rw [hcounts]
  dsimp only
  unfold MatchCheck
  dsimp only
  rw [if_neg (by simp [h4]), if_neg (by simp [h5])]
  dsimp only
  unfold CheckCounts
  rw [if_neg (by omega)]
  dsimp only
  rw [h3]
  rfl

theorem Size_eq_some {b : Build} {counts : List Nat} {config : Config} {size : Nat}
    (h : Size b counts config = some size) :
    ∃ first vocab, counts.head? = some first ∧
      ProbingVocabulary.Size first config.probing_multiplier = some vocab := by
  unfold Size at h
  cases hhead : counts.head? with
  | none => rw [hhead] at h; exact absurd h (by simp)
  | some first =>
    rw [hhead] at h
    dsimp only at h
    cases hvocab : ProbingVocabulary.Size first config.probing_multiplier with
    | none => rw [hvocab] at h; exact absurd h (by simp)
    | some vocab => exact ⟨first, vocab, rfl, hvocab⟩

/-- A vocabulary header with another version than 0 makes `SetupMemory` raise,
once the sizes are defined. -/
theorem SetupMemory_of_vocabularyVersion (b : Build) (base counts : List Nat) (config : Config)
    (version : Nat) (hversion : readLE 4 base 0 = some version)
    (hne : version ≠ kProbingVocabularyVersion) (hsize : Size b counts config ≠ none) :
    ∃ why, SetupMemory b base counts config = .error (.FormatLoadException why) := by
  obtain ⟨size, hsome⟩ := Option.ne_none_iff_exists'.mp hsize
  obtain ⟨first, vocab, hhead, hvocab⟩ := Size_eq_some hsome
  unfold SetupMemory
  rw [hsome]
  dsimp only [util.CheckOverflow]
  rw [hhead, Option.some_bind, hvocab]
  dsimp only
  unfold ProbingVocabulary.SetupMemory
  rw [hversion]
  dsimp only
  rw [if_pos hne]
  exact ⟨_, rfl⟩

/-- The function `SetupMemory` succeeds only over a vocabulary header of version 0. -/
theorem SetupMemory_ok_version {b : Build} {base counts : List Nat} {config : Config}
    {placed : ProbingVocabulary × HashedSearch}
    (h : SetupMemory b base counts config = .ok placed) :
    readLE 4 base 0 = some kProbingVocabularyVersion := by
  cases hversion : readLE 4 base 0 with
  | none =>
    exfalso
    unfold SetupMemory at h
    cases hsize : Size b counts config with
    | none => rw [hsize] at h; exact absurd h (by simp)
    | some size =>
      obtain ⟨first, vocab, hhead, hvocab⟩ := Size_eq_some hsize
      rw [hsize] at h
      dsimp only [util.CheckOverflow] at h
      rw [hhead, Option.some_bind, hvocab] at h
      dsimp only at h
      unfold ProbingVocabulary.SetupMemory at h
      rw [hversion] at h
      exact absurd h (by simp)
  | some version =>
    by_cases hne : version = kProbingVocabularyVersion
    · rw [hne]
    · exfalso
      have hsize : Size b counts config ≠ none := by
        intro hnone
        unfold SetupMemory at h
        rw [hnone] at h
        exact absurd h (by simp)
      obtain ⟨why, hwhy⟩ := SetupMemory_of_vocabularyVersion b base counts config version
        hversion hne hsize
      rw [hwhy] at h
      exact absurd h (by simp)

theorem checkFileSize_ok {b : Build} {file_size : Nat} {parameters : Parameters}
    {header_size : Nat} (h : checkFileSize b file_size parameters = .ok header_size) :
    header_size = TotalHeaderSize parameters.counts.length := by
  unfold checkFileSize at h
  dsimp only at h
  cases hsize : Size b parameters.counts { probing_multiplier := parameters.fixed.probing_multiplier }
    with
  | none => rw [hsize] at h; exact absurd h (by simp)
  | some size =>
    rw [hsize] at h
    dsimp only at h
    split at h
    · exact absurd h (by simp)
    · exact (Except.ok.inj h).symm

theorem setup_ok {b : Build} {readen_content : List Nat} {parameters : Parameters}
    {header_size : Nat} {model : GenericModel}
    (h : setup b readen_content parameters header_size = .ok model) :
    ∃ placed, SetupMemory b (readen_content.drop header_size) parameters.counts
      { probing_multiplier := parameters.fixed.probing_multiplier } = .ok placed := by
  unfold setup at h
  cases hplaced : SetupMemory b (readen_content.drop header_size) parameters.counts
      { probing_multiplier := parameters.fixed.probing_multiplier } with
  | error e => rw [hplaced] at h; exact absurd h (by simp)
  | ok placed => exact ⟨placed, rfl⟩

/-- Without wrap-around of the 64-bit sum the file size test rejects a buffer
shorter than the header and the structures. -/
theorem checkFileSize_of_short (b : Build) (file_size : Nat) (parameters : Parameters)
    (size : Nat)
    (hsize : Size b parameters.counts { probing_multiplier := parameters.fixed.probing_multiplier }
      = some size)
    (hsum : TotalHeaderSize parameters.counts.length + size < 2 ^ 64)
    (hshort : file_size < TotalHeaderSize parameters.counts.length + size) :
    checkFileSize b file_size parameters = .error (.FormatLoadException
      (.fileTooSmall file_size (TotalHeaderSize parameters.counts.length + size))) := by
  unfold checkFileSize
  dsimp only
  rw [hsize]
  dsimp only
  rw [Nat.mod_eq_of_lt hsum, if_pos ⟨by unfold kBadSize; omega, hshort⟩]

/-- C9. Header validation: for every recognised buffer whose header is parsed
into `fixed` and `counts`, the constructor fails with a `FormatLoadException`
when the probing multiplier is below `1.0`, the order exceeds the compiled
maximum, `has_vocabulary` is false, or the model type or the search version is
not the one of the engine; when the vocabulary header has a format version other
than 0 it returns no model, and fails with a `FormatLoadException` whenever the
structure sizes are defined; and a successfully constructed model satisfies all
six conditions. -/
theorem construct_validates_header (b : Build) (data : List Nat) (init_config : Config)
    (fixed : FixedWidthParameters) (counts : List Nat)
    (hrecognised : IsBinaryFormat data.length data = .ok true)
    (hfixed : FixedWidthParameters.read data sizeofSanity = some fixed)
    (hcounts : readCounts data { fixed := fixed, counts := List.replicate fixed.order 0 }
      = some counts) :
    ((F32.lt fixed.probing_multiplier F32.one = true ∨ b.KENLM_MAX_ORDER < fixed.order ∨
        fixed.has_vocabulary = false ∨ fixed.model_type ≠ b.kModelType ∨
        fixed.search_version ≠ b.kVersion) →
      ∃ why, construct b data.length data init_config = .error (.FormatLoadException why)) ∧
    (∀ version, readLE 4 (data.drop (TotalHeaderSize fixed.order)) 0 = some version →
        version ≠ kProbingVocabularyVersion →
      (∀ model, construct b data.length data init_config ≠ .ok model) ∧
      (Size b counts { probing_multiplier := fixed.probing_multiplier } ≠ none →
        ∃ why, construct b data.length data init_config = .error (.FormatLoadException why))) ∧
    (∀ model, construct b data.length data init_config = .ok model →
      F32.lt fixed.probing_multiplier F32.one = false ∧ fixed.order ≤ b.KENLM_MAX_ORDER ∧
      fixed.has_vocabulary = true ∧ fixed.model_type = b.kModelType ∧
      fixed.search_version = b.kVersion ∧
      readLE 4 (data.drop (TotalHeaderSize fixed.order)) 0 = some kProbingVocabularyVersion) := by
  have hrec := recognise_of_recognised hrecognised
  have hlength := readCounts_length hcounts
  have hinvalid : (F32.lt fixed.probing_multiplier F32.one = true ∨
      b.KENLM_MAX_ORDER < fixed.order ∨ fixed.has_vocabulary = false ∨
      fixed.model_type ≠ b.kModelType ∨ fixed.search_version ≠ b.kVersion) →
      ∃ why, construct b data.length data init_config = .error (.FormatLoadException why) := by
    intro hbad
    obtain ⟨why, hwhy⟩ := readParameters_of_invalid b data fixed counts hfixed hcounts hbad
    refine ⟨why, ?_⟩
    unfold construct
    rw [hrec]
    dsimp only
    rw [hwhy]
  have hvalid : ¬ (F32.lt fixed.probing_multiplier F32.one = true ∨
      b.KENLM_MAX_ORDER < fixed.order ∨ fixed.has_vocabulary = false ∨
      fixed.model_type ≠ b.kModelType ∨ fixed.search_version ≠ b.kVersion) →
      construct b data.length data init_config =
        match checkFileSize b data.length { fixed := fixed, counts := counts } with
        | .error e => .error e
        | .ok header_size => setup b data { fixed := fixed, counts := counts } header_size := by
    intro hgood
    unfold construct
    rw [hrec]
    dsimp only
    rw [readParameters_of_valid b data fixed counts hfixed hcounts hgood]
  have hversion : ∀ version,
      readLE 4 (data.drop (TotalHeaderSize fixed.order)) 0 = some version →
      version ≠ kProbingVocabularyVersion →
      Size b counts { probing_multiplier := fixed.probing_multiplier } ≠ none →
      ∃ why, construct b data.length data init_config = .error (.FormatLoadException why) := by
    intro version hread hne hsize
    by_cases hbad : F32.lt fixed.probing_multiplier F32.one = true ∨
      b.KENLM_MAX_ORDER < fixed.order ∨ fixed.has_vocabulary = false ∨
      fixed.model_type ≠ b.kModelType ∨ fixed.search_version ≠ b.kVersion
    · exact hinvalid hbad
    · rw [hvalid hbad]
      cases hcheck : checkFileSize b data.length { fixed := fixed, counts := counts } with
      | error e =>
        dsimp only
        unfold checkFileSize at hcheck
        dsimp only at hcheck
        obtain ⟨size, hsome⟩ := Option.ne_none_iff_exists'.mp hsize
        rw [hsome] at hcheck
        dsimp only at hcheck
        split at hcheck
        · exact ⟨_, congrArg Except.error (Except.error.inj hcheck).symm⟩
        · exact absurd hcheck (by simp)
      | ok header_size =>
        dsimp only
        have hheader := checkFileSize_ok hcheck
        dsimp only at hheader
        rw [hlength] at hheader
        obtain ⟨why, hwhy⟩ := SetupMemory_of_vocabularyVersion b (data.drop header_size) counts
          { probing_multiplier := fixed.probing_multiplier } version
          (by rw [hheader]; exact hread) hne hsize
        refine ⟨why, ?_⟩
        unfold setup
        dsimp only
        rw [hwhy]
  have hsuccess : ∀ model, construct b data.length data init_config = .ok model →
      ¬ (F32.lt fixed.probing_multiplier F32.one = true ∨
        b.KENLM_MAX_ORDER < fixed.order ∨ fixed.has_vocabulary = false ∨
        fixed.model_type ≠ b.kModelType ∨ fixed.search_version ≠ b.kVersion) ∧
      readLE 4 (data.drop (TotalHeaderSize fixed.order)) 0 = some kProbingVocabularyVersion := by
    intro model hok
    have hgood : ¬ (F32.lt fixed.probing_multiplier F32.one = true ∨
        b.KENLM_MAX_ORDER < fixed.order ∨ fixed.has_vocabulary = false ∨
        fixed.model_type ≠ b.kModelType ∨ fixed.search_version ≠ b.kVersion) := by
      intro hbad
      obtain ⟨why, hwhy⟩ := hinvalid hbad
      rw [hwhy] at hok
      exact absurd hok (by simp)
    refine ⟨hgood, ?_⟩
    rw [hvalid hgood] at hok
    cases hcheck : checkFileSize b data.length { fixed := fixed, counts := counts } with
    | error e => rw [hcheck] at hok; exact absurd hok (by simp)
    | ok header_size =>
      rw [hcheck] at hok
      dsimp only at hok
      have hheader := checkFileSize_ok hcheck
      dsimp only at hheader
      rw [hlength] at hheader
      obtain ⟨placed, hplaced⟩ := setup_ok hok
      rw [← hheader]
      exact SetupMemory_ok_version hplaced
  refine ⟨hinvalid, ?_, ?_⟩
  · intro version hread hne
    refine ⟨?_, hversion version hread hne⟩
    intro model hok
    have := (hsuccess model hok).2
    rw [hread] at this
    exact hne (Option.some.inj this)
  · intro model hok
    obtain ⟨hgood, hzero⟩ := hsuccess model hok
    simp only [not_or, not_lt, ne_eq, not_not, Bool.not_eq_true, Bool.not_eq_false] at hgood
    exact ⟨hgood.1, hgood.2.1, hgood.2.2.1, hgood.2.2.2.1, hgood.2.2.2.2, hzero⟩

set_option maxRecDepth 100000 in
/-- Witness of `construct_validates_header`: the fixture header with the probing
multiplier `0.5` is rejected. -/
theorem construct_validates_header_witness :
    ∃ why, construct Fixture.build Fixture.lowMultiplier.length Fixture.lowMultiplier
      { probing_multiplier := 0 } = .error (.FormatLoadException why) :=
  (construct_validates_header Fixture.build Fixture.lowMultiplier { probing_multiplier := 0 }
    { order := 2, probing_multiplier := 0x3F000000, model_type := 0, has_vocabulary := true,
      search_version := 0 }
    [3, 1] (by decide) (by decide) (by decide)).1 (Or.inl (by decide))

set_option maxRecDepth 100000 in
/-- C10 (the code at the failing input). The fixture buffer of 160 bytes is
recognised and its header passes the validation; `Size` returns `2 ^ 64 - 64`,
so the header size 128 plus `Size` exceeds the 160 bytes of the buffer; yet the
64-bit sum wraps to 64, the file size test passes with header size 128, and the
constructor goes on to `SetupMemory` and returns a model whose longest table
has 1537228672809129292 buckets over memory that holds no entry at all. -/
theorem construct_accepts_wrapped_size :
    Fixture.overflowing.length = 160 ∧
    IsBinaryFormat 160 Fixture.overflowing = .ok true ∧
    readParameters Fixture.build Fixture.overflowing =
      .ok { fixed := { order := 2, probing_multiplier := 0x3F800000, model_type := 0,
                       has_vocabulary := true, search_version := 0 },
            counts := [1, Fixture.hugeCount] } ∧
    Size Fixture.build [1, Fixture.hugeCount] { probing_multiplier := 0x3F800000 }
      = some (2 ^ 64 - 64) ∧
    160 < TotalHeaderSize 2 + (2 ^ 64 - 64) ∧
    checkFileSize Fixture.build 160
      { fixed := { order := 2, probing_multiplier := 0x3F800000, model_type := 0,
                   has_vocabulary := true, search_version := 0 },
        counts := [1, Fixture.hugeCount] } = .ok 128 ∧
    (construct Fixture.build 160 Fixture.overflowing { probing_multiplier := 0 }).toOption.map
      (fun model => (model.search_.longest_.buckets_, model.search_.longest_.slots.length))
      = some (1537228672809129292, 0) := by
  refine ⟨by decide, by decide, by decide, by decide, by decide, by decide, by decide⟩

end GenericModel

end lm

namespace util
namespace ProbingHashTable

theorem Next_eq_mod {C i : Nat} (hi : i < C) : DivMod.Next C i = (i + 1) % C := by
  unfold DivMod.Next
  split
  · next h => rw [h, Nat.mod_self]
  · next h => rw [Nat.mod_eq_of_lt (by omega)]

theorem GetKey_isSome {V : Type} (t : ProbingHashTable V) (hmem : t.buckets_ ≤ t.slots.length)
    {i : Nat} (hi : i < t.buckets_) : ∃ k, t.GetKey i = some k := by
  have hlt : i < t.slots.length := Nat.lt_of_lt_of_le hi hmem
  exact ⟨(t.slots[i]).key, by simp [GetKey, List.getElem?_eq_getElem hlt]⟩

/-- Probing skips every slot whose key is neither the sought key nor the sentinel. -/
theorem FindFromIdeal_skip {V : Type} (t : ProbingHashTable V) (key : Nat) (fuel : Nat) :
    ∀ (d i : Nat), i < t.buckets_ →
      (∀ e, e < d → ∃ got, t.GetKey ((i + e) % t.buckets_) = some got ∧
        got ≠ key ∧ got ≠ t.invalid_) →
      FindFromIdeal t key (d + fuel) i = FindFromIdeal t key fuel ((i + d) % t.buckets_) := by
  intro d
  induction d with
  | zero =>
    intro i hi _
    simp [Nat.mod_eq_of_lt hi]
  | succ d ih =>
    intro i hi hskip
    obtain ⟨got, hgot, hk, hinv⟩ := hskip 0 (Nat.succ_pos d)
    rw [Nat.add_zero, Nat.mod_eq_of_lt hi] at hgot
    have hfuel : d + 1 + fuel = (d + fuel) + 1 := by omega
    rw [hfuel, FindFromIdeal, hgot]
    simp only [hk, hinv, if_false]
    rw [Next_eq_mod hi, ih ((i + 1) % t.buckets_) (Nat.mod_lt _ (by omega))]
    · congr 1
      rw [Nat.mod_add_mod]
      congr 1
      omega
    · intro e he
      obtain ⟨g, hg, h1, h2⟩ := hskip (e + 1) (by omega)
      refine ⟨g, ?_, h1, h2⟩
      rw [Nat.mod_add_mod, ← hg]
      congr 2
      omega

theorem probe_injective {C i e d : Nat} (he : e < C) (hd : d < C)
    (h : (i + e) % C = (i + d) % C) : e = d := by
  have h1 : e ≡ d [MOD C] := Nat.ModEq.add_left_cancel' i h
  have h2 : e % C = d % C := h1
  rwa [Nat.mod_eq_of_lt he, Nat.mod_eq_of_lt hd] at h2

theorem probe_reaches {C i s : Nat} (hi : i < C) (hs : s < C) :
    ∃ d, d < C ∧ (i + d) % C = s := by
  by_cases h : i ≤ s
  · exact ⟨s - i, by omega, by rw [Nat.add_sub_cancel' h, Nat.mod_eq_of_lt hs]⟩
  · refine ⟨s + C - i, by omega, ?_⟩
    have : i + (s + C - i) = s + C := by omega
    rw [this, Nat.add_mod_right, Nat.mod_eq_of_lt hs]

/-- In a table whose every bucket holds a key that is neither the sought key nor
the sentinel, the probe loop never ends. -/
theorem FindFromIdeal_full {V : Type} (t : ProbingHashTable V) (key : Nat)
    (hfull : ∀ j, j < t.buckets_ → ∃ got, t.GetKey j = some got ∧ got ≠ key ∧ got ≠ t.invalid_) :
    ∀ (fuel i : Nat), i < t.buckets_ → FindFromIdeal t key fuel i = none := by
  intro fuel
  induction fuel with
  | zero => intro i _; rfl
  | succ fuel ih =>
    intro i hi
    obtain ⟨got, hgot, hk, hinv⟩ := hfull i hi
    rw [FindFromIdeal, hgot]
    simp only [hk, hinv, if_false]
    rw [Next_eq_mod hi]
    exact ih _ (Nat.mod_lt _ (by omega))

/-- The probe loop ends within `buckets_` inspections or never: when
`FindFromIdeal` has no result after `buckets_` inspections, it has none after
any number of them. -/
theorem FindFromIdeal_none_forever {V : Type} (t : ProbingHashTable V) (key i : Nat)
    (hi : i < t.buckets_) (hnone : FindFromIdeal t key t.buckets_ i = none) :
    ∀ fuel, FindFromIdeal t key fuel i = none := by
  classical
  by_cases hall : ∀ e, e < t.buckets_ → ∃ got, t.GetKey ((i + e) % t.buckets_) = some got ∧
      got ≠ key ∧ got ≠ t.invalid_
  · intro fuel
    apply FindFromIdeal_full t key _ fuel i hi
    intro j hj
    obtain ⟨d, hd, hdj⟩ := probe_reaches hi hj
    rw [← hdj]
    exact hall d hd
  · have hex : ∃ e, ¬ (e < t.buckets_ → ∃ got, t.GetKey ((i + e) % t.buckets_) = some got ∧
        got ≠ key ∧ got ≠ t.invalid_) := not_forall.mp hall
    have hspec := Nat.find_spec hex
    have hlt : Nat.find hex < t.buckets_ := by
      by_contra hge
      exact hspec (fun h => absurd h hge)
    have hstop : ¬ ∃ got, t.GetKey ((i + Nat.find hex) % t.buckets_) = some got ∧
        got ≠ key ∧ got ≠ t.invalid_ := fun h => hspec (fun _ => h)
    have hskip : ∀ e, e < Nat.find hex → ∃ got, t.GetKey ((i + e) % t.buckets_) = some got ∧
        got ≠ key ∧ got ≠ t.invalid_ := by
      intro e he
      have := Nat.find_min hex he
      rw [not_not] at this
      exact this (by omega)
    have hunreadable : t.GetKey ((i + Nat.find hex) % t.buckets_) = none := by
      have hsplit : t.buckets_ = Nat.find hex + ((t.buckets_ - Nat.find hex - 1) + 1) := by omega
      rw [hsplit, FindFromIdeal_skip t key _ (Nat.find hex) i hi hskip, FindFromIdeal] at hnone
      cases hget : t.GetKey ((i + Nat.find hex) % t.buckets_) with
      | none => rfl
      | some got =>
        exfalso
        rw [hget] at hnone
        dsimp only at hnone
        by_cases hk : got = key
        · rw [if_pos hk] at hnone; exact absurd hnone (by simp)
        · rw [if_neg hk] at hnone
          by_cases hinv : got = t.invalid_
          · rw [if_pos hinv] at hnone; exact absurd hnone (by simp)
          · exact hstop ⟨got, hget, hk, hinv⟩
    intro fuel
    by_cases hfuel : fuel ≤ Nat.find hex
    · have h0 := FindFromIdeal_skip t key 0 fuel i hi (fun e he => hskip e (by omega))
      rw [Nat.add_zero] at h0
      rw [h0]
      rfl
    · have hsplit : fuel = Nat.find hex + ((fuel - Nat.find hex - 1) + 1) := by omega
      rw [hsplit, FindFromIdeal_skip t key _ (Nat.find hex) i hi hskip, FindFromIdeal,
        hunreadable]

/-- C2. `Find` hit: in a table of `C >= 1` buckets lying inside its memory, whose
occupied slots hold pairwise distinct keys, every stored key that sits on the
forward wrapping probe path from its ideal bucket with no empty slot before it
is found: `Find` returns `true` with the iterator on the slot holding the key,
after inspecting at most `C` slots. -/
theorem Find_hit {V : Type} (t : ProbingHashTable V) (key j d fuel : Nat)
    (hmem : t.buckets_ ≤ t.slots.length)
    (hdistinct : t.DistinctKeys)
    (hstored : t.GetKey j = some key) (hkey : key ≠ t.invalid_)
    (hpath : t.OnProbePath key j d)
    (hfuel : t.buckets_ ≤ fuel) :
    t.Find key fuel = some (true, j) := by
  obtain ⟨hd, hj, hfree⟩ := hpath
  have hC : 0 < t.buckets_ := by omega
  have hideal : t.hash_ key % t.buckets_ < t.buckets_ := Nat.mod_lt _ hC
  have hIdeal : t.Ideal key = some (t.hash_ key % t.buckets_) := by
    simp [Ideal, DivMod.Ideal, Nat.pos_iff_ne_zero.mp hC]
  have hsplit : fuel = d + (fuel - d) := by omega
  rw [Find, hIdeal]
  show FindFromIdeal t key fuel (t.hash_ key % t.buckets_) = some (true, j)
  rw [hsplit, FindFromIdeal_skip t key (fuel - d) d _ hideal, hj]
  · obtain ⟨f, hf⟩ : ∃ f, fuel - d = f + 1 := ⟨fuel - d - 1, by omega⟩
    rw [hf, FindFromIdeal, hstored]
    simp
  · intro e he
    obtain ⟨k, hk⟩ := GetKey_isSome t hmem
      (Nat.mod_lt (t.hash_ key % t.buckets_ + e) hC)
    refine ⟨k, hk, ?_, ?_⟩
    · intro hkk
      have hsame : (t.hash_ key % t.buckets_ + e) % t.buckets_ = j := by
        apply hdistinct _ (Nat.mod_lt _ hC) _ (by rw [← hj]; exact Nat.mod_lt _ hC)
        · rw [hk, hstored, hkk]
        · rw [hk, hkk]
          simpa using hkey
      rw [← hj] at hsame
      have := probe_injective (by omega) hd hsame
      omega
    · intro hinv
      exact hfree e he (by rw [hk, hinv])

/-- C3. `Find` miss: in a table of `C` buckets lying inside its memory with at
least one slot holding the sentinel key, looking up a key that is not the
sentinel and is stored in no slot returns `false` after inspecting at most `C`
slots, the iterator resting on a sentinel slot. -/
theorem Find_miss {V : Type} (t : ProbingHashTable V) (key fuel : Nat)
    (hmem : t.buckets_ ≤ t.slots.length)
    (hempty : ∃ s, s < t.buckets_ ∧ t.GetKey s = some t.invalid_)
    (hkey : key ≠ t.invalid_)
    (habsent : ∀ i, i < t.buckets_ → t.GetKey i ≠ some key)
    (hfuel : t.buckets_ ≤ fuel) :
    ∃ i, i < t.buckets_ ∧ t.GetKey i = some t.invalid_ ∧ t.Find key fuel = some (false, i) := by
  obtain ⟨s, hs, hsinv⟩ := hempty
  have hC : 0 < t.buckets_ := by omega
  have hideal : t.hash_ key % t.buckets_ < t.buckets_ := Nat.mod_lt _ hC
  have hIdeal : t.Ideal key = some (t.hash_ key % t.buckets_) := by
    simp [Ideal, DivMod.Ideal, Nat.pos_iff_ne_zero.mp hC]
  obtain ⟨d, hd, hds⟩ := probe_reaches hideal hs
  have hex : ∃ n, t.GetKey ((t.hash_ key % t.buckets_ + n) % t.buckets_) = some t.invalid_ :=
    ⟨d, by rw [hds]; exact hsinv⟩
  classical
  have hle : Nat.find hex ≤ d := Nat.find_min' hex (by rw [hds]; exact hsinv)
  have hfound := Nat.find_spec hex
  refine ⟨(t.hash_ key % t.buckets_ + Nat.find hex) % t.buckets_, Nat.mod_lt _ hC, hfound, ?_⟩
  have hsplit : fuel = Nat.find hex + (fuel - Nat.find hex) := by omega
  rw [Find, hIdeal]
  show FindFromIdeal t key fuel (t.hash_ key % t.buckets_) = _
  rw [hsplit, FindFromIdeal_skip t key (fuel - Nat.find hex) (Nat.find hex) _ hideal]
  · obtain ⟨f, hf⟩ : ∃ f, fuel - Nat.find hex = f + 1 := ⟨fuel - Nat.find hex - 1, by omega⟩
    rw [hf, FindFromIdeal, hfound]
    simp [Ne.symm hkey]
  · intro e he
    obtain ⟨k, hk⟩ := GetKey_isSome t hmem
      (Nat.mod_lt (t.hash_ key % t.buckets_ + e) hC)
    refine ⟨k, hk, ?_, ?_⟩
    · intro hkk
      exact habsent _ (Nat.mod_lt _ hC) (by rw [hk, hkk])
    · intro hinv
      exact Nat.find_min hex he (by rw [hk, hinv])

/-- Witness of `Find_hit`: key 7 of the fixture table, stored in bucket 0 at
distance 1 from its ideal bucket 3. -/
theorem Find_hit_witness : Fixture.table.Find 7 4 = some (true, 0) :=
  Find_hit Fixture.table 7 0 1 4 (by decide) (by unfold DistinctKeys; decide) (by decide)
    (by decide) (by unfold OnProbePath; decide) (by decide)

/-- Witness of `Find_miss`: key 11 is not in the fixture table. -/
theorem Find_miss_witness :
    ∃ i, i < Fixture.table.buckets_ ∧ Fixture.table.GetKey i = some Fixture.table.invalid_ ∧
      Fixture.table.Find 11 4 = some (false, i) :=
  Find_miss Fixture.table 11 4 (by decide) ⟨1, by decide, by decide⟩ (by decide) (by decide)
    (by decide)

theorem toU64_eq_floor {b c : Nat} (h : F32.toU64 b = some c) : c = ⌊F32.toRat b⌋₊ := by
  unfold F32.toU64 at h
  split at h
  · exact absurd h (by simp)
  · simp only at h
    unfold F32.toRat
    split at h
    · next hs =>
      split at h
      · obtain rfl : 0 = c := by simpa using h
        rw [if_pos hs]
        symm
        apply Nat.floor_of_nonpos
        have : (0 : ℚ) ≤ (F32.sig b : ℚ) * (2 : ℚ) ^ F32.ex b / (2 : ℚ) ^ 150 := by positivity
        linarith
      · exact absurd h (by simp)
    · next hs =>
      split at h
      · obtain rfl : F32.sig b * 2 ^ F32.ex b / 2 ^ 150 = c := by simpa using h
        rw [if_neg hs, one_mul]
        have := @Nat.floor_div_eq_div ℚ _ _ (F32.sig b * 2 ^ F32.ex b) (2 ^ 150)
        rw [← this]
        simp only [Nat.cast_mul, Nat.cast_pow, Nat.cast_ofNat]
      · exact absurd h (by simp)

theorem toRat_three_halves : F32.toRat 0x3FC00000 = 3 / 2 := by
  have h1 : F32.sign 0x3FC00000 = false := by decide
  have h2 : F32.sig 0x3FC00000 = 12582912 := by decide
  have h3 : F32.ex 0x3FC00000 = 127 := by decide
  rw [F32.toRat, h1, h2, h3]
  norm_num

/-- C4 (as stated, refuted). For 5 entries of 12 bytes and the multiplier `1.5`,
which is not below `1.0`, `Size` returns `7 * 12` bytes: the product `7.5` is
truncated to 7 buckets, whereas `max (5 + 1) (ceil (1.5 * 5))` is 8 buckets. -/
theorem Size_ceil_counterexample :
    F32.lt 0x3FC00000 F32.one = false ∧
    Size 12 5 0x3FC00000 = some (7 * 12) ∧
    max (5 + 1) ⌈F32.toRat 0x3FC00000 * 5⌉₊ * 12 = 8 * 12 ∧
    Size 12 5 0x3FC00000 ≠ some (max (5 + 1) ⌈F32.toRat 0x3FC00000 * 5⌉₊ * 12) := by
  have hceil : ⌈F32.toRat 0x3FC00000 * 5⌉₊ = 8 := by
    rw [toRat_three_halves, Nat.ceil_eq_iff (by norm_num)]
    norm_num
  rw [hceil]
  refine ⟨by decide, by decide, by decide, by decide⟩

theorem toU64_of_range {b : Nat} (hfinite : F32.expField b ≠ 255)
    (hlow : -1 < F32.toRat b) (hhigh : F32.toRat b < 2 ^ 64) :
    F32.toU64 b = some ⌊F32.toRat b⌋₊ := by
  have hfloor : ⌊(F32.sig b : ℚ) * (2 : ℚ) ^ F32.ex b / (2 : ℚ) ^ 150⌋₊
      = F32.sig b * 2 ^ F32.ex b / 2 ^ 150 := by
    have := @Nat.floor_div_eq_div ℚ _ _ (F32.sig b * 2 ^ F32.ex b) (2 ^ 150)
    rw [← this]
    simp only [Nat.cast_mul, Nat.cast_pow, Nat.cast_ofNat]
  have hnonneg : (0 : ℚ) ≤ (F32.sig b : ℚ) * (2 : ℚ) ^ F32.ex b / (2 : ℚ) ^ 150 := by positivity
  unfold F32.toU64
  rw [if_neg hfinite]
  unfold F32.toRat at hlow hhigh ⊢
  by_cases hs : F32.sign b = true
  · simp only [hs, if_true] at hlow hhigh ⊢
    have hlt : (F32.sig b : ℚ) * (2 : ℚ) ^ F32.ex b / (2 : ℚ) ^ 150 < 1 := by linarith
    have hzero : F32.sig b * 2 ^ F32.ex b / 2 ^ 150 = 0 := by
      rw [← hfloor]
      exact Nat.floor_eq_zero.mpr hlt
    rw [if_pos hzero]
    congr 1
    symm
    apply Nat.floor_of_nonpos
    linarith
  · simp only [hs, if_false, Bool.false_eq_true, one_mul] at hlow hhigh ⊢
    have hlt : F32.sig b * 2 ^ F32.ex b / 2 ^ 150 < 2 ^ 64 := by
      rw [← hfloor]
      exact (Nat.floor_lt hnonneg).mpr (by exact_mod_cast hhigh)
    rw [if_pos hlt, hfloor]

theorem toRat_mul_exact {m n : Nat} (hsign : F32.sign m = false) (hnormal : F32.expField m ≠ 0)
    (hfinite : F32.expField m ≠ 255) (hpos : 0 < n) (h24 : n < 2 ^ 24)
    (hexact : ∃ q k, F32.sig m * n = q * 2 ^ k ∧ q < 2 ^ 24)
    (hrange : F32.toRat m * n < 2 ^ 64) :
    F32.toRat (F32.mul m (F32.ofU64 n)) = F32.toRat m * n := by
  have hnat : F32.sig m * n * 2 ^ F32.ex m < 2 ^ 214 := by
    unfold F32.toRat at hrange
    rw [if_neg (by rw [hsign]; simp), one_mul, div_mul_eq_mul_div,
      div_lt_iff₀ (by positivity)] at hrange
    have h2 : ((F32.sig m * n * 2 ^ F32.ex m : ℕ) : ℚ) < (((2 : ℕ) ^ 214 : ℕ) : ℚ) := by
      rw [Nat.cast_mul, Nat.cast_mul, Nat.cast_pow, Nat.cast_pow, Nat.cast_ofNat]
      calc (F32.sig m : ℚ) * n * 2 ^ F32.ex m = (F32.sig m : ℚ) * 2 ^ F32.ex m * n := by ring
        _ < 2 ^ 64 * 2 ^ 150 := hrange
        _ = 2 ^ 214 := by rw [← pow_add]
    exact Nat.cast_lt.mp h2
  obtain ⟨hps, _, hpsig⟩ := F32.mul_ofU64_exact hsign hnormal hfinite hpos h24 hexact hnat
  unfold F32.toRat
  rw [if_neg (by rw [hps]; simp), if_neg (by rw [hsign]; simp), one_mul, one_mul]
  have hcast : ((F32.sig (F32.mul m (F32.ofU64 n)) * 2 ^ F32.ex (F32.mul m (F32.ofU64 n)) : ℕ) : ℚ)
      = ((F32.sig m * n * 2 ^ F32.ex m : ℕ) : ℚ) := by rw [hpsig]
  push_cast at hcast
  rw [hcast]
  ring

/-- C4 (amended). Capacity contract: for every entry count `n` and multiplier `m`
whose single-precision product `m * float(n)` is finite and, truncated toward
zero, a 64-bit unsigned integer, `Size(n, m)` is `bucket_count * sizeof(Entry)`
modulo `2 ^ 64`, where `bucket_count = max(n + 1, floor(m * float(n)))`: the
product is rounded down, not up. The single-precision product is the exact
product `m * n` when `m` is a positive normal float, `0 < n < 2 ^ 24`, and
`m * n` is below `2 ^ 64` and has at most 24 significant binary digits. -/
theorem Size_eq_floor (sizeofEntry n m : Nat)
    (hfinite : F32.expField (F32.mul m (F32.ofU64 n)) ≠ 255)
    (hlow : -1 < F32.toRat (F32.mul m (F32.ofU64 n)))
    (hhigh : F32.toRat (F32.mul m (F32.ofU64 n)) < 2 ^ 64) :
    Size sizeofEntry n m =
      some (max ((n + 1) % 2 ^ 64) ⌊F32.toRat (F32.mul m (F32.ofU64 n))⌋₊ * sizeofEntry
        % 2 ^ 64) ∧
    (F32.sign m = false → F32.expField m ≠ 0 → F32.expField m ≠ 255 → 0 < n → n < 2 ^ 24 →
      (∃ q k, F32.sig m * n = q * 2 ^ k ∧ q < 2 ^ 24) → F32.toRat m * n < 2 ^ 64 →
      F32.toRat (F32.mul m (F32.ofU64 n)) = F32.toRat m * n) := by
  constructor
  · unfold Size
    rw [toU64_of_range hfinite hlow hhigh]
    rfl
  · intro hsign hnormal hfin hpos h24 hexact hrange
    exact toRat_mul_exact hsign hnormal hfin hpos h24 hexact hrange

theorem toRat_mul_example : F32.toRat (F32.mul 0x3FC00000 (F32.ofU64 5)) = 15 / 2 := by
  have h0 : F32.mul 0x3FC00000 (F32.ofU64 5) = 0x40F00000 := by decide
  have h1 : F32.sign 0x40F00000 = false := by decide
  have h2 : F32.sig 0x40F00000 = 15728640 := by decide
  have h3 : F32.ex 0x40F00000 = 129 := by decide
  rw [h0, F32.toRat, h1, h2, h3]
  norm_num

/-- Witness of `Size_eq_floor`: 5 entries of 12 bytes at the multiplier `1.5`
give `floor(7.5) = 7` buckets, and the single-precision product is `1.5 * 5`. -/
theorem Size_eq_floor_witness :
    Size 12 5 0x3FC00000 = some (7 * 12) ∧
    F32.toRat (F32.mul 0x3FC00000 (F32.ofU64 5)) = F32.toRat 0x3FC00000 * 5 := by
  have h := Size_eq_floor 12 5 0x3FC00000 (by decide)
    (by rw [toRat_mul_example]; norm_num) (by rw [toRat_mul_example]; norm_num)
  refine ⟨by decide, ?_⟩
  have h5 : ((5 : ℕ) : ℚ) = 5 := by norm_num
  rw [← h5]
  exact h.2 (by decide) (by decide) (by decide) (by decide) (by decide)
    ⟨15, 22, by decide, by decide⟩ (by rw [toRat_three_halves]; norm_num)

/-- C5. Guaranteed empty slot: when `n + 1` and the byte product do not overflow
64 bits and `Size(n, m)` returns `bytes`, a table constructed over `bytes` bytes
has at least `n + 1` buckets, hence at least one; the ideal bucket is a
remainder by a non-zero bucket count; and when the table lies inside its memory
and at most `n` of its buckets are occupied, some bucket holds the sentinel. -/
theorem Size_guarantees_empty_slot {V : Type} (sizeofEntry n m bytes : Nat)
    (slots : List (Entry V)) (invalid : Nat) (hash_func : Nat → Nat)
    (hsizeof : 0 < sizeofEntry) (hn : n + 1 < 2 ^ 64)
    (hproduct : ∀ scaled, F32.toU64 (F32.mul m (F32.ofU64 n)) = some scaled →
      max (n + 1) scaled * sizeofEntry < 2 ^ 64)
    (hsize : Size sizeofEntry n m = some bytes) :
    n + 1 ≤ (construct sizeofEntry slots bytes invalid hash_func).buckets_ ∧
    1 ≤ (construct sizeofEntry slots bytes invalid hash_func).buckets_ ∧
    (∀ key, (construct sizeofEntry slots bytes invalid hash_func).Ideal key =
      some (hash_func key % (construct sizeofEntry slots bytes invalid hash_func).buckets_)) ∧
    ((construct sizeofEntry slots bytes invalid hash_func).buckets_ ≤ slots.length →
      ((List.range (construct sizeofEntry slots bytes invalid hash_func).buckets_).filter
        fun i => (construct sizeofEntry slots bytes invalid hash_func).GetKey i
          != some invalid).length ≤ n →
      ∃ i, i < (construct sizeofEntry slots bytes invalid hash_func).buckets_ ∧
        (construct sizeofEntry slots bytes invalid hash_func).GetKey i = some invalid) := by
  unfold Size at hsize
  obtain ⟨scaled, hscaled, hbytes⟩ := Option.map_eq_some'.mp hsize
  have hprod := hproduct scaled hscaled
  rw [Nat.mod_eq_of_lt hn, DivMod.RoundBuckets, Nat.mod_eq_of_lt hprod] at hbytes
  have hbuckets : (construct sizeofEntry slots bytes invalid hash_func).buckets_
      = max (n + 1) scaled := by
    show bytes / sizeofEntry = _
    rw [← hbytes, Nat.mul_div_cancel _ hsizeof]
  have hle : n + 1 ≤ (construct sizeofEntry slots bytes invalid hash_func).buckets_ := by
    rw [hbuckets]
    exact Nat.le_max_left _ _
  refine ⟨hle, by omega, ?_, ?_⟩
  · intro key
    have hne : (construct sizeofEntry slots bytes invalid hash_func).buckets_ ≠ 0 := by omega
    unfold Ideal DivMod.Ideal
    rw [if_neg hne]
    rfl
  · intro _ hocc
    by_contra hnone
    have hall : ∀ i ∈ List.range (construct sizeofEntry slots bytes invalid hash_func).buckets_,
        ((construct sizeofEntry slots bytes invalid hash_func).GetKey i != some invalid) = true := by
      intro i hi
      rw [List.mem_range] at hi
      rw [bne_iff_ne]
      intro hkey
      exact hnone ⟨i, hi, hkey⟩
    rw [List.filter_eq_self.mpr hall, List.length_range] at hocc
    omega

/-- Witness of `Size_guarantees_empty_slot`: a table for 5 entries of 12 bytes at
the multiplier `1.5` gets 7 buckets. -/
theorem Size_guarantees_empty_slot_witness :
    5 + 1 ≤ (construct 12 Fixture.slots7 84 0 lm.IdentityHash).buckets_ ∧
    1 ≤ (construct 12 Fixture.slots7 84 0 lm.IdentityHash).buckets_ ∧
    (∀ key, (construct 12 Fixture.slots7 84 0 lm.IdentityHash).Ideal key =
      some (lm.IdentityHash key % (construct 12 Fixture.slots7 84 0 lm.IdentityHash).buckets_)) ∧
    ((construct 12 Fixture.slots7 84 0 lm.IdentityHash).buckets_ ≤ Fixture.slots7.length →
      ((List.range (construct 12 Fixture.slots7 84 0 lm.IdentityHash).buckets_).filter
        fun i => (construct 12 Fixture.slots7 84 0 lm.IdentityHash).GetKey i
          != some 0).length ≤ 5 →
      ∃ i, i < (construct 12 Fixture.slots7 84 0 lm.IdentityHash).buckets_ ∧
        (construct 12 Fixture.slots7 84 0 lm.IdentityHash).GetKey i = some 0) :=
  Size_guarantees_empty_slot 12 5 0x3FC00000 84 Fixture.slots7 0 lm.IdentityHash (by decide)
    (by decide)
    (by
      intro scaled h
      have h7 : F32.toU64 (F32.mul 0x3FC00000 (F32.ofU64 5)) = some 7 := by decide
      rw [h7] at h
      obtain rfl : 7 = scaled := by simpa using h
      decide)
    (by decide)

end ProbingHashTable
end util

/-! ## Header alignment, the sign-bit tag and the vocabulary lookup -/

namespace lm

theorem ALIGN8_eq {a : Nat} (ha : 1 ≤ a) (hrep : a + 7 < 2 ^ 64) :
    ALIGN8 a = ((a - 1) / 8 + 1) * 8 := by
  unfold ALIGN8
  have h1 : (a + 2 ^ 64 - 1) % 2 ^ 64 = a - 1 := by
    have : a + 2 ^ 64 - 1 = (a - 1) + 2 ^ 64 := by omega
    rw [this, Nat.add_mod_right, Nat.mod_eq_of_lt (by omega)]
  rw [h1, Nat.mod_eq_of_lt (by omega)]

/-- C11. Header size alignment: for every order in 0..255 `TotalHeaderSize(order)`
is the smallest multiple of 8 that is at least `sizeof(Sanity) +
sizeof(FixedWidthParameters) + 8 * order`, namely `112 + 8 * order`; and for
every `a >= 1` whose aligned value is a `std::size_t` (`a + 7 < 2 ^ 64`),
`ALIGN8(a)` is the least multiple of 8 not below `a`, so `ALIGN8(a) - a` is in 0..7
and `ALIGN8` is idempotent. -/
theorem ALIGN8_least_multiple (a order : Nat) (ha : 1 ≤ a) (hrep : a + 7 < 2 ^ 64)
    (horder : order < 256) :
    (TotalHeaderSize order = 112 + 8 * order ∧ 8 ∣ TotalHeaderSize order ∧
      sizeofSanity + sizeofFixedWidthParameters + 8 * order ≤ TotalHeaderSize order ∧
      ∀ m, 8 ∣ m → sizeofSanity + sizeofFixedWidthParameters + 8 * order ≤ m →
        TotalHeaderSize order ≤ m) ∧
    (8 ∣ ALIGN8 a ∧ a ≤ ALIGN8 a ∧ ∀ m, 8 ∣ m → a ≤ m → ALIGN8 a ≤ m) ∧
    ALIGN8 a - a < 8 ∧ ALIGN8 (ALIGN8 a) = ALIGN8 a := by
  have key : ∀ x, 1 ≤ x → x + 7 < 2 ^ 64 →
      8 ∣ ALIGN8 x ∧ x ≤ ALIGN8 x ∧ (∀ m, 8 ∣ m → x ≤ m → ALIGN8 x ≤ m) ∧ ALIGN8 x < x + 8 := by
    intro x hx hr
    rw [ALIGN8_eq hx hr]
    refine ⟨Dvd.intro_left _ rfl, by omega, ?_, by omega⟩
    intro m hm hxm
    obtain ⟨k, rfl⟩ := hm
    omega
  obtain ⟨h1, h2, h3, h4⟩ := key a ha hrep
  have hT := key (sizeofSanity + sizeofFixedWidthParameters + 8 * order)
    (by unfold sizeofSanity; omega)
    (by unfold sizeofSanity sizeofFixedWidthParameters; omega)
  have hvalue : TotalHeaderSize order = 112 + 8 * order := by
    unfold TotalHeaderSize
    rw [ALIGN8_eq (by unfold sizeofSanity; omega)
      (by unfold sizeofSanity sizeofFixedWidthParameters; omega)]
    unfold sizeofSanity sizeofFixedWidthParameters
    omega
  refine ⟨⟨hvalue, hT.1, hT.2.1, hT.2.2.1⟩, ⟨h1, h2, h3⟩, by omega, ?_⟩
  obtain ⟨k, hk⟩ := h1
  have h5 := key (ALIGN8 a) (by omega) (by omega)
  have h6 := h5.2.2.1 (ALIGN8 a) ⟨k, hk⟩ (le_refl _)
  omega

/-- Witness of `ALIGN8_least_multiple`: the header of an order 2 model has 128
bytes, and 13 is aligned to 16. -/
theorem ALIGN8_least_multiple_witness :
    (TotalHeaderSize 2 = 112 + 8 * 2 ∧ 8 ∣ TotalHeaderSize 2 ∧
      sizeofSanity + sizeofFixedWidthParameters + 8 * 2 ≤ TotalHeaderSize 2 ∧
      ∀ m, 8 ∣ m → sizeofSanity + sizeofFixedWidthParameters + 8 * 2 ≤ m →
        TotalHeaderSize 2 ≤ m) ∧
    (8 ∣ ALIGN8 13 ∧ 13 ≤ ALIGN8 13 ∧ ∀ m, 8 ∣ m → 13 ≤ m → ALIGN8 13 ≤ m) ∧
    ALIGN8 13 - 13 < 8 ∧ ALIGN8 (ALIGN8 13) = ALIGN8 13 :=
  ALIGN8_least_multiple 13 2 (by decide) (by decide) (by decide)

theorem or_kSignBit {b : Nat} (hb : b < 2 ^ 32) : b ||| kSignBit = b % 2 ^ 31 + 2 ^ 31 := by
  have hk : kSignBit = 2 ^ 31 * 1 := by decide
  have hlo : b % 2 ^ 31 < 2 ^ 31 := Nat.mod_lt _ (by norm_num)
  have hor := Nat.mul_add_lt_is_or hlo 1
  rcases Nat.lt_or_ge b (2 ^ 31) with h | h
  · have hmod : b % 2 ^ 31 = b := Nat.mod_eq_of_lt h
    rw [hmod] at hor ⊢
    rw [Nat.or_comm, hk, ← hor]
    omega
  · have hb2 : b = 2 ^ 31 * 1 + b % 2 ^ 31 := by omega
    have hb3 : b = 2 ^ 31 * 1 ||| b % 2 ^ 31 := by rw [← hor]; exact hb2
    calc b ||| kSignBit = (2 ^ 31 * 1 ||| b % 2 ^ 31) ||| 2 ^ 31 * 1 := by rw [← hb3, hk]
      _ = 2 ^ 31 * 1 ||| b % 2 ^ 31 := by
          rw [Nat.or_comm, ← Nat.or_assoc, Nat.or_self]
      _ = b % 2 ^ 31 + 2 ^ 31 := by rw [← hor]; omega

theorem and_kSignBit (b : Nat) : (b &&& kSignBit != 0) = decide (b / 2 ^ 31 % 2 = 1) := by
  have hk : kSignBit = 2 ^ 31 := by decide
  rw [hk, Nat.and_two_pow, ← Nat.testBit_to_div_mod]
  cases Nat.testBit b 31 <;> simp

/-- C19. Independent-left sign-bit tag: for every stored weight whose `prob` field
has the 32-bit pattern `b`, `Prob()` returns the pattern `b | 0x80000000`, which
is `b` with its low 31 bits unchanged and the sign bit set; `IndependentLeft()` is
true exactly when bit 31 of `b` is set; an entry `other` that differs from it
only in the tag bit yields the same `Prob()`; and the value of `Prob()` is minus
the magnitude of the stored float. -/
theorem Prob_sets_sign_bit (w other : ProbBackoff) (hb : w.prob < 2 ^ 32)
    (hother : other.prob < 2 ^ 32) (htag : other.prob % 2 ^ 31 = w.prob % 2 ^ 31) :
    GenericProbingProxy.Prob w = w.prob ||| 0x80000000 ∧
    GenericProbingProxy.Prob w = w.prob % 2 ^ 31 + 2 ^ 31 ∧
    (GenericProbingProxy.IndependentLeft w = true ↔ w.prob / 2 ^ 31 % 2 = 1) ∧
    GenericProbingProxy.Prob other = GenericProbingProxy.Prob w ∧
    F32.toRat (GenericProbingProxy.Prob w) = -|F32.toRat w.prob| := by
  have hP : GenericProbingProxy.Prob w = w.prob % 2 ^ 31 + 2 ^ 31 := or_kSignBit hb
  refine ⟨rfl, hP, ?_, ?_, ?_⟩
  · unfold GenericProbingProxy.IndependentLeft
    rw [and_kSignBit]
    simp
  · rw [hP]
    show other.prob ||| kSignBit = _
    rw [or_kSignBit hother, htag]
  · rw [hP]
    have hsign : F32.sign (w.prob % 2 ^ 31 + 2 ^ 31) = true := by
      unfold F32.sign
      simp only [beq_iff_eq]
      omega
    have hexp : F32.expField (w.prob % 2 ^ 31 + 2 ^ 31) = F32.expField w.prob := by
      unfold F32.expField
      omega
    have hman : F32.manField (w.prob % 2 ^ 31 + 2 ^ 31) = F32.manField w.prob := by
      unfold F32.manField
      omega
    have hsig : F32.sig (w.prob % 2 ^ 31 + 2 ^ 31) = F32.sig w.prob := by
      unfold F32.sig
      rw [hexp, hman]
    have hex : F32.ex (w.prob % 2 ^ 31 + 2 ^ 31) = F32.ex w.prob := by
      unfold F32.ex
      rw [hexp]
    have hnonneg : (0 : ℚ) ≤ (F32.sig w.prob : ℚ) * (2 : ℚ) ^ F32.ex w.prob / (2 : ℚ) ^ 150 :=
      div_nonneg (mul_nonneg (Nat.cast_nonneg _) (pow_nonneg (by norm_num) _))
        (pow_nonneg (by norm_num) _)
    unfold F32.toRat
    rw [hsign, hsig, hex]
    by_cases hs : F32.sign w.prob = true
    · rw [hs]
      simp only [if_true]
      rw [abs_of_nonpos (by linarith)]
      ring
    · have hs2 : F32.sign w.prob = false := by simpa using hs
      rw [hs2]
      simp only [if_true, Bool.false_eq_true, if_false, one_mul]
      rw [abs_of_nonneg hnonneg]
      ring

/-- Witness of `Prob_sets_sign_bit`: the stored patterns of `1.0` and of `-1.0` both
read as the probability `-1.0`. -/
theorem Prob_sets_sign_bit_witness :
    GenericProbingProxy.Prob ⟨0x3F800000, 0⟩ = 0x3F800000 ||| 0x80000000 ∧
    GenericProbingProxy.Prob ⟨0x3F800000, 0⟩ = 0x3F800000 % 2 ^ 31 + 2 ^ 31 ∧
    (GenericProbingProxy.IndependentLeft ⟨0x3F800000, 0⟩ = true ↔ 0x3F800000 / 2 ^ 31 % 2 = 1) ∧
    GenericProbingProxy.Prob ⟨0xBF800000, 0⟩ = GenericProbingProxy.Prob ⟨0x3F800000, 0⟩ ∧
    F32.toRat (GenericProbingProxy.Prob ⟨0x3F800000, 0⟩) = -|F32.toRat 0x3F800000| :=
  Prob_sets_sign_bit ⟨0x3F800000, 0⟩ ⟨0xBF800000, 0⟩ (by decide) (by decide) (by decide)

end lm

namespace util
namespace ProbingHashTable

/-- The probe loop stops at the first slot on the path from `i` that holds the
sought key or the sentinel; the slots before it are skipped. -/
theorem FindFromIdeal_stop {V : Type} (t : ProbingHashTable V) (key i d fuel got : Nat)
    (hi : i < t.buckets_) (hfuel : d < fuel)
    (hskip : ∀ e, e < d → ∃ g, t.GetKey ((i + e) % t.buckets_) = some g ∧ g ≠ key ∧
      g ≠ t.invalid_)
    (hgot : t.GetKey ((i + d) % t.buckets_) = some got) (hstop : got = key ∨ got = t.invalid_) :
    FindFromIdeal t key fuel i = some (decide (got = key), (i + d) % t.buckets_) := by
  obtain ⟨f, hf⟩ : ∃ f, fuel = d + (f + 1) := ⟨fuel - d - 1, by omega⟩
  rw [hf, FindFromIdeal_skip t key (f + 1) d i hi hskip, FindFromIdeal, hgot]
  dsimp only
  by_cases hk : got = key
  · simp [hk]
  · rcases hstop with h | h
    · exact absurd h hk
    · subst h
      simp [hk]

end ProbingHashTable
end util

namespace lm
namespace ProbingVocabulary

end ProbingVocabulary
end lm

/-! ## Words with the same hash -/

namespace lm
namespace ProbingVocabulary

end ProbingVocabulary
end lm

/-! ## The scoring walk -/

namespace lm
namespace GenericModel

theorem ResumeScore_stop (search_ : Search) (words : Nat → Nat)
    (remaining hist_iter order_minus_2 backoff_out : Nat) (w : ScoreWalk)
    (h : w.ret.independent_left = true) :
    ResumeScore search_ words remaining hist_iter order_minus_2 backoff_out w = w := by
  cases remaining with
  | zero => rfl
  | succ r => rw [ResumeScore, if_pos h]

theorem ResumeScore_longest (search_ : Search) (words : Nat → Nat)
    (remaining hist_iter order_minus_2 backoff_out : Nat) (w : ScoreWalk)
    (h : w.ret.independent_left = false) (hlong : order_minus_2 + 2 = search_.Order) :
    ResumeScore search_ words (remaining + 1) hist_iter order_minus_2 backoff_out w =
      match search_.LookupLongest (words hist_iter) w.node with
      | some prob =>
        { w with ret := { w.ret with independent_left := true, prob := prob, rest := prob,
                                     ngram_length := search_.Order } }
      | none => { w with ret := { w.ret with independent_left := true } } := by
  rw [ResumeScore, if_neg (by simp [h]), if_pos hlong]

theorem ResumeScore_miss (search_ : Search) (words : Nat → Nat)
    (remaining hist_iter order_minus_2 backoff_out : Nat) (w : ScoreWalk)
    (h : w.ret.independent_left = false) (hlong : order_minus_2 + 2 ≠ search_.Order)
    (hmiss : (search_.LookupMiddle order_minus_2 (words hist_iter) w.node w.ret.independent_left
      w.ret.extend_left).pointer = none) :
    ResumeScore search_ words (remaining + 1) hist_iter order_minus_2 backoff_out w =
      { w with
        node := (search_.LookupMiddle order_minus_2 (words hist_iter) w.node
          w.ret.independent_left w.ret.extend_left).node
        ret := { w.ret with
          independent_left := (search_.LookupMiddle order_minus_2 (words hist_iter) w.node
            w.ret.independent_left w.ret.extend_left).independent_left
          extend_left := (search_.LookupMiddle order_minus_2 (words hist_iter) w.node
            w.ret.independent_left w.ret.extend_left).extend_left } } := by
  rw [ResumeScore, if_neg (by simp [h]), if_neg hlong]
  dsimp only
  rw [hmiss]

theorem ResumeScore_hit (search_ : Search) (words : Nat → Nat)
    (remaining hist_iter order_minus_2 backoff_out : Nat) (w : ScoreWalk) (pointer : ProbBackoff)
    (h : w.ret.independent_left = false) (hlong : order_minus_2 + 2 ≠ search_.Order)
    (hhit : (search_.LookupMiddle order_minus_2 (words hist_iter) w.node w.ret.independent_left
      w.ret.extend_left).pointer = some pointer) :
    ResumeScore search_ words (remaining + 1) hist_iter order_minus_2 backoff_out w =
      ResumeScore search_ words remaining (hist_iter + 1) ((order_minus_2 + 1) % 256)
        (backoff_out + 1)
        { node := (search_.LookupMiddle order_minus_2 (words hist_iter) w.node
            w.ret.independent_left w.ret.extend_left).node
          backoff := Function.update w.backoff backoff_out (GenericProbingProxy.Backoff pointer)
          next_use := if HasExtension (GenericProbingProxy.Backoff pointer)
            then (order_minus_2 + 2) % 256 else w.next_use
          ret := { prob := GenericProbingProxy.Prob pointer
                   rest := GenericProbingProxy.Rest pointer
                   ngram_length := (order_minus_2 + 2) % 256
                   independent_left := (search_.LookupMiddle order_minus_2 (words hist_iter)
                     w.node w.ret.independent_left w.ret.extend_left).independent_left
                   extend_left := (search_.LookupMiddle order_minus_2 (words hist_iter) w.node
                     w.ret.independent_left w.ret.extend_left).extend_left } } := by
  rw [ResumeScore, if_neg (by simp [h]), if_neg hlong]
  dsimp only
  rw [hhit]
  simp only [Function.update_same]

/-- The walk reads nothing of the backoff array it writes to: two walks that
differ only in the content of that array end with the same node, the same
`next_use` and the same `ret`, and with the same backoffs below `next_use`. -/
theorem ResumeScore_storage (search_ : Search) (words : Nat → Nat) :
    ∀ (remaining hist_iter order_minus_2 backoff_out : Nat) (w v : ScoreWalk),
      w.node = v.node → w.next_use = v.next_use → w.ret = v.ret →
      order_minus_2 + 1 ≤ backoff_out → w.next_use ≤ backoff_out →
      (∀ i, i < backoff_out → w.backoff i = v.backoff i) →
      (ResumeScore search_ words remaining hist_iter order_minus_2 backoff_out w).ret
        = (ResumeScore search_ words remaining hist_iter order_minus_2 backoff_out v).ret ∧
      (ResumeScore search_ words remaining hist_iter order_minus_2 backoff_out w).next_use
        = (ResumeScore search_ words remaining hist_iter order_minus_2 backoff_out v).next_use ∧
      ∀ i, i < (ResumeScore search_ words remaining hist_iter order_minus_2 backoff_out w).next_use →
        (ResumeScore search_ words remaining hist_iter order_minus_2 backoff_out w).backoff i
          = (ResumeScore search_ words remaining hist_iter order_minus_2 backoff_out v).backoff i := by
  intro remaining
  induction remaining with
  | zero =>
    intro hist_iter order_minus_2 backoff_out w v _ huse hret _ hle hagree
    exact ⟨hret, huse, fun i hi => hagree i (by simp only [ResumeScore] at hi; omega)⟩
  | succ r ih =>
    intro hist_iter order_minus_2 backoff_out w v hnode huse hret hom hle hagree
    by_cases hil : w.ret.independent_left = true
    · rw [ResumeScore_stop _ _ _ _ _ _ w hil, ResumeScore_stop _ _ _ _ _ _ v (hret ▸ hil)]
      exact ⟨hret, huse, fun i hi => hagree i (by omega)⟩
    · have hil : w.ret.independent_left = false := by simpa using hil
      have hilv : v.ret.independent_left = false := hret ▸ hil
      by_cases hlong : order_minus_2 + 2 = search_.Order
      · rw [ResumeScore_longest _ _ _ _ _ _ w hil hlong,
          ResumeScore_longest _ _ _ _ _ _ v hilv hlong, ← hnode, ← hret]
        cases search_.LookupLongest (words hist_iter) w.node with
        | none => exact ⟨rfl, huse, fun i hi => hagree i (by dsimp only at hi; omega)⟩
        | some prob => exact ⟨rfl, huse, fun i hi => hagree i (by dsimp only at hi; omega)⟩
      · cases hfound : (search_.LookupMiddle order_minus_2 (words hist_iter) w.node
            w.ret.independent_left w.ret.extend_left).pointer with
        | none =>
          rw [ResumeScore_miss _ _ _ _ _ _ w hil hlong hfound,
            ResumeScore_miss _ _ _ _ _ _ v hilv hlong (by rw [← hnode, ← hret]; exact hfound),
            ← hnode, ← hret]
          exact ⟨rfl, huse, fun i hi => hagree i (by dsimp only at hi; omega)⟩
        | some pointer =>
          rw [ResumeScore_hit _ _ _ _ _ _ w pointer hil hlong hfound,
            ResumeScore_hit _ _ _ _ _ _ v pointer hilv hlong (by rw [← hnode, ← hret]; exact hfound),
            ← hnode, ← hret, ← huse]
          apply ih
          · rfl
          · rfl
          · rfl
          · have := Nat.mod_le (order_minus_2 + 1) 256
            omega
          · dsimp only
            have := Nat.mod_le (order_minus_2 + 2) 256
            split <;> omega
          · intro i hi
            dsimp only
            by_cases hib : i = backoff_out
            · rw [hib]; simp only [Function.update_same]
            · simp only [Function.update_noteq hib]
              exact hagree i (by omega)

/-- The walk leaves the backoff array below `backoff_out` as it is. -/
theorem ResumeScore_backoff_below (search_ : Search) (words : Nat → Nat) :
    ∀ (remaining hist_iter order_minus_2 backoff_out : Nat) (w : ScoreWalk) (i : Nat),
      i < backoff_out →
      (ResumeScore search_ words remaining hist_iter order_minus_2 backoff_out w).backoff i
        = w.backoff i := by
  intro remaining
  induction remaining with
  | zero => intro _ _ _ _ _ _; rfl
  | succ r ih =>
    intro hist_iter order_minus_2 backoff_out w i hi
    by_cases hil : w.ret.independent_left = true
    · rw [ResumeScore_stop _ _ _ _ _ _ w hil]
    · have hil : w.ret.independent_left = false := by simpa using hil
      by_cases hlong : order_minus_2 + 2 = search_.Order
      · rw [ResumeScore_longest _ _ _ _ _ _ w hil hlong]
        cases search_.LookupLongest (words hist_iter) w.node <;> rfl
      · cases hfound : (search_.LookupMiddle order_minus_2 (words hist_iter) w.node
            w.ret.independent_left w.ret.extend_left).pointer with
        | none => rw [ResumeScore_miss _ _ _ _ _ _ w hil hlong hfound]
        | some pointer =>
          rw [ResumeScore_hit _ _ _ _ _ _ w pointer hil hlong hfound, ih _ _ _ _ i (by omega)]
          exact Function.update_noteq (by omega) _ _

theorem ScoreExceptBackoff_storage (search_ : Search) (context_rbegin : Nat → Nat)
    (context_length new_word : Nat) (out_state other : State) :
    (ScoreExceptBackoff search_ context_rbegin context_length new_word out_state).1
      = (ScoreExceptBackoff search_ context_rbegin context_length new_word other).1 ∧
    (ScoreExceptBackoff search_ context_rbegin context_length new_word out_state).2.length
      = (ScoreExceptBackoff search_ context_rbegin context_length new_word other).2.length ∧
    ∀ i, (i = 0 ∨
        i < (ScoreExceptBackoff search_ context_rbegin context_length new_word out_state).2.length) →
      (ScoreExceptBackoff search_ context_rbegin context_length new_word out_state).2.words i
        = (ScoreExceptBackoff search_ context_rbegin context_length new_word other).2.words i ∧
      (ScoreExceptBackoff search_ context_rbegin context_length new_word out_state).2.backoff i
        = (ScoreExceptBackoff search_ context_rbegin context_length new_word other).2.backoff i := by
  unfold ScoreExceptBackoff
  dsimp only
  by_cases hzero : context_length = 0
  · rw [if_pos hzero, if_pos hzero]
    refine ⟨rfl, rfl, ?_⟩
    intro i hi
    have hi0 : i = 0 := by
      rcases hi with h | h
      · exact h
      · dsimp only at h
        split at h <;> omega
    rw [hi0]
    simp only [Function.update_same, and_self]
  · rw [if_neg hzero, if_neg hzero]
    obtain ⟨hret, huse, hback⟩ := ResumeScore_storage search_ context_rbegin context_length 0 0 1
      { node := (search_.LookupUnigram new_word).node
        backoff := Function.update out_state.backoff 0
          (GenericProbingProxy.Backoff (search_.LookupUnigram new_word).pointer)
        next_use := if HasExtension (Function.update out_state.backoff 0
          (GenericProbingProxy.Backoff (search_.LookupUnigram new_word).pointer) 0) then 1 else 0
        ret := { ngram_length := 1
                 independent_left := (search_.LookupUnigram new_word).independent_left
                 extend_left := (search_.LookupUnigram new_word).extend_left
                 prob := GenericProbingProxy.Prob (search_.LookupUnigram new_word).pointer
                 rest := GenericProbingProxy.Rest (search_.LookupUnigram new_word).pointer } }
      { node := (search_.LookupUnigram new_word).node
        backoff := Function.update other.backoff 0
          (GenericProbingProxy.Backoff (search_.LookupUnigram new_word).pointer)
        next_use := if HasExtension (Function.update other.backoff 0
          (GenericProbingProxy.Backoff (search_.LookupUnigram new_word).pointer) 0) then 1 else 0
        ret := { ngram_length := 1
                 independent_left := (search_.LookupUnigram new_word).independent_left
                 extend_left := (search_.LookupUnigram new_word).extend_left
                 prob := GenericProbingProxy.Prob (search_.LookupUnigram new_word).pointer
                 rest := GenericProbingProxy.Rest (search_.LookupUnigram new_word).pointer } }
      rfl (by simp only [Function.update_same]) rfl (by omega)
      (by dsimp only; split <;> omega)
      (by intro i hi; have : i = 0 := by omega
          rw [this]; simp only [Function.update_same])
    refine ⟨hret, huse, ?_⟩
    intro i hi
    constructor
    · simp only [CopyRemainingHistory]
      rw [← huse]
      by_cases hcopy : 1 ≤ i ∧ i < (ResumeScore search_ context_rbegin context_length 0 0 1
          { node := (search_.LookupUnigram new_word).node
            backoff := Function.update out_state.backoff 0
              (GenericProbingProxy.Backoff (search_.LookupUnigram new_word).pointer)
            next_use := if HasExtension (Function.update out_state.backoff 0
              (GenericProbingProxy.Backoff (search_.LookupUnigram new_word).pointer) 0)
              then 1 else 0
            ret := { ngram_length := 1
                     independent_left := (search_.LookupUnigram new_word).independent_left
                     extend_left := (search_.LookupUnigram new_word).extend_left
                     prob := GenericProbingProxy.Prob (search_.LookupUnigram new_word).pointer
                     rest := GenericProbingProxy.Rest (search_.LookupUnigram new_word).pointer } }).next_use
      · rw [if_pos hcopy, if_pos hcopy]
      · rw [if_neg hcopy, if_neg hcopy]
        have hi0 : i = 0 := by
          rcases hi with h | h
          · exact h
          · simp only [CopyRemainingHistory] at h
            by_contra hne
            exact hcopy ⟨by omega, h⟩
        rw [hi0]
        simp only [Function.update_same]
    · simp only [CopyRemainingHistory]
      rcases hi with h | h
      · rw [h, ResumeScore_backoff_below _ _ _ _ _ _ _ 0 (by omega),
          ResumeScore_backoff_below _ _ _ _ _ _ _ 0 (by omega)]
        simp only [Function.update_same]
      · exact hback i (by simpa only [CopyRemainingHistory] using h)

/-- C18 (as stated, refuted). The same search, input state and word, scored into
zeroed output storage and into storage left over from earlier use: the
returned values agree, both output states have length 0, and yet the output
states are not bit-identical, for `words[1]` keeps what the storage held before
the call (0 in one case, 9 in the other). -/
theorem FullScore_storage_counterexample :
    (FullScore Fixture.search Fixture.inState 3 Fixture.outState).1
      = (FullScore Fixture.search Fixture.inState 3 Fixture.usedState).1 ∧
    (FullScore Fixture.search Fixture.inState 3 Fixture.outState).2.length = 0 ∧
    (FullScore Fixture.search Fixture.inState 3 Fixture.usedState).2.length = 0 ∧
    (FullScore Fixture.search Fixture.inState 3 Fixture.outState).2.words 1 = 0 ∧
    (FullScore Fixture.search Fixture.inState 3 Fixture.usedState).2.words 1 = 9 ∧
    (FullScore Fixture.search Fixture.inState 3 Fixture.outState).2.words 1
      ≠ (FullScore Fixture.search Fixture.inState 3 Fixture.usedState).2.words 1 := by
  refine ⟨by decide, by decide, by decide, by decide, by decide, by decide⟩

/-- Two calls of `FullScore` that differ in the output storage only return the same
value and leave output states with the same length and the same words and
backoffs at the index 0 and below that length. -/
theorem FullScore_storage (search_ : Search) (in_state : State) (new_word : Nat)
    (out_state other : State) :
    (FullScore search_ in_state new_word out_state).1
      = (FullScore search_ in_state new_word other).1 ∧
    (FullScore search_ in_state new_word out_state).2.length
      = (FullScore search_ in_state new_word other).2.length ∧
    ∀ i, (i = 0 ∨ i < (FullScore search_ in_state new_word out_state).2.length) →
      (FullScore search_ in_state new_word out_state).2.words i
        = (FullScore search_ in_state new_word other).2.words i ∧
      (FullScore search_ in_state new_word out_state).2.backoff i
        = (FullScore search_ in_state new_word other).2.backoff i := by
  obtain ⟨hret, hlen, hrest⟩ := ScoreExceptBackoff_storage search_ in_state.words in_state.length
    new_word out_state other
  refine ⟨?_, hlen, hrest⟩
  simp only [FullScore, hret]

/-- C13. Scoring with an empty context: for every word and every input state of
length 0, `FullScore` returns `prob` and `rest` both equal to the `Prob()` of the
unigram entry, so no backoff is charged, and `ngram_length = 1`; it sets
`out_state.words[0]` to the word, `out_state.backoff[0]` to the backoff of the unigram
and `out_state.length` to 1 if that backoff has an extension and to 0 otherwise;
and no middle or longest table is consulted: a search with other tables and
the same unigrams gives the same result. -/
theorem FullScore_empty_context (search_ : Search) (in_state : State) (new_word : Nat)
    (out_state : State) (hempty : in_state.length = 0) :
    (FullScore search_ in_state new_word out_state).1.prob
      = GenericProbingProxy.Prob (search_.LookupUnigram new_word).pointer ∧
    (FullScore search_ in_state new_word out_state).1.rest
      = GenericProbingProxy.Prob (search_.LookupUnigram new_word).pointer ∧
    (FullScore search_ in_state new_word out_state).1.ngram_length = 1 ∧
    (FullScore search_ in_state new_word out_state).2.words 0 = new_word ∧
    (FullScore search_ in_state new_word out_state).2.backoff 0
      = GenericProbingProxy.Backoff (search_.LookupUnigram new_word).pointer ∧
    (FullScore search_ in_state new_word out_state).2.length
      = (if HasExtension (GenericProbingProxy.Backoff (search_.LookupUnigram new_word).pointer)
          then 1 else 0) ∧
    ∀ other : Search, other.LookupUnigram = search_.LookupUnigram →
      FullScore other in_state new_word out_state = FullScore search_ in_state new_word out_state := by
  refine ⟨?_, ?_, ?_, ?_, ?_, ?_, ?_⟩
  · simp [FullScore, ScoreExceptBackoff, hempty, chargeBackoff]
  · simp [FullScore, ScoreExceptBackoff, hempty, GenericProbingProxy.Rest]
  · simp [FullScore, ScoreExceptBackoff, hempty]
  · simp [FullScore, ScoreExceptBackoff, hempty]
  · simp [FullScore, ScoreExceptBackoff, hempty]
  · simp [FullScore, ScoreExceptBackoff, hempty]
  · intro other h
    simp [FullScore, ScoreExceptBackoff, hempty, h]

/-- Witness of `FullScore_empty_context`: the word 3 scored in the fixture search of
order 3 from an empty state. -/
theorem FullScore_empty_context_witness :
    (FullScore Fixture.trigrams Fixture.outState 3 Fixture.usedState).1.prob
      = GenericProbingProxy.Prob (Fixture.trigrams.LookupUnigram 3).pointer ∧
    (FullScore Fixture.trigrams Fixture.outState 3 Fixture.usedState).1.rest
      = GenericProbingProxy.Prob (Fixture.trigrams.LookupUnigram 3).pointer ∧
    (FullScore Fixture.trigrams Fixture.outState 3 Fixture.usedState).1.ngram_length = 1 ∧
    (FullScore Fixture.trigrams Fixture.outState 3 Fixture.usedState).2.words 0 = 3 ∧
    (FullScore Fixture.trigrams Fixture.outState 3 Fixture.usedState).2.backoff 0
      = GenericProbingProxy.Backoff (Fixture.trigrams.LookupUnigram 3).pointer ∧
    (FullScore Fixture.trigrams Fixture.outState 3 Fixture.usedState).2.length
      = (if HasExtension (GenericProbingProxy.Backoff (Fixture.trigrams.LookupUnigram 3).pointer)
          then 1 else 0) ∧
    ∀ other : Search, other.LookupUnigram = Fixture.trigrams.LookupUnigram →
      FullScore other Fixture.outState 3 Fixture.usedState
        = FullScore Fixture.trigrams Fixture.outState 3 Fixture.usedState :=
  FullScore_empty_context Fixture.trigrams Fixture.outState 3 Fixture.usedState (by decide)

/-- Bounds on `next_use` along the walk of a model of order 2 to 255. -/
theorem ResumeScore_next_use_le (search_ : Search) (words : Nat → Nat)
    (hmax : search_.Order < 256) :
    ∀ (remaining hist_iter backoff_out : Nat) (w : ScoreWalk),
      hist_iter + 2 ≤ search_.Order → w.next_use ≤ hist_iter + 1 →
      (ResumeScore search_ words remaining hist_iter hist_iter backoff_out w).next_use
        ≤ search_.Order - 1 ∧
      (ResumeScore search_ words remaining hist_iter hist_iter backoff_out w).next_use
        ≤ hist_iter + remaining + 1 := by
  intro remaining
  induction remaining with
  | zero =>
    intro hist_iter backoff_out w hord huse
    simp only [ResumeScore]
    omega
  | succ r ih =>
    intro hist_iter backoff_out w hord huse
    by_cases hil : w.ret.independent_left = true
    · rw [ResumeScore_stop _ _ _ _ _ _ w hil]
      omega
    · have hil : w.ret.independent_left = false := by simpa using hil
      by_cases hlong : hist_iter + 2 = search_.Order
      · rw [ResumeScore_longest _ _ _ _ _ _ w hil hlong]
        cases search_.LookupLongest (words hist_iter) w.node <;> dsimp only <;> omega
      · cases hfound : (search_.LookupMiddle hist_iter (words hist_iter) w.node
            w.ret.independent_left w.ret.extend_left).pointer with
        | none =>
          rw [ResumeScore_miss _ _ _ _ _ _ w hil hlong hfound]
          dsimp only
          omega
        | some pointer =>
          rw [ResumeScore_hit _ _ _ _ _ _ w pointer hil hlong hfound,
            Nat.mod_eq_of_lt (show hist_iter + 1 < 256 by omega),
            Nat.mod_eq_of_lt (show hist_iter + 2 < 256 by omega)]
          have := ih (hist_iter + 1) (backoff_out + 1)
            { node := (search_.LookupMiddle hist_iter (words hist_iter) w.node
                w.ret.independent_left w.ret.extend_left).node
              backoff := Function.update w.backoff backoff_out (GenericProbingProxy.Backoff pointer)
              next_use := if HasExtension (GenericProbingProxy.Backoff pointer)
                then hist_iter + 2 else w.next_use
              ret := { prob := GenericProbingProxy.Prob pointer
                       rest := GenericProbingProxy.Rest pointer
                       ngram_length := hist_iter + 2
                       independent_left := (search_.LookupMiddle hist_iter (words hist_iter)
                         w.node w.ret.independent_left w.ret.extend_left).independent_left
                       extend_left := (search_.LookupMiddle hist_iter (words hist_iter) w.node
                         w.ret.independent_left w.ret.extend_left).extend_left } }
            (by omega) (by dsimp only; split <;> omega)
          omega

theorem FullScore_length_le (search_ : Search) (h2 : 2 ≤ search_.Order)
    (hmax : search_.Order < 256) (in_state : State) (new_word : Nat) (out_state : State) :
    (FullScore search_ in_state new_word out_state).2.length ≤ search_.Order - 1 ∧
    (FullScore search_ in_state new_word out_state).2.length ≤ in_state.length + 1 := by
  simp only [FullScore, ScoreExceptBackoff]
  by_cases hzero : in_state.length = 0
  · rw [if_pos hzero]
    dsimp only
    split <;> omega
  · rw [if_neg hzero]
    simp only [CopyRemainingHistory]
    have := ResumeScore_next_use_le search_ in_state.words hmax in_state.length 0 1
      { node := (search_.LookupUnigram new_word).node
        backoff := Function.update out_state.backoff 0
          (GenericProbingProxy.Backoff (search_.LookupUnigram new_word).pointer)
        next_use := if HasExtension (Function.update out_state.backoff 0
          (GenericProbingProxy.Backoff (search_.LookupUnigram new_word).pointer) 0) then 1 else 0
        ret := { ngram_length := 1
                 independent_left := (search_.LookupUnigram new_word).independent_left
                 extend_left := (search_.LookupUnigram new_word).extend_left
                 prob := GenericProbingProxy.Prob (search_.LookupUnigram new_word).pointer
                 rest := GenericProbingProxy.Rest (search_.LookupUnigram new_word).pointer } }
      (by omega) (by dsimp only; split <;> omega)
    omega

/-- The constructor stores a begin-of-sentence state of length 1, a null-context
state of length 0 and the order of its search. -/
theorem setup_states {b : Build} {readen_content : List Nat} {parameters : Parameters}
    {header_size : Nat} {model : GenericModel}
    (h : setup b readen_content parameters header_size = .ok model) :
    model.begin_sentence_.length = 1 ∧ model.null_context_.length = 0 ∧
      model.order_ = model.ops.Order := by
  unfold setup at h
  cases hplaced : SetupMemory b (readen_content.drop header_size) parameters.counts
      { probing_multiplier := parameters.fixed.probing_multiplier } with
  | error e => rw [hplaced] at h; exact absurd h (by simp)
  | ok placed =>
    rw [hplaced] at h
    have hmodel := Except.ok.inj h
    rw [← hmodel]
    exact ⟨rfl, rfl, rfl⟩

/-- C15. State length invariant: for every model of order 2 to 255 (the order is
an `unsigned char`) whose begin-of-sentence and null-context states have the
lengths 1 and 0 the constructor gives them, every input state and every word,
the output state of `FullScore` has a length of at most `order - 1` and of at most
`in_state.length + 1`; hence every state reachable from `BeginSentenceState()` or
`NullContextState()` by any sequence of `FullScore` calls has a length of at most
`order - 1`. -/
theorem FullScore_length_invariant (model : GenericModel)
    (hbegin : model.begin_sentence_.length = 1) (hnull : model.null_context_.length = 0)
    (h2 : 2 ≤ model.ops.Order) (hmax : model.ops.Order < 256) :
    (∀ (in_state : State) (new_word : Nat) (out_state : State),
      (FullScore model.ops in_state new_word out_state).2.length ≤ model.ops.Order - 1 ∧
      (FullScore model.ops in_state new_word out_state).2.length ≤ in_state.length + 1) ∧
    ∀ state, Reachable model state → state.length ≤ model.ops.Order - 1 := by
  refine ⟨fun in_state new_word out_state =>
    FullScore_length_le model.ops h2 hmax in_state new_word out_state, ?_⟩
  intro state hreach
  induction hreach with
  | begin_sentence => omega
  | null_context => omega
  | full_score in_state new_word out_state _ _ =>
    exact (FullScore_length_le model.ops h2 hmax in_state new_word out_state).1

/-- Witness of `FullScore_length_invariant`: the fixture model of order 3, one step
from the fixture context, and the state reached from the begin-of-sentence
state by scoring the words 3 and 4. -/
theorem FullScore_length_invariant_witness :
    ((FullScore (Fixture.modelOf Fixture.trigrams).ops Fixture.context 3
        Fixture.usedState).2.length ≤ (Fixture.modelOf Fixture.trigrams).ops.Order - 1 ∧
      (FullScore (Fixture.modelOf Fixture.trigrams).ops Fixture.context 3
        Fixture.usedState).2.length ≤ Fixture.context.length + 1) ∧
    (FullScore (Fixture.modelOf Fixture.trigrams).ops
      (FullScore (Fixture.modelOf Fixture.trigrams).ops
        (Fixture.modelOf Fixture.trigrams).begin_sentence_ 3 Fixture.usedState).2 4
      Fixture.usedState).2.length ≤ (Fixture.modelOf Fixture.trigrams).ops.Order - 1 :=
  ⟨(FullScore_length_invariant (Fixture.modelOf Fixture.trigrams) (by decide) (by decide)
      (by decide) (by decide)).1 Fixture.context 3 Fixture.usedState,
   (FullScore_length_invariant (Fixture.modelOf Fixture.trigrams) (by decide) (by decide)
      (by decide) (by decide)).2 _
      (Reachable.full_score _ 4 Fixture.usedState
        (Reachable.full_score _ 3 Fixture.usedState Reachable.begin_sentence))⟩

theorem IsUsefulLength_snoc (bs : List Nat) (n b : Nat) (h : IsUsefulLength bs n) :
    IsUsefulLength (bs ++ [b]) (if HasExtension b then bs.length + 1 else n) := by
  obtain ⟨h1, h2, h3⟩ := h
  by_cases hb : HasExtension b = true
  · rw [if_pos hb]
    refine ⟨by simp, ?_, ?_⟩
    · intro _
      simp [List.getD_append_right, hb]
    · intro j hj hjl
      simp at hjl
      omega
  · rw [if_neg hb]
    refine ⟨by simp; omega, ?_, ?_⟩
    · intro hn
      rw [List.getD_append _ _ _ _ (by omega)]
      exact h2 hn
    · intro j hj hjl
      simp only [List.length_append, List.length_singleton] at hjl
      by_cases hlast : j = bs.length + 1
      · rw [hlast]
        simp only [Nat.add_sub_cancel]
        rw [List.getD_append_right _ _ _ _ (le_refl _)]
        simpa using hb
      · rw [List.getD_append _ _ _ _ (by omega)]
        exact h3 j hj (by omega)

/-- Along the walk `next_use` is the useful length of the backoffs looked up so far. -/
theorem ResumeScore_useful (search_ : Search) (words : Nat → Nat) :
    ∀ (remaining hist_iter backoff_out : Nat) (w : ScoreWalk) (seen : List Nat),
      hist_iter + remaining < 255 → seen.length = hist_iter + 1 →
      IsUsefulLength seen w.next_use →
      IsUsefulLength
        (seen ++ middleBackoffs search_ words remaining hist_iter w.node w.ret.independent_left
          w.ret.extend_left)
        (ResumeScore search_ words remaining hist_iter hist_iter backoff_out w).next_use := by
  intro remaining
  induction remaining with
  | zero =>
    intro hist_iter backoff_out w seen _ _ huse
    simpa only [middleBackoffs, ResumeScore, List.append_nil] using huse
  | succ r ih =>
    intro hist_iter backoff_out w seen hlen hseen huse
    by_cases hil : w.ret.independent_left = true
    · rw [ResumeScore_stop _ _ _ _ _ _ w hil, middleBackoffs, if_pos hil, List.append_nil]
      exact huse
    · have hil : w.ret.independent_left = false := by simpa using hil
      by_cases hlong : hist_iter + 2 = search_.Order
      · rw [ResumeScore_longest _ _ _ _ _ _ w hil hlong, middleBackoffs, if_neg (by simp [hil]),
          if_pos hlong, List.append_nil]
        cases search_.LookupLongest (words hist_iter) w.node <;> exact huse
      · cases hfound : (search_.LookupMiddle hist_iter (words hist_iter) w.node
            w.ret.independent_left w.ret.extend_left).pointer with
        | none =>
          rw [ResumeScore_miss _ _ _ _ _ _ w hil hlong hfound, middleBackoffs,
            if_neg (by simp [hil]), if_neg hlong]
          dsimp only
          rw [hfound, List.append_nil]
          exact huse
        | some pointer =>
          rw [ResumeScore_hit _ _ _ _ _ _ w pointer hil hlong hfound,
            Nat.mod_eq_of_lt (show hist_iter + 1 < 256 by omega),
            Nat.mod_eq_of_lt (show hist_iter + 2 < 256 by omega), middleBackoffs,
            if_neg (by simp [hil]), if_neg hlong]
          dsimp only
          rw [hfound]
          dsimp only
          have hsnoc := IsUsefulLength_snoc seen w.next_use (GenericProbingProxy.Backoff pointer) huse
          rw [hseen] at hsnoc
          have := ih (hist_iter + 1) (backoff_out + 1)
            { node := (search_.LookupMiddle hist_iter (words hist_iter) w.node
                w.ret.independent_left w.ret.extend_left).node
              backoff := Function.update w.backoff backoff_out (GenericProbingProxy.Backoff pointer)
              next_use := if HasExtension (GenericProbingProxy.Backoff pointer)
                then hist_iter + 2 else w.next_use
              ret := { prob := GenericProbingProxy.Prob pointer
                       rest := GenericProbingProxy.Rest pointer
                       ngram_length := hist_iter + 2
                       independent_left := (search_.LookupMiddle hist_iter (words hist_iter)
                         w.node w.ret.independent_left w.ret.extend_left).independent_left
                       extend_left := (search_.LookupMiddle hist_iter (words hist_iter) w.node
                         w.ret.independent_left w.ret.extend_left).extend_left } }
            (seen ++ [GenericProbingProxy.Backoff pointer]) (by omega) (by simp [hseen]) hsnoc
          simpa only [List.append_assoc, List.singleton_append] using this

/-- A walk over `remaining` context words that ends with `ngram_length` at
`hist_iter + remaining + 1` has hit at every middle order on its way, so the
walk over a longer context goes through the same steps and continues from
there. -/
theorem ResumeScore_split (search_ : Search) (words : Nat → Nat) (hmax : search_.Order < 256)
    (extra : Nat) :
    ∀ (remaining hist_iter backoff_out : Nat) (w : ScoreWalk),
      hist_iter + remaining + 2 = search_.Order → w.ret.ngram_length = hist_iter + 1 →
      (ResumeScore search_ words remaining hist_iter hist_iter backoff_out w).ret.ngram_length
        = hist_iter + remaining + 1 →
      ResumeScore search_ words (remaining + extra) hist_iter hist_iter backoff_out w
        = ResumeScore search_ words extra (hist_iter + remaining) (hist_iter + remaining)
            (backoff_out + remaining)
            (ResumeScore search_ words remaining hist_iter hist_iter backoff_out w) := by
  intro remaining
  induction remaining with
  | zero =>
    intro hist_iter backoff_out w _ _ _
    simp only [ResumeScore, Nat.zero_add, Nat.add_zero]
  | succ r ih =>
    intro hist_iter backoff_out w hord hlen hall
    have hsucc : r + 1 + extra = (r + extra) + 1 := by omega
    by_cases hil : w.ret.independent_left = true
    · rw [ResumeScore_stop _ _ _ _ _ _ w hil] at hall
      omega
    · have hil : w.ret.independent_left = false := by simpa using hil
      have hlong : hist_iter + 2 ≠ search_.Order := by omega
      cases hfound : (search_.LookupMiddle hist_iter (words hist_iter) w.node
          w.ret.independent_left w.ret.extend_left).pointer with
      | none =>
        rw [ResumeScore_miss _ _ _ _ _ _ w hil hlong hfound] at hall
        dsimp only at hall
        omega
      | some pointer =>
        rw [ResumeScore_hit _ _ _ _ _ _ w pointer hil hlong hfound,
          Nat.mod_eq_of_lt (show hist_iter + 1 < 256 by omega),
          Nat.mod_eq_of_lt (show hist_iter + 2 < 256 by omega)] at hall ⊢
        rw [hsucc, ResumeScore_hit _ _ _ _ _ _ w pointer hil hlong hfound,
          Nat.mod_eq_of_lt (show hist_iter + 1 < 256 by omega),
          Nat.mod_eq_of_lt (show hist_iter + 2 < 256 by omega)]
        have := ih (hist_iter + 1) (backoff_out + 1) _ (by omega) rfl (by rw [hall]; omega)
        rw [this]
        congr 1 <;> omega


theorem ScoreExceptBackoff_eq_walk (search_ : Search) (context_rbegin : Nat → Nat)
    (context_length new_word : Nat) (out_state : State) (h : context_length ≠ 0) :
    (ScoreExceptBackoff search_ context_rbegin context_length new_word out_state).1
      = (ResumeScore search_ context_rbegin context_length 0 0 1
          (seedWalk search_ new_word out_state)).ret := by
  simp only [ScoreExceptBackoff, if_neg h, seedWalk]

/-- Below the order of the longest table the walk does not depend on that table. -/
theorem ResumeScore_congr (search_ other : Search) (words : Nat → Nat)
    (horder : other.Order = search_.Order) (hmiddle : other.LookupMiddle = search_.LookupMiddle) :
    ∀ (remaining hist_iter order_minus_2 backoff_out : Nat) (w : ScoreWalk),
      order_minus_2 + remaining + 2 ≤ search_.Order → search_.Order < 256 →
      ResumeScore other words remaining hist_iter order_minus_2 backoff_out w
        = ResumeScore search_ words remaining hist_iter order_minus_2 backoff_out w := by
  intro remaining
  induction remaining with
  | zero => intro _ _ _ _ _ _; rfl
  | succ r ih =>
    intro hist_iter order_minus_2 backoff_out w hord hmax
    by_cases hil : w.ret.independent_left = true
    · rw [ResumeScore_stop _ _ _ _ _ _ w hil, ResumeScore_stop _ _ _ _ _ _ w hil]
    · have hil : w.ret.independent_left = false := by simpa using hil
      have hlong : order_minus_2 + 2 ≠ search_.Order := by omega
      have hlong2 : order_minus_2 + 2 ≠ other.Order := by omega
      cases hfound : (search_.LookupMiddle order_minus_2 (words hist_iter) w.node
          w.ret.independent_left w.ret.extend_left).pointer with
      | none =>
        rw [ResumeScore_miss _ _ _ _ _ _ w hil hlong hfound,
          ResumeScore_miss _ _ _ _ _ _ w hil hlong2 (by rw [hmiddle]; exact hfound), hmiddle]
      | some pointer =>
        rw [ResumeScore_hit _ _ _ _ _ _ w pointer hil hlong hfound,
          ResumeScore_hit _ _ _ _ _ _ w pointer hil hlong2 (by rw [hmiddle]; exact hfound),
          hmiddle]
        apply ih
        · rw [Nat.mod_eq_of_lt (show order_minus_2 + 1 < 256 by omega)]
          omega
        · exact hmax

theorem ScoreExceptBackoff_of_middleWalk (search_ : Search) (context_rbegin : Nat → Nat)
    (context_length new_word : Nat) (out_state : State) (h2 : 2 ≤ search_.Order)
    (hmax : search_.Order < 256) (hleft : search_.Order - 1 ≤ context_length)
    (hall : (middleWalk search_ context_rbegin new_word out_state).ret.ngram_length
      = search_.Order - 1)
    (htag : (middleWalk search_ context_rbegin new_word out_state).ret.independent_left = false) :
    (ScoreExceptBackoff search_ context_rbegin context_length new_word out_state).1 =
      match search_.LookupLongest (context_rbegin (search_.Order - 2))
        (middleWalk search_ context_rbegin new_word out_state).node with
      | some prob =>
        { (middleWalk search_ context_rbegin new_word out_state).ret with
          independent_left := true, prob := prob, rest := prob, ngram_length := search_.Order }
      | none =>
        { (middleWalk search_ context_rbegin new_word out_state).ret with
          independent_left := true } := by
  obtain ⟨extra, hextra⟩ : ∃ extra, context_length = (search_.Order - 2) + (extra + 1) :=
    ⟨context_length - (search_.Order - 1), by omega⟩
  have hwalk : ResumeScore search_ context_rbegin (search_.Order - 2) 0 0 1
      (seedWalk search_ new_word out_state)
        = middleWalk search_ context_rbegin new_word out_state := rfl
  rw [ScoreExceptBackoff_eq_walk _ _ _ _ _ (by omega), hextra,
    ResumeScore_split search_ context_rbegin hmax (extra + 1) (search_.Order - 2) 0 1
      (seedWalk search_ new_word out_state) (by omega) rfl (by rw [hwalk, hall]; omega), hwalk,
    Nat.zero_add, ResumeScore_longest _ _ _ _ _ _ _ htag (by omega)]
  cases search_.LookupLongest (context_rbegin (search_.Order - 2))
    (middleWalk search_ context_rbegin new_word out_state).node <;> rfl

/-- C16. Longest-order hit: in a model of order 2 to 255, whenever the walk has
hit at every middle order 2..order-1 (it ends with `ngram_length = order - 1`)
without an independent-left tag and the input context still has a word left
(`in_state.length >= order - 1`), the walk ends with the one lookup
`LookupLongest(in_state.words[order - 2], node)`: on a hit `prob` and `rest` both
equal the probability of the longest entry and `ngram_length` equals the order
of the model, on a miss `prob`, `rest` and `ngram_length` keep the values obtained
at order `order - 1`; in both cases `independent_left` is set. For an input state
of length `order - 1` no backoff is charged on a hit, so `FullScore` returns that
probability. A search that differs from the given one only in its longest
table, and not at that one lookup, walks to the same result. -/
theorem FullScore_longest (search_ : Search) (in_state : State) (new_word : Nat)
    (out_state : State) (h2 : 2 ≤ search_.Order) (hmax : search_.Order < 256)
    (hleft : search_.Order - 1 ≤ in_state.length)
    (hall : (middleWalk search_ in_state.words new_word out_state).ret.ngram_length
      = search_.Order - 1)
    (htag : (middleWalk search_ in_state.words new_word out_state).ret.independent_left = false) :
    (ScoreExceptBackoff search_ in_state.words in_state.length new_word out_state).1 =
      (match search_.LookupLongest (in_state.words (search_.Order - 2))
        (middleWalk search_ in_state.words new_word out_state).node with
      | some prob =>
        { (middleWalk search_ in_state.words new_word out_state).ret with
          independent_left := true, prob := prob, rest := prob, ngram_length := search_.Order }
      | none =>
        { (middleWalk search_ in_state.words new_word out_state).ret with
          independent_left := true }) ∧
    (∀ prob, in_state.length = search_.Order - 1 →
      search_.LookupLongest (in_state.words (search_.Order - 2))
        (middleWalk search_ in_state.words new_word out_state).node = some prob →
      (FullScore search_ in_state new_word out_state).1.prob = prob ∧
      (FullScore search_ in_state new_word out_state).1.rest = prob ∧
      (FullScore search_ in_state new_word out_state).1.ngram_length = search_.Order) ∧
    ∀ other : Search, other.Order = search_.Order →
      other.LookupUnigram = search_.LookupUnigram → other.LookupMiddle = search_.LookupMiddle →
      other.LookupLongest (in_state.words (search_.Order - 2))
          (middleWalk search_ in_state.words new_word out_state).node
        = search_.LookupLongest (in_state.words (search_.Order - 2))
          (middleWalk search_ in_state.words new_word out_state).node →
      (ScoreExceptBackoff other in_state.words in_state.length new_word out_state).1
        = (ScoreExceptBackoff search_ in_state.words in_state.length new_word out_state).1 := by
  have hmain := ScoreExceptBackoff_of_middleWalk search_ in_state.words in_state.length new_word
    out_state h2 hmax hleft hall htag
  refine ⟨hmain, ?_, ?_⟩
  · intro prob hlen hhit
    rw [hhit] at hmain
    simp only [FullScore]
    rw [hmain]
    dsimp only
    refine ⟨?_, rfl, rfl⟩
    rw [hlen, Nat.sub_self, chargeBackoff]
  · intro other horder huni hmiddle hlongest
    have hwalk : middleWalk other in_state.words new_word out_state
        = middleWalk search_ in_state.words new_word out_state := by
      simp only [middleWalk, seedWalk, huni, horder]
      exact ResumeScore_congr search_ other in_state.words horder hmiddle _ _ _ _ _ (by omega) hmax
    rw [hmain, ScoreExceptBackoff_of_middleWalk other in_state.words in_state.length new_word
      out_state (by omega) (by omega) (by omega) (by rw [hwalk, horder]; exact hall)
      (by rw [hwalk]; exact htag), hwalk, horder, hlongest]

/-- Witness of `FullScore_longest`: in the fixture search of order 3 the word 3 after
the context 7 8 hits the unigram and the middle table and is found in the
longest table with the probability `-0.25`. -/
theorem FullScore_longest_witness :
    (FullScore Fixture.trigrams Fixture.context 3 Fixture.usedState).1.prob = 0xBE800000 ∧
    (FullScore Fixture.trigrams Fixture.context 3 Fixture.usedState).1.rest = 0xBE800000 ∧
    (FullScore Fixture.trigrams Fixture.context 3 Fixture.usedState).1.ngram_length
      = Fixture.trigrams.Order :=
  (FullScore_longest Fixture.trigrams Fixture.context 3 Fixture.usedState (by decide)
    (by decide) (by decide) (by decide) (by decide)).2.1 0xBE800000 (by decide) (by decide)

end GenericModel
end lm

/-! ## What a scoring step writes into the output storage -/

namespace lm
namespace GenericModel

/-- The walk writes the backoffs it looks up in the middle tables from
`backoff_out` on, one for each hit, and leaves the backoff array above them as it
is. -/
theorem ResumeScore_backoff_written (search_ : Search) (words : Nat → Nat) :
    ∀ (remaining hist_iter backoff_out : Nat) (w : ScoreWalk) (i : Nat),
      hist_iter + remaining < 255 → backoff_out ≤ i →
      (ResumeScore search_ words remaining hist_iter hist_iter backoff_out w).backoff i
        = (middleBackoffs search_ words remaining hist_iter w.node w.ret.independent_left
            w.ret.extend_left).getD (i - backoff_out) (w.backoff i) := by
  intro remaining
  induction remaining with
  | zero =>
    intro hist_iter backoff_out w i _ _
    simp only [ResumeScore, middleBackoffs, List.getD_nil]
  | succ r ih =>
    intro hist_iter backoff_out w i hlen hi
    by_cases hil : w.ret.independent_left = true
    · rw [ResumeScore_stop _ _ _ _ _ _ w hil, middleBackoffs, if_pos hil, List.getD_nil]
    · have hil : w.ret.independent_left = false := by simpa using hil
      by_cases hlong : hist_iter + 2 = search_.Order
      · rw [ResumeScore_longest _ _ _ _ _ _ w hil hlong, middleBackoffs, if_neg (by simp [hil]),
          if_pos hlong, List.getD_nil]
        cases search_.LookupLongest (words hist_iter) w.node <;> rfl
      · cases hfound : (search_.LookupMiddle hist_iter (words hist_iter) w.node
            w.ret.independent_left w.ret.extend_left).pointer with
        | none =>
          rw [ResumeScore_miss _ _ _ _ _ _ w hil hlong hfound, middleBackoffs,
            if_neg (by simp [hil]), if_neg hlong]
          dsimp only
          rw [hfound, List.getD_nil]
        | some pointer =>
          rw [middleBackoffs, if_neg (by simp [hil]), if_neg hlong]
          dsimp only
          rw [hfound]
          dsimp only
          rw [ResumeScore_hit _ _ _ _ _ _ w pointer hil hlong hfound,
            Nat.mod_eq_of_lt (show hist_iter + 1 < 256 by omega),
            Nat.mod_eq_of_lt (show hist_iter + 2 < 256 by omega)]
          by_cases hhere : i = backoff_out
          · rw [hhere, ResumeScore_backoff_below _ _ _ _ _ _ _ backoff_out (by omega),
              Nat.sub_self, List.getD_cons_zero]
            exact Function.update_same _ _ _
          · obtain ⟨n, hn⟩ : ∃ n, i - backoff_out = n + 1 := ⟨i - backoff_out - 1, by omega⟩
            rw [ih (hist_iter + 1) (backoff_out + 1) _ i (by omega) (by omega), hn,
              List.getD_cons_succ, show i - (backoff_out + 1) = n by omega]
            dsimp only
            rw [Function.update_noteq hhere]

/-- After `ScoreExceptBackoff` on a context of fewer than 255 words the backoff array of
the output state holds the backoffs looked up during the walk, the one of
order `n` at the index `n - 1`, and above them what the storage held before. -/
theorem ScoreExceptBackoff_backoff_written (search_ : Search) (context_rbegin : Nat → Nat)
    (context_length new_word : Nat) (out_state : State) (hlen : context_length < 255) (i : Nat) :
    (ScoreExceptBackoff search_ context_rbegin context_length new_word out_state).2.backoff i
      = (lookedUpBackoffs search_ context_rbegin context_length new_word).getD i
          (out_state.backoff i) := by
  unfold ScoreExceptBackoff lookedUpBackoffs
  dsimp only
  by_cases hzero : context_length = 0
  · rw [if_pos hzero, hzero]
    dsimp only
    cases i with
    | zero => simp
    | succ n => rw [Function.update_noteq (by omega)]; simp [middleBackoffs]
  · rw [if_neg hzero]
    simp only [CopyRemainingHistory]
    cases i with
    | zero =>
      rw [ResumeScore_backoff_below _ _ _ _ _ _ _ 0 (by omega)]
      simp
    | succ n =>
      rw [ResumeScore_backoff_written search_ context_rbegin context_length 0 1 _ (n + 1)
        (by omega) (by omega), List.getD_cons_succ]
      dsimp only
      rw [Function.update_noteq (by omega), show n + 1 - 1 = n by omega]

/-- The words of the output state at the index 1 and above, from the length of
the output state on, are what the storage held before. -/
theorem ScoreExceptBackoff_words_kept (search_ : Search) (context_rbegin : Nat → Nat)
    (context_length new_word : Nat) (out_state : State) (i : Nat) (hi : 1 ≤ i)
    (hkept : (ScoreExceptBackoff search_ context_rbegin context_length new_word out_state).2.length
      ≤ i) :
    (ScoreExceptBackoff search_ context_rbegin context_length new_word out_state).2.words i
      = out_state.words i := by
  unfold ScoreExceptBackoff at hkept ⊢
  dsimp only at hkept ⊢
  by_cases hzero : context_length = 0
  · rw [if_pos hzero]
    exact Function.update_noteq (by omega) _ _
  · rw [if_neg hzero] at hkept ⊢
    simp only [CopyRemainingHistory] at hkept ⊢
    rw [if_neg (by omega)]
    exact Function.update_noteq (by omega) _ _

/-- C18 (amended). `FullScore` is a function of the input state, the word and the
model in what it returns and in what it writes. Whatever the output storage
held before the call, the returned value, probability included, is
bit-identical, and so are the length of the output state, its `words[0]` and
`backoff[0]`, and its words and backoffs below that length. The output state as
a whole depends on the storage: `words[i]` for every `i` from 1 on that is not below
the length of the output state keeps what the storage held; and, for an input
state of a length below 255, `backoff[n - 1]` holds the backoff looked up at the
order `n` for every order matched in the unigram or a middle table, also when
`n` is above the length of the output state, and every other entry of `backoff`
keeps what the storage held. -/
theorem FullScore_storage_independent (search_ : Search) (in_state : State) (new_word : Nat)
    (out_state other : State) :
    (FullScore search_ in_state new_word out_state).1
      = (FullScore search_ in_state new_word other).1 ∧
    (FullScore search_ in_state new_word out_state).2.length
      = (FullScore search_ in_state new_word other).2.length ∧
    (∀ i, (i = 0 ∨ i < (FullScore search_ in_state new_word out_state).2.length) →
      (FullScore search_ in_state new_word out_state).2.words i
        = (FullScore search_ in_state new_word other).2.words i ∧
      (FullScore search_ in_state new_word out_state).2.backoff i
        = (FullScore search_ in_state new_word other).2.backoff i) ∧
    (∀ i, 1 ≤ i → (FullScore search_ in_state new_word out_state).2.length ≤ i →
      (FullScore search_ in_state new_word out_state).2.words i = out_state.words i) ∧
    (in_state.length < 255 → ∀ i,
      (i < (lookedUpBackoffs search_ in_state.words in_state.length new_word).length →
        (FullScore search_ in_state new_word out_state).2.backoff i
          = (lookedUpBackoffs search_ in_state.words in_state.length new_word).getD i 0 ∧
        (FullScore search_ in_state new_word out_state).2.backoff i
          = (FullScore search_ in_state new_word other).2.backoff i) ∧
      ((lookedUpBackoffs search_ in_state.words in_state.length new_word).length ≤ i →
        (FullScore search_ in_state new_word out_state).2.backoff i = out_state.backoff i)) := by
  obtain ⟨hret, hlength, hbelow⟩ := FullScore_storage search_ in_state new_word out_state other
  refine ⟨hret, hlength, hbelow, ?_, ?_⟩
  · intro i hi hkept
    exact ScoreExceptBackoff_words_kept search_ in_state.words in_state.length new_word out_state
      i hi hkept
  · intro hlen i
    have hwritten : ∀ storage : State,
        (FullScore search_ in_state new_word storage).2.backoff i
          = (lookedUpBackoffs search_ in_state.words in_state.length new_word).getD i
              (storage.backoff i) := fun storage =>
      ScoreExceptBackoff_backoff_written search_ in_state.words in_state.length new_word storage
        hlen i
    constructor
    · intro hi
      rw [hwritten out_state, hwritten other, List.getD_eq_getElem _ _ hi,
        List.getD_eq_getElem _ _ hi, List.getD_eq_getElem _ _ hi]
      exact ⟨rfl, rfl⟩
    · intro hi
      rw [hwritten out_state, List.getD_eq_default _ _ hi]

set_option maxRecDepth 100000 in
/-- Witness of `FullScore_storage_independent`: in the fixture search of order 3 the
word 3 is scored after the words 7 and 8 into used storage. The unigram and
the middle table are hit, the output state has length 1, `backoff[1]` is
overwritten with the looked-up backoff `-0.0` of the order 2, and `backoff[2]` and
`words[1]` keep what the storage held. -/
theorem FullScore_storage_independent_witness :
    Fixture.context.length < 255 ∧
    (lookedUpBackoffs Fixture.trigrams Fixture.context.words Fixture.context.length 3).length = 2 ∧
    (FullScore Fixture.trigrams Fixture.context 3 Fixture.usedState).2.length = 1 ∧
    (lookedUpBackoffs Fixture.trigrams Fixture.context.words Fixture.context.length 3).getD 1 0
      = 0x80000000 ∧
    Fixture.usedState.backoff 1 = 0x3F800000 ∧
    (FullScore Fixture.trigrams Fixture.context 3 Fixture.usedState).2.backoff 1
      = (lookedUpBackoffs Fixture.trigrams Fixture.context.words Fixture.context.length 3).getD
          1 0 ∧
    (FullScore Fixture.trigrams Fixture.context 3 Fixture.usedState).2.backoff 2
      = Fixture.usedState.backoff 2 ∧
    (FullScore Fixture.trigrams Fixture.context 3 Fixture.usedState).2.words 1
      = Fixture.usedState.words 1 :=
  ⟨by decide, by decide, by decide, by decide, by decide,
    (((FullScore_storage_independent Fixture.trigrams Fixture.context 3 Fixture.usedState
      Fixture.outState).2.2.2.2 (by decide) 1).1 (by decide)).1,
    ((FullScore_storage_independent Fixture.trigrams Fixture.context 3 Fixture.usedState
      Fixture.outState).2.2.2.2 (by decide) 2).2 (by decide),
    (FullScore_storage_independent Fixture.trigrams Fixture.context 3 Fixture.usedState
      Fixture.outState).2.2.2.1 1 (by decide) (by decide)⟩

end GenericModel
end lm

/-! ## The sentence-level scenario -/

namespace F32

theorem bitLen_eq {n k : Nat} (hlo : 2 ^ k ≤ n) (hhi : n < 2 ^ (k + 1)) (hbig : n < 2 ^ 1024) :
    bitLen n = k + 1 := by
  have hpos : 0 < n := lt_of_lt_of_le (by positivity) hlo
  obtain ⟨h1, h2⟩ := bitLen_spec hpos hbig
  have hp := bitLen_pos n
  have ha : 2 ^ (bitLen n - 1) < 2 ^ (k + 1) := lt_of_le_of_lt h1 hhi
  have hb : 2 ^ k < 2 ^ bitLen n := lt_of_le_of_lt hlo h2
  have ha' := (Nat.pow_lt_pow_iff_right (by norm_num : 1 < 2)).mp ha
  have hb' := (Nat.pow_lt_pow_iff_right (by norm_num : 1 < 2)).mp hb
  omega

/-- Rounding the value of a finite float gives the float back. -/
theorem round_sig (neg : Bool) (a : Nat) (hfinite : expField a ≠ 255) :
    round neg (sig a * 2 ^ ex a) 0 150 = signBit neg + expField a * 2 ^ 23 + manField a := by
  have hman : manField a < 2 ^ 23 := Nat.mod_lt _ (by norm_num)
  have hexp : expField a < 256 := Nat.mod_lt _ (by norm_num)
  by_cases h0 : expField a = 0
  · have hsig : sig a = manField a := by unfold sig; rw [if_pos h0]
    have hex : ex a = 1 := by unfold ex; rw [if_pos h0]
    rw [hsig, hex, h0]
    by_cases hm : manField a = 0
    · rw [hm]
      simp [round]
    · unfold round
      rw [if_neg (by omega)]
      dsimp only
      have hlen : bitLen (manField a * 2 ^ 1) ≤ 24 := by
        have hpos : 0 < manField a * 2 ^ 1 := by omega
        obtain ⟨h1, _⟩ := bitLen_spec hpos (lt_trans (by omega : manField a * 2 ^ 1 < 2 ^ 24)
          (by norm_num))
        have : 2 ^ (bitLen (manField a * 2 ^ 1) - 1) < 2 ^ 24 := by omega
        have := (Nat.pow_lt_pow_iff_right (by norm_num : 1 < 2)).mp this
        omega
      have he : max 1 (bitLen (manField a * 2 ^ 1) + 0 + 126 - 150) = 1 := by omega
      rw [he]
      have hr : roundEven (manField a * 2 ^ 1 * 2 ^ (0 + 150)) (2 ^ (150 + 1)) = manField a := by
        have : manField a * 2 ^ 1 * 2 ^ (0 + 150) = manField a * 2 ^ (150 + 1) := by
          rw [Nat.mul_assoc, ← pow_add]
        rw [this]
        exact roundEven_of_dvd (by positivity)
      rw [hr]
      have : ¬ inf ≤ (1 - 1) * 2 ^ 23 + manField a := by unfold inf; omega
      rw [if_neg this]
      omega
  · have hsig : sig a = manField a + 2 ^ 23 := by unfold sig; rw [if_neg h0]
    have hex : ex a = expField a := by unfold ex; rw [if_neg h0]
    rw [hsig, hex]
    have hlo : 2 ^ (23 + expField a) ≤ (manField a + 2 ^ 23) * 2 ^ expField a := by
      rw [pow_add]
      exact Nat.mul_le_mul_right _ (by omega)
    have hhi : (manField a + 2 ^ 23) * 2 ^ expField a < 2 ^ (23 + expField a + 1) := by
      have : 23 + expField a + 1 = 24 + expField a := by omega
      rw [this, pow_add]
      exact Nat.mul_lt_mul_of_pos_right (by omega) (by positivity)
    have hbig : (manField a + 2 ^ 23) * 2 ^ expField a < 2 ^ 1024 :=
      lt_of_lt_of_le hhi (Nat.pow_le_pow_right (by norm_num) (by omega))
    have hlen := bitLen_eq hlo hhi hbig
    unfold round
    rw [if_neg (by have : 0 < (manField a + 2 ^ 23) * 2 ^ expField a :=
      lt_of_lt_of_le (by positivity) hlo
                   omega)]
    dsimp only
    rw [hlen]
    have he : max 1 (23 + expField a + 1 + 0 + 126 - 150) = expField a := by omega
    rw [he]
    have hr : roundEven ((manField a + 2 ^ 23) * 2 ^ expField a * 2 ^ (0 + 150))
        (2 ^ (150 + expField a)) = manField a + 2 ^ 23 := by
      have : (manField a + 2 ^ 23) * 2 ^ expField a * 2 ^ (0 + 150)
          = (manField a + 2 ^ 23) * 2 ^ (150 + expField a) := by
        rw [Nat.mul_assoc, ← pow_add, Nat.zero_add, Nat.add_comm (expField a) 150]
      rw [this]
      exact roundEven_of_dvd (by positivity)
    rw [hr]
    have : ¬ inf ≤ (expField a - 1) * 2 ^ 23 + (manField a + 2 ^ 23) := by unfold inf; omega
    rw [if_neg this]
    omega

/-- Adding `-0.0` to a float with the sign bit set gives the float back. -/
theorem add_negZero (a : Nat) (ha : a < 2 ^ 32) (hsign : sign a = true) :
    add a 0x80000000 = if isNaN a then qNaN else a := by
  have hdecomp : a = 2 ^ 31 + expField a * 2 ^ 23 + manField a := by
    unfold sign at hsign
    simp only [beq_iff_eq] at hsign
    unfold expField manField
    omega
  by_cases hnan : isNaN a = true
  · rw [if_pos hnan]
    unfold add
    simp [hnan]
  · rw [if_neg hnan]
    have hnan : isNaN a = false := by simpa using hnan
    have hz1 : isNaN 0x80000000 = false := by decide
    have hz2 : isInf 0x80000000 = false := by decide
    have hz3 : sign 0x80000000 = true := by decide
    have hz4 : sig 0x80000000 = 0 := by decide
    unfold add
    rw [hnan, hz1]
    simp only [Bool.or_self, Bool.false_eq_true, if_false]
    by_cases hinf : isInf a = true
    · rw [if_pos hinf, hz2]
      simp
    · rw [if_neg hinf, hz2]
      simp only [Bool.false_eq_true, if_false]
      rw [hsign, hz3, hz4]
      simp only [if_true, Nat.zero_mul, Nat.add_zero]
      have hfinite : expField a ≠ 255 := by
        intro h255
        unfold isNaN at hnan
        unfold isInf at hinf
        rw [h255] at hnan hinf
        simp at hnan hinf
        exact hinf hnan
      rw [round_sig true a hfinite]
      unfold signBit
      simp only [if_true]
      omega

end F32

namespace lm
namespace GenericModel

/-- One scoring step in the fixture of unigrams: the match is at order 1, the
backoffs cached in the input state are charged on the unigram probability, and
the output state is empty. -/
theorem FullScore_unigrams (order p0 p1 p2 p3 p4 : Nat) (in_state : State) (new_word : Nat)
    (out_state : State) :
    (FullScore (Fixture.unigrams order p0 p1 p2 p3 p4) in_state new_word
      out_state).1.ngram_length = 1 ∧
    (FullScore (Fixture.unigrams order p0 p1 p2 p3 p4) in_state new_word out_state).1.prob
      = chargeBackoff in_state.backoff in_state.length 0
          (GenericProbingProxy.Prob
            { prob := [p4, p0, p3, p1, p2].getD new_word p4, backoff := kNoExtensionBackoff }) ∧
    (FullScore (Fixture.unigrams order p0 p1 p2 p3 p4) in_state new_word out_state).2.length
      = 0 := by
  have hext : HasExtension kNoExtensionBackoff = false := by decide
  simp only [FullScore, ScoreExceptBackoff]
  by_cases hzero : in_state.length = 0
  · rw [if_pos hzero]
    simp [Fixture.unigrams, GenericProbingProxy.Backoff, hext]
  · rw [if_neg hzero]
    obtain ⟨r, hr⟩ : ∃ r, in_state.length = r + 1 := ⟨in_state.length - 1, by omega⟩
    rw [hr]
    simp only [CopyRemainingHistory]
    by_cases hil : GenericProbingProxy.IndependentLeft
        { prob := [p4, p0, p3, p1, p2].getD new_word p4, backoff := kNoExtensionBackoff } = true
    · rw [ResumeScore_stop _ _ _ _ _ _ _ (by simpa [Fixture.unigrams] using hil)]
      simp [Fixture.unigrams, GenericProbingProxy.Backoff, hext]
    · by_cases hlong : 0 + 2 = (Fixture.unigrams order p0 p1 p2 p3 p4).Order
      · rw [ResumeScore_longest _ _ _ _ _ _ _ (by simpa [Fixture.unigrams] using hil) hlong]
        simp [Fixture.unigrams, GenericProbingProxy.Backoff, hext]
      · rw [ResumeScore_miss _ _ _ _ _ _ _ (by simpa [Fixture.unigrams] using hil) hlong
          (by simp [Fixture.unigrams])]
        simp [Fixture.unigrams, GenericProbingProxy.Backoff, hext]

theorem add_zero_add_negZero (a : Nat) (ha : a < 2 ^ 32) :
    F32.add 0 (F32.add (a ||| kSignBit) 0x80000000) = F32.add 0 (a ||| kSignBit) := by
  have hor : a ||| kSignBit = a % 2 ^ 31 + 2 ^ 31 := or_kSignBit ha
  have hlt : a ||| kSignBit < 2 ^ 32 := by rw [hor]; omega
  have hsign : F32.sign (a ||| kSignBit) = true := by
    rw [hor]
    unfold F32.sign
    simp only [beq_iff_eq]
    omega
  rw [F32.add_negZero _ hlt hsign]
  by_cases hnan : F32.isNaN (a ||| kSignBit) = true
  · rw [if_pos hnan]
    unfold F32.add
    simp [hnan]
    decide
  · rw [if_neg hnan]


theorem scoreWords_cons (pModel : GenericModel) (word : List Nat) (rest : List (List Nat))
    (q : clb.QueryLoop) (vocab : Nat)
    (h : ProbingVocabulary.Index pModel.vocab_.lookup_ word = some vocab) :
    clb.scoreWords pModel (word :: rest) q =
      clb.scoreWords pModel rest
        { total := F32.add q.total (FullScore pModel.ops q.state vocab q.out).1.prob
          state := (FullScore pModel.ops q.state vocab q.out).2
          out := (FullScore pModel.ops q.state vocab q.out).2
          rets := q.rets ++ [(FullScore pModel.ops q.state vocab q.out).1] } := by
  rw [clb.scoreWords, h]

/-- The run of the query loop over a text of two tokens that `Index` resolves:
three calls of `FullScore`, each on the output state of the one before. -/
theorem queryLoop_two_words (pModel : GenericModel) (pTag : List Nat) (out : State)
    (first second : List Nat) (v1 v2 : Nat) (hsplit : clb.splitWords [] pTag = [first, second])
    (h1 : ProbingVocabulary.Index pModel.vocab_.lookup_ first = some v1)
    (h2 : ProbingVocabulary.Index pModel.vocab_.lookup_ second = some v2) :
    ∃ q, clb.queryLoop pModel pTag out = some q ∧
      q.total =
        F32.add (F32.add (F32.add 0
          (FullScore pModel.ops pModel.begin_sentence_ v1 out).1.prob)
          (FullScore pModel.ops (FullScore pModel.ops pModel.begin_sentence_ v1 out).2 v2
            (FullScore pModel.ops pModel.begin_sentence_ v1 out).2).1.prob)
          (FullScore pModel.ops
            (FullScore pModel.ops (FullScore pModel.ops pModel.begin_sentence_ v1 out).2 v2
              (FullScore pModel.ops pModel.begin_sentence_ v1 out).2).2
            pModel.vocab_.end_sentence_
            (FullScore pModel.ops (FullScore pModel.ops pModel.begin_sentence_ v1 out).2 v2
              (FullScore pModel.ops pModel.begin_sentence_ v1 out).2).2).1.prob ∧
      q.rets =
        [(FullScore pModel.ops pModel.begin_sentence_ v1 out).1,
         (FullScore pModel.ops (FullScore pModel.ops pModel.begin_sentence_ v1 out).2 v2
            (FullScore pModel.ops pModel.begin_sentence_ v1 out).2).1,
         (FullScore pModel.ops
            (FullScore pModel.ops (FullScore pModel.ops pModel.begin_sentence_ v1 out).2 v2
              (FullScore pModel.ops pModel.begin_sentence_ v1 out).2).2
            pModel.vocab_.end_sentence_
            (FullScore pModel.ops (FullScore pModel.ops pModel.begin_sentence_ v1 out).2 v2
              (FullScore pModel.ops pModel.begin_sentence_ v1 out).2).2).1] := by
  unfold clb.queryLoop
  rw [hsplit, scoreWords_cons _ _ _ _ v1 h1, scoreWords_cons _ _ _ _ v2 h2, clb.scoreWords]
  exact ⟨_, rfl, rfl, rfl⟩

theorem FullScore_unigramModel (order p0 p1 p2 p3 p4 : Nat) (in_state : State) (new_word : Nat)
    (out_state : State) :
    (FullScore (Fixture.unigramModel order p0 p1 p2 p3 p4).ops in_state new_word
      out_state).1.ngram_length = 1 ∧
    (FullScore (Fixture.unigramModel order p0 p1 p2 p3 p4).ops in_state new_word out_state).1.prob
      = chargeBackoff in_state.backoff in_state.length 0
          (GenericProbingProxy.Prob
            { prob := [p4, p0, p3, p1, p2].getD new_word p4, backoff := kNoExtensionBackoff }) ∧
    (FullScore (Fixture.unigramModel order p0 p1 p2 p3 p4).ops in_state new_word out_state).2.length
      = 0 :=
  FullScore_unigrams order p0 p1 p2 p3 p4 in_state new_word out_state

theorem Index_fixture_a :
    ProbingVocabulary.Index Fixture.vocabularyTable [0x61] = some 3 := by decide

theorem Index_fixture_b :
    ProbingVocabulary.Index Fixture.vocabularyTable [0x62] = some 4 := by decide

/-- C17. Sentence-level scenario: in the fixture model whose only n-grams are the
unigrams `<s>`, `a`, `b`, `</s>` and `<unk>` with the stored probabilities `p0`, `p1`,
`p2`, `p3` and `p4` (32-bit patterns), whatever `Order()` returns for it, `kenlm_query`
on the text `a b` returns the single-precision sum `0.0 + P1 + P2 + P3`, added from
left to right, where `Pi` is the `Prob()` of the entry of `pi`; and each of the
three scoring steps, the one of the end-of-sentence token included, matches
at order 1. The result does not depend on what the local `out` held before the
first call. -/
theorem kenlm_query_unigrams (order p0 p1 p2 p3 p4 : Nat) (out : State) (hp1 : p1 < 2 ^ 32) :
    clb.kenlm_query (some (Fixture.unigramModel order p0 p1 p2 p3 p4))
        ("a b".toList.map Char.toNat) out
      = some (F32.add (F32.add (F32.add 0
          (GenericProbingProxy.Prob { prob := p1, backoff := kNoExtensionBackoff }))
          (GenericProbingProxy.Prob { prob := p2, backoff := kNoExtensionBackoff }))
          (GenericProbingProxy.Prob { prob := p3, backoff := kNoExtensionBackoff })) ∧
    (clb.queryLoop (Fixture.unigramModel order p0 p1 p2 p3 p4) ("a b".toList.map Char.toNat) out).map
      (fun q => q.rets.map FullScoreReturn.ngram_length) = some [1, 1, 1] := by
  obtain ⟨q, hq, htotal, hrets⟩ := queryLoop_two_words (Fixture.unigramModel order p0 p1 p2 p3 p4)
    ("a b".toList.map Char.toNat) out [0x61] [0x62] 3 4 (by decide) Index_fixture_a Index_fixture_b
  obtain ⟨ha1, ha2, ha3⟩ := FullScore_unigramModel order p0 p1 p2 p3 p4
    (Fixture.unigramModel order p0 p1 p2 p3 p4).begin_sentence_ 3 out
  obtain ⟨hb1, hb2, hb3⟩ := FullScore_unigramModel order p0 p1 p2 p3 p4
    (FullScore (Fixture.unigramModel order p0 p1 p2 p3 p4).ops
      (Fixture.unigramModel order p0 p1 p2 p3 p4).begin_sentence_ 3 out).2 4
    (FullScore (Fixture.unigramModel order p0 p1 p2 p3 p4).ops
      (Fixture.unigramModel order p0 p1 p2 p3 p4).begin_sentence_ 3 out).2
  obtain ⟨hc1, hc2, hc3⟩ := FullScore_unigramModel order p0 p1 p2 p3 p4
    (FullScore (Fixture.unigramModel order p0 p1 p2 p3 p4).ops
      (FullScore (Fixture.unigramModel order p0 p1 p2 p3 p4).ops
        (Fixture.unigramModel order p0 p1 p2 p3 p4).begin_sentence_ 3 out).2 4
      (FullScore (Fixture.unigramModel order p0 p1 p2 p3 p4).ops
        (Fixture.unigramModel order p0 p1 p2 p3 p4).begin_sentence_ 3 out).2).2
    (Fixture.unigramModel order p0 p1 p2 p3 p4).vocab_.end_sentence_
    (FullScore (Fixture.unigramModel order p0 p1 p2 p3 p4).ops
      (FullScore (Fixture.unigramModel order p0 p1 p2 p3 p4).ops
        (Fixture.unigramModel order p0 p1 p2 p3 p4).begin_sentence_ 3 out).2 4
      (FullScore (Fixture.unigramModel order p0 p1 p2 p3 p4).ops
        (Fixture.unigramModel order p0 p1 p2 p3 p4).begin_sentence_ 3 out).2).2
  rw [hb3] at hc2
  rw [ha3] at hb2
  have hbegin : chargeBackoff (Fixture.unigramModel order p0 p1 p2 p3 p4).begin_sentence_.backoff
      (Fixture.unigramModel order p0 p1 p2 p3 p4).begin_sentence_.length 0
      (GenericProbingProxy.Prob { prob := [p4, p0, p3, p1, p2].getD 3 p4,
                                  backoff := kNoExtensionBackoff })
      = F32.add (p1 ||| kSignBit) 0x80000000 := rfl
  rw [hbegin] at ha2
  simp only [chargeBackoff] at hb2 hc2
  constructor
  · show (clb.queryLoop (Fixture.unigramModel order p0 p1 p2 p3 p4) ("a b".toList.map Char.toNat)
      out).map clb.QueryLoop.total = _
    rw [hq, Option.map_some', htotal, ha2, hb2, hc2, add_zero_add_negZero p1 hp1]
    rfl
  · rw [hq, Option.map_some', hrets]
    simp only [List.map_cons, List.map_nil, ha1, hb1, hc1]

/-- Witness of `kenlm_query_unigrams`: the probabilities `-3.0`, `-1.0`, `-2.0`, `-0.5` and
`-4.0`. -/
theorem kenlm_query_unigrams_witness :
    clb.kenlm_query (some (Fixture.unigramModel 1 0xC0400000 0xBF800000 0xC0000000 0xBF000000
        0xC0800000)) ("a b".toList.map Char.toNat) Fixture.usedState
      = some (F32.add (F32.add (F32.add 0
          (GenericProbingProxy.Prob { prob := 0xBF800000, backoff := kNoExtensionBackoff }))
          (GenericProbingProxy.Prob { prob := 0xC0000000, backoff := kNoExtensionBackoff }))
          (GenericProbingProxy.Prob { prob := 0xBF000000, backoff := kNoExtensionBackoff })) ∧
    (clb.queryLoop (Fixture.unigramModel 1 0xC0400000 0xBF800000 0xC0000000 0xBF000000 0xC0800000)
        ("a b".toList.map Char.toNat) Fixture.usedState).map
      (fun q => q.rets.map FullScoreReturn.ngram_length) = some [1, 1, 1] :=
  kenlm_query_unigrams 1 0xC0400000 0xBF800000 0xC0000000 0xBF000000 0xC0800000 Fixture.usedState
    (by decide)

end GenericModel
end lm

/-! ## The sizes of the search structures -/

namespace lm
namespace HashedSearch

/-- The loop over the middle orders pushes one table per count and advances the
pointer by the sum of their sizes. -/
theorem SetupMiddle_eq (mem : List Nat) (config : Config) :
    ∀ (counts : List Nat) (start : Nat) (middle_ : List (util.ProbingHashTable ProbBackoff))
      (sizes : List Nat),
      counts.mapM (fun count => util.ProbingHashTable.Size sizeofProbingEntry count
        config.probing_multiplier) = some sizes →
      ∃ tables, SetupMiddle mem config counts start middle_
          = some (middle_ ++ tables, start + sizes.sum) ∧ tables.length = counts.length := by
  intro counts
  induction counts with
  | nil =>
    intro start middle_ sizes h
    simp only [List.mapM_nil, Option.pure_def, Option.some.injEq] at h
    subst h
    exact ⟨[], by simp [SetupMiddle], rfl⟩
  | cons count rest ih =>
    intro start middle_ sizes h
    simp only [List.mapM_cons, Option.pure_def, Option.bind_eq_bind] at h
    cases hsize : util.ProbingHashTable.Size sizeofProbingEntry count config.probing_multiplier with
    | none => rw [hsize] at h; simp at h
    | some allocated =>
      rw [hsize] at h
      simp only [Option.some_bind] at h
      cases hrest : rest.mapM (fun count => util.ProbingHashTable.Size sizeofProbingEntry count
          config.probing_multiplier) with
      | none => rw [hrest] at h; simp at h
      | some tail =>
        rw [hrest] at h
        simp only [Option.some_bind, Option.some.injEq] at h
        subst h
        obtain ⟨tables, htables, hlen⟩ := ih (start + allocated)
          (middle_ ++ [util.ProbingHashTable.construct sizeofProbingEntry
            (readEntries sizeofProbingEntry readProbBackoff (mem.drop start)) allocated 0
            IdentityHash]) tail hrest
        refine ⟨util.ProbingHashTable.construct sizeofProbingEntry
            (readEntries sizeofProbingEntry readProbBackoff (mem.drop start)) allocated 0
            IdentityHash :: tables, ?_, by simp [hlen]⟩
        rw [SetupMiddle, hsize]
        dsimp only
        rw [htables]
        simp [Nat.add_assoc]

theorem HashedSearch_SetupMemory_eq (b : Build) (start counts : List Nat) (config : Config)
    (first last : Nat) (middle : List Nat) (longest : Nat)
    (horder : 2 ≤ counts.length)
    (hfirst : counts.head? = some first) (hlast : counts.getLast? = some last)
    (hmiddle : ((counts.drop 1).dropLast).mapM (fun count =>
      util.ProbingHashTable.Size sizeofProbingEntry count config.probing_multiplier) = some middle)
    (hlongest : util.ProbingHashTable.Size b.sizeofLongestEntry last config.probing_multiplier
      = some longest) :
    ∃ search_, SetupMemory b start counts config
        = .ok (search_, b.UnigramSize first + middle.sum + longest) ∧
      search_.middle_.length = counts.length - 2 := by
  obtain ⟨tables, htables, hlen⟩ := SetupMiddle_eq start config _ (b.UnigramSize first) [] middle
    hmiddle
  unfold SetupMemory
  rw [hfirst, hlast]
  dsimp only
  rw [htables]
  dsimp only
  rw [hlongest]
  refine ⟨_, rfl, ?_⟩
  simp only [List.nil_append, hlen, List.length_dropLast, List.length_drop]
  omega

end HashedSearch

namespace ProbingVocabulary

theorem SetupMemory_raises_iff (start : List Nat) (allocated : Nat) :
    (∃ why, SetupMemory start allocated = .error (.FormatLoadException why)) ↔
      ∃ version, readLE 4 start 0 = some version ∧ version ≠ kProbingVocabularyVersion := by
  unfold SetupMemory
  dsimp only
  cases hversion : readLE 4 start 0 with
  | none => simp
  | some version =>
    dsimp only
    by_cases hne : version = kProbingVocabularyVersion
    · rw [if_neg (by simpa using hne)]
      simp only [Option.some.injEq, ne_eq, exists_eq_left', hne, not_true_eq_false, iff_false,
        not_exists]
      intro why
      cases readLE 4 start 4 with
      | none => simp
      | some bound =>
        dsimp only
        split <;> simp
    · rw [if_pos hne]
      simp [hne]

theorem SetupMemory_outcome (start : List Nat) (allocated : Nat) :
    (∃ why, SetupMemory start allocated = .error (.FormatLoadException why)) ∨
      SetupMemory start allocated = .error .undefinedBehaviour ∨
      ∃ vocab_, SetupMemory start allocated = .ok vocab_ := by
  unfold SetupMemory
  dsimp only
  cases readLE 4 start 0 with
  | none => exact Or.inr (Or.inl rfl)
  | some version =>
    dsimp only
    split
    · exact Or.inl ⟨_, rfl⟩
    · cases readLE 4 start 4 with
      | none => exact Or.inr (Or.inl rfl)
      | some bound =>
        dsimp only
        split
        · exact Or.inr (Or.inr ⟨_, rfl⟩)
        · exact Or.inr (Or.inl rfl)

end ProbingVocabulary

namespace GenericModel

set_option maxRecDepth 100000 in
/-- C20 (as stated, refuted). For the counts 1 and 1 and the multiplier `1.0` the
vocabulary takes 32 bytes and `HashedSearch::SetupMemory` advances by 32 bytes,
which together are the 64 bytes `Size` returns; yet over memory whose
vocabulary header carries the version 1 `GenericModel::SetupMemory` raises a
`FormatLoadException`, the one of `ProbingVocabulary::SetupMemory`. -/
theorem SetupMemory_version_counterexample :
    Size Fixture.build [1, 1] { probing_multiplier := 0x3F800000 } = some 64 ∧
    ProbingVocabulary.Size 1 0x3F800000 = some 32 ∧
    (HashedSearch.SetupMemory Fixture.build (Fixture.otherVocabularyVersion.drop 32) [1, 1]
      { probing_multiplier := 0x3F800000 }).toOption.map Prod.snd = some 32 ∧
    (32 + 32) % 2 ^ 64 = 64 ∧
    (SetupMemory Fixture.build Fixture.otherVocabularyVersion [1, 1]
      { probing_multiplier := 0x3F800000 }).map (fun _ => ())
        = .error (.FormatLoadException (.vocabularyVersion 1)) := by
  refine ⟨by decide, by decide, by decide, by decide, by decide⟩

/-- C20 (amended). Search-structure memory sizing: for every counts vector of
length `order >= 2` and every multiplier for which the table sizes are defined,
`HashedSearch::SetupMemory` creates exactly `order - 2` middle tables and returns
a pointer advanced from `start` by exactly `Unigram::Size(counts[0])` plus the sum
of `Middle::Size(counts[n - 1], multiplier)` over `n = 2..order-1` plus
`Longest::Size(counts[order - 1], multiplier)`; and `GenericModel::SetupMemory`, when
the placing of the vocabulary has a defined outcome, raises `FormatLoadException`
exactly when the vocabulary header carries another version than 0 or the
vocabulary bytes plus these consumed bytes differ from `Size(counts, config)`. -/
theorem SetupMemory_sizing (b : Build) (base counts : List Nat) (config : Config)
    (first last : Nat) (middle : List Nat) (longest vocab goal_size : Nat)
    (horder : 2 ≤ counts.length)
    (hfirst : counts.head? = some first) (hlast : counts.getLast? = some last)
    (hmiddle : ((counts.drop 1).dropLast).mapM (fun count =>
      util.ProbingHashTable.Size sizeofProbingEntry count config.probing_multiplier) = some middle)
    (hlongest : util.ProbingHashTable.Size b.sizeofLongestEntry last config.probing_multiplier
      = some longest)
    (hvocab : ProbingVocabulary.Size first config.probing_multiplier = some vocab)
    (hgoal : Size b counts config = some goal_size)
    (hdefined : (ProbingVocabulary.SetupMemory base vocab).map (fun _ => ())
      ≠ .error .undefinedBehaviour) :
    (∀ start, ∃ search_, HashedSearch.SetupMemory b start counts config
        = .ok (search_, b.UnigramSize first + middle.sum + longest) ∧
      search_.middle_.length = counts.length - 2) ∧
    ((∃ why, SetupMemory b base counts config = .error (.FormatLoadException why)) ↔
      ((∃ version, readLE 4 base 0 = some version ∧ version ≠ kProbingVocabularyVersion) ∨
        (vocab + (b.UnigramSize first + middle.sum + longest)) % 2 ^ 64 ≠ goal_size)) := by
  refine ⟨fun start => HashedSearch.HashedSearch_SetupMemory_eq b start counts config first last middle longest
    horder hfirst hlast hmiddle hlongest, ?_⟩
  obtain ⟨search_, hsearch, _⟩ := HashedSearch.HashedSearch_SetupMemory_eq b (base.drop vocab) counts config
    first last middle longest horder hfirst hlast hmiddle hlongest
  rw [← ProbingVocabulary.SetupMemory_raises_iff base vocab]
  unfold SetupMemory
  rw [hgoal]
  dsimp only [util.CheckOverflow]
  rw [hfirst, Option.some_bind, hvocab]
  dsimp only
  rcases ProbingVocabulary.SetupMemory_outcome base vocab with ⟨why, hv⟩ | hv | ⟨vocab_, hv⟩
  · rw [hv]
    exact ⟨fun _ => Or.inl ⟨why, rfl⟩, fun _ => ⟨why, rfl⟩⟩
  · exact absurd (by rw [hv]; rfl) hdefined
  · rw [hv]
    dsimp only
    rw [hsearch]
    dsimp only
    by_cases hne : (vocab + (b.UnigramSize first + middle.sum + longest)) % 2 ^ 64 = goal_size
    · rw [if_neg (not_not.mpr hne)]
      constructor
      · rintro ⟨why, hwhy⟩
        exact absurd hwhy (by simp)
      · rintro (⟨why, hwhy⟩ | hdiff)
        · exact absurd hwhy (by simp)
        · exact absurd hne hdiff
    · rw [if_pos hne]
      exact ⟨fun _ => Or.inr hne, fun _ => ⟨_, rfl⟩⟩

set_option maxRecDepth 100000 in
/-- Witness of `SetupMemory_sizing`: the counts 1, 1 and 1 with the multiplier `1.0`
over 96 zero bytes: one middle table, 64 bytes of search structures behind
32 bytes of vocabulary. -/
theorem SetupMemory_sizing_witness :
    (∃ search_, HashedSearch.SetupMemory Fixture.build [] [1, 1, 1]
        { probing_multiplier := 0x3F800000 } = .ok (search_, 64) ∧
      search_.middle_.length = 1) ∧
    ((∃ why, SetupMemory Fixture.build (List.replicate 96 0) [1, 1, 1]
        { probing_multiplier := 0x3F800000 } = .error (.FormatLoadException why)) ↔
      ((∃ version, readLE 4 (List.replicate 96 0) 0 = some version ∧
          version ≠ kProbingVocabularyVersion) ∨
        (32 + 64) % 2 ^ 64 ≠ 96)) :=
  let h := SetupMemory_sizing Fixture.build (List.replicate 96 0) [1, 1, 1]
    { probing_multiplier := 0x3F800000 } 1 1 [32] 24 32 96 (by decide) (by decide) (by decide)
    (by decide) (by decide) (by decide) (by decide) (by decide)
  ⟨h.1 [], h.2⟩

end GenericModel
end lm

/-! ## The extension test -/

namespace lm
namespace GenericModel

/-- The length of the output state is the useful length of the backoffs looked
up during the walk. -/
theorem FullScore_useful (search_ : Search) (in_state : State) (new_word : Nat)
    (out_state : State) (hlen : in_state.length < 255) :
    IsUsefulLength (lookedUpBackoffs search_ in_state.words in_state.length new_word)
      (FullScore search_ in_state new_word out_state).2.length := by
  simp only [FullScore, ScoreExceptBackoff, lookedUpBackoffs]
  have hinit : IsUsefulLength [GenericProbingProxy.Backoff (search_.LookupUnigram new_word).pointer]
      (if HasExtension (GenericProbingProxy.Backoff (search_.LookupUnigram new_word).pointer)
        then 1 else 0) := by
    have := IsUsefulLength_snoc [] 0
      (GenericProbingProxy.Backoff (search_.LookupUnigram new_word).pointer)
      ⟨le_refl _, fun h => absurd rfl h, fun j hj hjl => by simp at hjl; omega⟩
    simpa using this
  by_cases hzero : in_state.length = 0
  · rw [if_pos hzero, hzero]
    simpa only [middleBackoffs, Function.update_same] using hinit
  · rw [if_neg hzero]
    simp only [CopyRemainingHistory, Function.update_same]
    have := ResumeScore_useful search_ in_state.words in_state.length 0 1
      { node := (search_.LookupUnigram new_word).node
        backoff := Function.update out_state.backoff 0
          (GenericProbingProxy.Backoff (search_.LookupUnigram new_word).pointer)
        next_use := if HasExtension
          (GenericProbingProxy.Backoff (search_.LookupUnigram new_word).pointer) then 1 else 0
        ret := { ngram_length := 1
                 independent_left := (search_.LookupUnigram new_word).independent_left
                 extend_left := (search_.LookupUnigram new_word).extend_left
                 prob := GenericProbingProxy.Prob (search_.LookupUnigram new_word).pointer
                 rest := GenericProbingProxy.Rest (search_.LookupUnigram new_word).pointer } }
      [GenericProbingProxy.Backoff (search_.LookupUnigram new_word).pointer]
      (by omega) rfl hinit
    simpa only [List.singleton_append] using this

/-- C23. Exact-bit extension test: `HasExtension(backoff)` is false exactly when
the bit pattern of `backoff` is `0x80000000`, the float `-0.0`, and true for every
other pattern; `HasExtension(+0.0)` is true although `+0.0` and `-0.0` have the
same value and neither is less than the other; and in every `FullScore` call on
an input state of a length below 255, an order `n` whose looked-up backoff is
`+0.0` is at most the length of the output state: the hit becomes the useful
output-context length unless a higher order with an extension replaces it. -/
theorem HasExtension_exact_bits (backoff : Nat) (search_ : Search) (in_state : State)
    (new_word : Nat) (out_state : State) (hlen : in_state.length < 255) :
    (HasExtension backoff = false ↔ backoff = 0x80000000) ∧
    (HasExtension backoff = true ↔ backoff ≠ 0x80000000) ∧
    HasExtension 0 = true ∧
    F32.toRat 0 = F32.toRat 0x80000000 ∧
    F32.lt 0 0x80000000 = false ∧ F32.lt 0x80000000 0 = false ∧
    ∀ n, 1 ≤ n →
      (lookedUpBackoffs search_ in_state.words in_state.length new_word)[n - 1]? = some 0 →
      n ≤ (FullScore search_ in_state new_word out_state).2.length := by
  refine ⟨?_, ?_, by decide, ?_, by decide, by decide, ?_⟩
  · simp only [HasExtension, kNoExtensionBackoff, bne_eq_false_iff_eq]
    exact eq_comm
  · simp only [HasExtension, kNoExtensionBackoff, bne_iff_ne, ne_eq]
    exact ⟨fun h e => h e.symm, fun h e => h e.symm⟩
  · simp [F32.toRat, F32.sig, F32.sign, F32.expField, F32.manField]
  · intro n hn hget
    obtain ⟨_, _, h3⟩ := FullScore_useful search_ in_state new_word out_state hlen
    by_contra hlt
    have hnl : n - 1 < (lookedUpBackoffs search_ in_state.words in_state.length new_word).length := by
      by_contra hge
      rw [List.getElem?_eq_none (by omega)] at hget
      exact absurd hget (by simp)
    have := h3 n (by omega) (by omega)
    rw [List.getD_eq_getElem?_getD, hget] at this
    exact absurd this (by decide)

/-- Witness of `HasExtension_exact_bits`: in the fixture search whose middle entry
carries the backoff `+0.0`, the word 3 scored after the words 7 and 8 hits that
entry, and the output state has length 2. -/
theorem HasExtension_exact_bits_witness :
    (lookedUpBackoffs Fixture.plusZero Fixture.context.words Fixture.context.length 3)[2 - 1]?
      = some 0 ∧
    (FullScore Fixture.plusZero Fixture.context 3 Fixture.usedState).2.length = 2 ∧
    (FullScore Fixture.trigrams Fixture.context 3 Fixture.usedState).2.length = 1 ∧
    2 ≤ (FullScore Fixture.plusZero Fixture.context 3 Fixture.usedState).2.length :=
  ⟨by decide, by decide, by decide,
    (HasExtension_exact_bits 0 Fixture.plusZero Fixture.context 3 Fixture.usedState
      (by decide)).2.2.2.2.2.2 2 (by decide) (by decide)⟩

end GenericModel
end lm

/-! ## The range of the charged backoffs and the matched length -/

namespace lm
namespace GenericModel

/-- Along the walk `ret.rest` is `ret.prob`. -/
theorem ResumeScore_prob_rest (search_ : Search) (words : Nat → Nat) :
    ∀ (remaining hist_iter order_minus_2 backoff_out : Nat) (w : ScoreWalk),
      w.ret.prob = w.ret.rest →
      (ResumeScore search_ words remaining hist_iter order_minus_2 backoff_out w).ret.prob
        = (ResumeScore search_ words remaining hist_iter order_minus_2 backoff_out w).ret.rest := by
  intro remaining
  induction remaining with
  | zero => intro _ _ _ w h; exact h
  | succ r ih =>
    intro hist_iter order_minus_2 backoff_out w h
    by_cases hil : w.ret.independent_left = true
    · rw [ResumeScore_stop _ _ _ _ _ _ w hil]
      exact h
    · have hil : w.ret.independent_left = false := by simpa using hil
      by_cases hlong : order_minus_2 + 2 = search_.Order
      · rw [ResumeScore_longest _ _ _ _ _ _ w hil hlong]
        cases search_.LookupLongest (words hist_iter) w.node with
        | none => exact h
        | some prob => rfl
      · cases hfound : (search_.LookupMiddle order_minus_2 (words hist_iter) w.node
            w.ret.independent_left w.ret.extend_left).pointer with
        | none =>
          rw [ResumeScore_miss _ _ _ _ _ _ w hil hlong hfound]
          exact h
        | some pointer =>
          rw [ResumeScore_hit _ _ _ _ _ _ w pointer hil hlong hfound]
          exact ih _ _ _ _ rfl

/-- Along the walk `ret.rest` is `Prob()` of the last entry matched, and
`ret.ngram_length` counts the entries matched. -/
theorem ResumeScore_matched (search_ : Search) (words : Nat → Nat) :
    ∀ (remaining hist_iter backoff_out : Nat) (w : ScoreWalk),
      hist_iter + remaining < 255 → w.ret.ngram_length = hist_iter + 1 →
      (ResumeScore search_ words remaining hist_iter hist_iter backoff_out w).ret.rest
        = (matchedProbs search_ words remaining hist_iter w.node w.ret.independent_left
            w.ret.extend_left).getLastD w.ret.rest ∧
      (ResumeScore search_ words remaining hist_iter hist_iter backoff_out w).ret.ngram_length
        = hist_iter + 1 + (matchedProbs search_ words remaining hist_iter w.node
            w.ret.independent_left w.ret.extend_left).length := by
  intro remaining
  induction remaining with
  | zero =>
    intro hist_iter backoff_out w _ hn
    simp only [ResumeScore, matchedProbs, List.getLastD_nil, List.length_nil, hn, Nat.add_zero,
      and_self]
  | succ r ih =>
    intro hist_iter backoff_out w hlen hn
    by_cases hil : w.ret.independent_left = true
    · rw [ResumeScore_stop _ _ _ _ _ _ w hil, matchedProbs, if_pos hil]
      simp only [List.getLastD_nil, List.length_nil, hn, Nat.add_zero, and_self]
    · have hil : w.ret.independent_left = false := by simpa using hil
      by_cases hlong : hist_iter + 2 = search_.Order
      · rw [ResumeScore_longest _ _ _ _ _ _ w hil hlong, matchedProbs, if_neg (by simp [hil]),
          if_pos hlong]
        cases search_.LookupLongest (words hist_iter) w.node with
        | none => simp only [List.getLastD_nil, List.length_nil, hn, Nat.add_zero, and_self]
        | some prob =>
          simp only [List.getLastD_cons, List.getLastD_nil, List.length_singleton, true_and]
          omega
      · cases hfound : (search_.LookupMiddle hist_iter (words hist_iter) w.node
            w.ret.independent_left w.ret.extend_left).pointer with
        | none =>
          rw [ResumeScore_miss _ _ _ _ _ _ w hil hlong hfound, matchedProbs,
            if_neg (by simp [hil]), if_neg hlong]
          dsimp only
          rw [hfound]
          simp only [List.getLastD_nil, List.length_nil, hn, Nat.add_zero, and_self]
        | some pointer =>
          rw [matchedProbs, if_neg (by simp [hil]), if_neg hlong]
          dsimp only
          rw [hfound]
          dsimp only
          rw [ResumeScore_hit _ _ _ _ _ _ w pointer hil hlong hfound,
            Nat.mod_eq_of_lt (show hist_iter + 1 < 256 by omega),
            Nat.mod_eq_of_lt (show hist_iter + 2 < 256 by omega)]
          have := ih (hist_iter + 1) (backoff_out + 1)
            { node := (search_.LookupMiddle hist_iter (words hist_iter) w.node
                w.ret.independent_left w.ret.extend_left).node
              backoff := Function.update w.backoff backoff_out (GenericProbingProxy.Backoff pointer)
              next_use := if HasExtension (GenericProbingProxy.Backoff pointer)
                then hist_iter + 2 else w.next_use
              ret := { prob := GenericProbingProxy.Prob pointer
                       rest := GenericProbingProxy.Rest pointer
                       ngram_length := hist_iter + 2
                       independent_left := (search_.LookupMiddle hist_iter (words hist_iter)
                         w.node w.ret.independent_left w.ret.extend_left).independent_left
                       extend_left := (search_.LookupMiddle hist_iter (words hist_iter) w.node
                         w.ret.independent_left w.ret.extend_left).extend_left } }
            (by omega) rfl
          dsimp only at this
          rw [this.1, this.2, List.getLastD_cons, List.length_cons]
          refine ⟨rfl, by omega⟩

/-- C26. Exact charge range of `FullScore`: for every search, `in_state` and word,
the returned `prob` is the returned `rest` plus the backoffs `in_state.backoff[i]`
of the indices `i` with `ngram_length - 1 <= i < in_state.length`, added in
increasing order of `i`; `rest` is the probability `ScoreExceptBackoff` produced,
and `FullScore` returns the `ngram_length`, `rest`, `independent_left`,
`extend_left` and the output state of `ScoreExceptBackoff` as they are. For an
input state of a length below 255, `rest` is `Prob()` of the last of the entries
matched during the walk, and `ngram_length` is their number. -/
theorem FullScore_charge_range (search_ : Search) (in_state : State) (new_word : Nat)
    (out_state : State) :
    (FullScore search_ in_state new_word out_state).1.prob
      = ((List.range' ((FullScore search_ in_state new_word out_state).1.ngram_length - 1)
            (in_state.length
              - ((FullScore search_ in_state new_word out_state).1.ngram_length - 1))).map
          in_state.backoff).foldl F32.add (FullScore search_ in_state new_word out_state).1.rest ∧
    (FullScore search_ in_state new_word out_state).1.rest
      = (ScoreExceptBackoff search_ in_state.words in_state.length new_word out_state).1.prob ∧
    (FullScore search_ in_state new_word out_state).1
      = { (ScoreExceptBackoff search_ in_state.words in_state.length new_word out_state).1 with
          prob := (FullScore search_ in_state new_word out_state).1.prob } ∧
    (FullScore search_ in_state new_word out_state).2
      = (ScoreExceptBackoff search_ in_state.words in_state.length new_word out_state).2 ∧
    (in_state.length < 255 →
      (matchedEntries search_ in_state.words in_state.length new_word).getLast?
        = some (FullScore search_ in_state new_word out_state).1.rest ∧
      (FullScore search_ in_state new_word out_state).1.ngram_length
        = (matchedEntries search_ in_state.words in_state.length new_word).length) := by
  have hrest : (ScoreExceptBackoff search_ in_state.words in_state.length new_word out_state).1.prob
      = (ScoreExceptBackoff search_ in_state.words in_state.length new_word out_state).1.rest := by
    unfold ScoreExceptBackoff
    dsimp only
    split
    · rfl
    · exact ResumeScore_prob_rest _ _ _ _ _ _ _ rfl
  refine ⟨?_, hrest.symm, rfl, rfl, ?_⟩
  · show chargeBackoff _ _ _ _ = _
    rw [chargeBackoff_eq_foldl, hrest]
    rfl
  · intro hlen
    show (matchedEntries search_ in_state.words in_state.length new_word).getLast?
        = some (ScoreExceptBackoff search_ in_state.words in_state.length new_word out_state).1.rest ∧
      (ScoreExceptBackoff search_ in_state.words in_state.length new_word out_state).1.ngram_length
        = (matchedEntries search_ in_state.words in_state.length new_word).length
    unfold ScoreExceptBackoff matchedEntries
    dsimp only
    by_cases hzero : in_state.length = 0
    · rw [if_pos hzero, hzero]
      simp [matchedProbs, GenericProbingProxy.Rest]
    · rw [if_neg hzero]
      have := ResumeScore_matched search_ in_state.words in_state.length 0 1
        { node := (search_.LookupUnigram new_word).node
          backoff := Function.update out_state.backoff 0
            (GenericProbingProxy.Backoff (search_.LookupUnigram new_word).pointer)
          next_use := if HasExtension (Function.update out_state.backoff 0
            (GenericProbingProxy.Backoff (search_.LookupUnigram new_word).pointer) 0) then 1 else 0
          ret := { ngram_length := 1
                   independent_left := (search_.LookupUnigram new_word).independent_left
                   extend_left := (search_.LookupUnigram new_word).extend_left
                   prob := GenericProbingProxy.Prob (search_.LookupUnigram new_word).pointer
                   rest := GenericProbingProxy.Rest (search_.LookupUnigram new_word).pointer } }
        (by omega) rfl
      dsimp only at this
      rw [this.1, this.2, List.getLast?_cons, List.length_cons, List.getLastD_eq_getLast?]
      refine ⟨rfl, by omega⟩

/-- Bounds on `ngram_length` along the walk of a model of order 2 to 255. -/
theorem ResumeScore_ngram_length_le (search_ : Search) (words : Nat → Nat)
    (hmax : search_.Order < 256) :
    ∀ (remaining hist_iter backoff_out : Nat) (w : ScoreWalk),
      hist_iter + 2 ≤ search_.Order → 1 ≤ w.ret.ngram_length →
      w.ret.ngram_length ≤ hist_iter + 1 →
      1 ≤ (ResumeScore search_ words remaining hist_iter hist_iter backoff_out w).ret.ngram_length ∧
      (ResumeScore search_ words remaining hist_iter hist_iter backoff_out w).ret.ngram_length
        ≤ search_.Order ∧
      (ResumeScore search_ words remaining hist_iter hist_iter backoff_out w).ret.ngram_length
        ≤ hist_iter + remaining + 1 := by
  intro remaining
  induction remaining with
  | zero =>
    intro hist_iter backoff_out w hord h1 hle
    simp only [ResumeScore]
    omega
  | succ r ih =>
    intro hist_iter backoff_out w hord h1 hle
    by_cases hil : w.ret.independent_left = true
    · rw [ResumeScore_stop _ _ _ _ _ _ w hil]
      omega
    · have hil : w.ret.independent_left = false := by simpa using hil
      by_cases hlong : hist_iter + 2 = search_.Order
      · rw [ResumeScore_longest _ _ _ _ _ _ w hil hlong]
        cases search_.LookupLongest (words hist_iter) w.node <;> dsimp only <;> omega
      · cases hfound : (search_.LookupMiddle hist_iter (words hist_iter) w.node
            w.ret.independent_left w.ret.extend_left).pointer with
        | none =>
          rw [ResumeScore_miss _ _ _ _ _ _ w hil hlong hfound]
          dsimp only
          omega
        | some pointer =>
          rw [ResumeScore_hit _ _ _ _ _ _ w pointer hil hlong hfound,
            Nat.mod_eq_of_lt (show hist_iter + 1 < 256 by omega),
            Nat.mod_eq_of_lt (show hist_iter + 2 < 256 by omega)]
          have := ih (hist_iter + 1) (backoff_out + 1)
            { node := (search_.LookupMiddle hist_iter (words hist_iter) w.node
                w.ret.independent_left w.ret.extend_left).node
              backoff := Function.update w.backoff backoff_out (GenericProbingProxy.Backoff pointer)
              next_use := if HasExtension (GenericProbingProxy.Backoff pointer)
                then hist_iter + 2 else w.next_use
              ret := { prob := GenericProbingProxy.Prob pointer
                       rest := GenericProbingProxy.Rest pointer
                       ngram_length := hist_iter + 2
                       independent_left := (search_.LookupMiddle hist_iter (words hist_iter)
                         w.node w.ret.independent_left w.ret.extend_left).independent_left
                       extend_left := (search_.LookupMiddle hist_iter (words hist_iter) w.node
                         w.ret.independent_left w.ret.extend_left).extend_left } }
            (by omega) (by dsimp only; omega) (by dsimp only; omega)
          omega

/-- C27. Matched-length bounds: for every search of an order from 2 on (below
256, as `Order()` is an `unsigned char`), every `in_state` and every word, the
`ngram_length` returned by `FullScore` satisfies `1 <= ngram_length <=
min(in_state.length + 1, order)`; so the start index `ngram_length - 1` of the loop
that charges the backoffs is at most `in_state.length`, and every index the loop
reads is below `in_state.length`. -/
theorem FullScore_ngram_length_bounds (search_ : Search) (h2 : 2 ≤ search_.Order)
    (hmax : search_.Order < 256) (in_state : State) (new_word : Nat) (out_state : State) :
    1 ≤ (FullScore search_ in_state new_word out_state).1.ngram_length ∧
    (FullScore search_ in_state new_word out_state).1.ngram_length
      ≤ min (in_state.length + 1) search_.Order ∧
    (FullScore search_ in_state new_word out_state).1.ngram_length - 1 ≤ in_state.length ∧
    ∀ i ∈ List.range' ((FullScore search_ in_state new_word out_state).1.ngram_length - 1)
        (in_state.length - ((FullScore search_ in_state new_word out_state).1.ngram_length - 1)),
      i < in_state.length := by
  have hseb : 1 ≤ (ScoreExceptBackoff search_ in_state.words in_state.length new_word
        out_state).1.ngram_length ∧
      (ScoreExceptBackoff search_ in_state.words in_state.length new_word
        out_state).1.ngram_length ≤ search_.Order ∧
      (ScoreExceptBackoff search_ in_state.words in_state.length new_word
        out_state).1.ngram_length ≤ in_state.length + 1 := by
    unfold ScoreExceptBackoff
    dsimp only
    by_cases hzero : in_state.length = 0
    · rw [if_pos hzero]
      dsimp only
      omega
    · rw [if_neg hzero]
      have := ResumeScore_ngram_length_le search_ in_state.words hmax in_state.length 0 1
        { node := (search_.LookupUnigram new_word).node
          backoff := Function.update out_state.backoff 0
            (GenericProbingProxy.Backoff (search_.LookupUnigram new_word).pointer)
          next_use := if HasExtension (Function.update out_state.backoff 0
            (GenericProbingProxy.Backoff (search_.LookupUnigram new_word).pointer) 0) then 1 else 0
          ret := { ngram_length := 1
                   independent_left := (search_.LookupUnigram new_word).independent_left
                   extend_left := (search_.LookupUnigram new_word).extend_left
                   prob := GenericProbingProxy.Prob (search_.LookupUnigram new_word).pointer
                   rest := GenericProbingProxy.Rest (search_.LookupUnigram new_word).pointer } }
        (by omega) (le_refl _) (by dsimp only; omega)
      dsimp only
      omega
  have hfull : (FullScore search_ in_state new_word out_state).1.ngram_length
      = (ScoreExceptBackoff search_ in_state.words in_state.length new_word
          out_state).1.ngram_length := rfl
  rw [hfull]
  refine ⟨hseb.1, le_min hseb.2.2 hseb.2.1, by omega, ?_⟩
  intro i hi
  rw [List.mem_range'_1] at hi
  omega

/-- Witness of `FullScore_ngram_length_bounds`: in the fixture search of order 3 the
word 3 scored after three words 9 is matched at order 1 only, and the loop
charges the backoffs at the indices 0, 1 and 2. -/
theorem FullScore_ngram_length_bounds_witness :
    (FullScore Fixture.trigrams Fixture.usedState 3 Fixture.outState).1.ngram_length = 1 ∧
    1 ≤ (FullScore Fixture.trigrams Fixture.usedState 3 Fixture.outState).1.ngram_length ∧
    (FullScore Fixture.trigrams Fixture.usedState 3 Fixture.outState).1.ngram_length
      ≤ min (Fixture.usedState.length + 1) Fixture.trigrams.Order ∧
    (FullScore Fixture.trigrams Fixture.usedState 3 Fixture.outState).1.ngram_length - 1
      ≤ Fixture.usedState.length ∧
    ∀ i ∈ List.range'
        ((FullScore Fixture.trigrams Fixture.usedState 3 Fixture.outState).1.ngram_length - 1)
        (Fixture.usedState.length
          - ((FullScore Fixture.trigrams Fixture.usedState 3 Fixture.outState).1.ngram_length - 1)),
      i < Fixture.usedState.length :=
  ⟨by decide,
    FullScore_ngram_length_bounds Fixture.trigrams (by decide) (by decide) Fixture.usedState 3
      Fixture.outState⟩

end GenericModel
end lm

/-! ## The backoff composition law on the matched entries -/

namespace lm
namespace GenericModel

/-- The walk matches at most one entry above the unigram for each context word. -/
theorem matchedProbs_length_le (search_ : Search) (words : Nat → Nat) :
    ∀ (remaining i node : Nat) (independent_left : Bool) (extend_left : Nat),
      (matchedProbs search_ words remaining i node independent_left extend_left).length
        ≤ remaining := by
  intro remaining
  induction remaining with
  | zero => intro _ _ _ _; simp [matchedProbs]
  | succ r ih =>
    intro i node independent_left extend_left
    rw [matchedProbs]
    split
    · simp
    · split
      · cases search_.LookupLongest (words i) node <;> simp
      · dsimp only
        cases (search_.LookupMiddle i (words i) node independent_left extend_left).pointer with
        | none => simp
        | some pointer =>
          simp only [List.length_cons]
          exact Nat.succ_le_succ (ih _ _ _ _)

/-- For an input context of fewer than 255 words, what `ScoreExceptBackoff` returns as
`prob` is `Prob()` of the last of the entries matched during the walk, and its
`ngram_length` is their number. -/
theorem ScoreExceptBackoff_matched (search_ : Search) (context_rbegin : Nat → Nat)
    (context_length new_word : Nat) (out_state : State) (hlen : context_length < 255) :
    (matchedEntries search_ context_rbegin context_length new_word).getLast?
      = some (ScoreExceptBackoff search_ context_rbegin context_length new_word out_state).1.prob ∧
    (ScoreExceptBackoff search_ context_rbegin context_length new_word out_state).1.ngram_length
      = (matchedEntries search_ context_rbegin context_length new_word).length := by
  have hrest : (ScoreExceptBackoff search_ context_rbegin context_length new_word out_state).1.prob
      = (ScoreExceptBackoff search_ context_rbegin context_length new_word out_state).1.rest := by
    unfold ScoreExceptBackoff
    dsimp only
    split
    · rfl
    · exact ResumeScore_prob_rest _ _ _ _ _ _ _ rfl
  rw [hrest]
  unfold ScoreExceptBackoff matchedEntries
  dsimp only
  by_cases hzero : context_length = 0
  · rw [if_pos hzero, hzero]
    simp [matchedProbs, GenericProbingProxy.Rest]
  · rw [if_neg hzero]
    have := ResumeScore_matched search_ context_rbegin context_length 0 1
      { node := (search_.LookupUnigram new_word).node
        backoff := Function.update out_state.backoff 0
          (GenericProbingProxy.Backoff (search_.LookupUnigram new_word).pointer)
        next_use := if HasExtension (Function.update out_state.backoff 0
          (GenericProbingProxy.Backoff (search_.LookupUnigram new_word).pointer) 0) then 1 else 0
        ret := { ngram_length := 1
                 independent_left := (search_.LookupUnigram new_word).independent_left
                 extend_left := (search_.LookupUnigram new_word).extend_left
                 prob := GenericProbingProxy.Prob (search_.LookupUnigram new_word).pointer
                 rest := GenericProbingProxy.Rest (search_.LookupUnigram new_word).pointer } }
      (by omega) rfl
    dsimp only at this
    rw [this.1, this.2, List.getLast?_cons, List.length_cons, List.getLastD_eq_getLast?]
    refine ⟨rfl, by omega⟩

/-- C1 (amended). Backoff composition law: for every search, every input state
of a length `L` below 255 and every word, let `k` be the order of the best match,
the number of the entries that the lookups of the walk match (the unigram, then
the middle tables with the context words nearest first, then the longest
table), and `p` the `Prob()` of the entry matched at order `k`, the last of them.
Then `1 ≤ k ≤ L + 1`, `FullScore` returns `ngram_length = k`, and its `prob` is `p` plus
the cached backoffs `in_state.backoff[j - 1]` of all lengths `j` in the closed range
`[k, L]`, added in increasing order. -/
theorem FullScore_backoff_composition (search_ : Search) (in_state : State) (new_word : Nat)
    (out_state : State) (k p : Nat) (hlen : in_state.length < 255)
    (hbest : (matchedEntries search_ in_state.words in_state.length new_word).length = k)
    (hprob : (matchedEntries search_ in_state.words in_state.length new_word).getLast? = some p) :
    1 ≤ k ∧ k ≤ in_state.length + 1 ∧
    (FullScore search_ in_state new_word out_state).1.ngram_length = k ∧
    (FullScore search_ in_state new_word out_state).1.prob
      = chargedScore in_state p (k - 1) in_state.length ∧
    (FullScore search_ in_state new_word out_state).1.prob
      = ((List.range' k (in_state.length + 1 - k)).map fun j => in_state.backoff (j - 1)).foldl
          F32.add p := by
  obtain ⟨hlast, hcount⟩ := ScoreExceptBackoff_matched search_ in_state.words in_state.length
    new_word out_state hlen
  have hp : (ScoreExceptBackoff search_ in_state.words in_state.length new_word out_state).1.prob
      = p := by
    rw [hprob] at hlast
    exact (Option.some.inj hlast).symm
  have hk : (ScoreExceptBackoff search_ in_state.words in_state.length new_word
      out_state).1.ngram_length = k := by rw [hcount, hbest]
  have hone : 1 ≤ k := by
    rw [← hbest]
    simp [matchedEntries]
  have hle : k ≤ in_state.length + 1 := by
    rw [← hbest]
    simp only [matchedEntries, List.length_cons]
    exact Nat.succ_le_succ (matchedProbs_length_le _ _ _ _ _ _ _)
  have hcharged := FullScore_eq_chargedScore search_ in_state new_word out_state
  rw [hp, hk] at hcharged
  refine ⟨hone, hle, hk, hcharged, ?_⟩
  rw [hcharged, chargedScore]
  have h1 : k - 1 + 1 = k := by omega
  have h2 : in_state.length - (k - 1) = in_state.length + 1 - k := by omega
  rw [h1, h2]

set_option maxRecDepth 100000 in
/-- Witness of `FullScore_backoff_composition`: in the fixture the word 3 after
a context of one word is matched at order 1 only, with the probability `-1.0`,
and `FullScore` returns `-1.5`: the backoff `-0.5` of the context length 1 is charged. -/
theorem FullScore_backoff_composition_witness :
    Fixture.inState.length < 255 ∧
    (matchedEntries Fixture.search Fixture.inState.words Fixture.inState.length 3).length = 1 ∧
    (matchedEntries Fixture.search Fixture.inState.words Fixture.inState.length 3).getLast?
      = some 0xBF800000 ∧
    chargedScore Fixture.inState 0xBF800000 (1 - 1) Fixture.inState.length = 0xBFC00000 ∧
    (FullScore Fixture.search Fixture.inState 3 Fixture.outState).1.prob
      = chargedScore Fixture.inState 0xBF800000 (1 - 1) Fixture.inState.length :=
  ⟨by decide, by decide, by decide, by decide,
    (FullScore_backoff_composition Fixture.search Fixture.inState 3 Fixture.outState 1 0xBF800000
      (by decide) (by decide) (by decide)).2.2.2.1⟩

end GenericModel
end lm

/-! ## What a scoring step reads -/

namespace lm
namespace GenericModel

/-- The walk reads the context words from `hist_iter` up to `hist_iter + remaining`,
excluded, and no other. -/
theorem ResumeScore_words (search_ : Search) (words other : Nat → Nat) :
    ∀ (remaining hist_iter order_minus_2 backoff_out : Nat) (w : ScoreWalk),
      (∀ i, hist_iter ≤ i → i < hist_iter + remaining → words i = other i) →
      ResumeScore search_ words remaining hist_iter order_minus_2 backoff_out w
        = ResumeScore search_ other remaining hist_iter order_minus_2 backoff_out w := by
  intro remaining
  induction remaining with
  | zero => intro _ _ _ _ _; rfl
  | succ r ih =>
    intro hist_iter order_minus_2 backoff_out w hagree
    have hword : words hist_iter = other hist_iter := hagree hist_iter (le_refl _) (by omega)
    by_cases hil : w.ret.independent_left = true
    · rw [ResumeScore_stop _ _ _ _ _ _ w hil, ResumeScore_stop _ _ _ _ _ _ w hil]
    · have hil : w.ret.independent_left = false := by simpa using hil
      by_cases hlong : order_minus_2 + 2 = search_.Order
      · rw [ResumeScore_longest _ _ _ _ _ _ w hil hlong, ResumeScore_longest _ _ _ _ _ _ w hil hlong,
          hword]
      · cases hfound : (search_.LookupMiddle order_minus_2 (words hist_iter) w.node
            w.ret.independent_left w.ret.extend_left).pointer with
        | none =>
          rw [ResumeScore_miss _ _ _ _ _ _ w hil hlong hfound,
            ResumeScore_miss _ _ _ _ _ _ w hil hlong (hword ▸ hfound), hword]
        | some pointer =>
          rw [ResumeScore_hit _ _ _ _ _ _ w pointer hil hlong hfound,
            ResumeScore_hit _ _ _ _ _ _ w pointer hil hlong (hword ▸ hfound), hword]
          exact ih _ _ _ _ (fun i h1 h2 => hagree i (by omega) (by omega))

/-- Whatever the order of the search: after a walk over `remaining` words from
`hist_iter` on, `next_use` is at most `hist_iter + remaining + 1`. -/
theorem ResumeScore_next_use_bound (search_ : Search) (words : Nat → Nat) :
    ∀ (remaining hist_iter order_minus_2 backoff_out : Nat) (w : ScoreWalk),
      order_minus_2 ≤ hist_iter → w.next_use ≤ hist_iter + 1 →
      (ResumeScore search_ words remaining hist_iter order_minus_2 backoff_out w).next_use
        ≤ hist_iter + remaining + 1 := by
  intro remaining
  induction remaining with
  | zero =>
    intro hist_iter order_minus_2 backoff_out w _ huse
    simp only [ResumeScore]
    omega
  | succ r ih =>
    intro hist_iter order_minus_2 backoff_out w hom huse
    by_cases hil : w.ret.independent_left = true
    · rw [ResumeScore_stop _ _ _ _ _ _ w hil]
      omega
    · have hil : w.ret.independent_left = false := by simpa using hil
      by_cases hlong : order_minus_2 + 2 = search_.Order
      · rw [ResumeScore_longest _ _ _ _ _ _ w hil hlong]
        cases search_.LookupLongest (words hist_iter) w.node <;> dsimp only <;> omega
      · cases hfound : (search_.LookupMiddle order_minus_2 (words hist_iter) w.node
            w.ret.independent_left w.ret.extend_left).pointer with
        | none =>
          rw [ResumeScore_miss _ _ _ _ _ _ w hil hlong hfound]
          dsimp only
          omega
        | some pointer =>
          rw [ResumeScore_hit _ _ _ _ _ _ w pointer hil hlong hfound]
          have hmod1 : (order_minus_2 + 1) % 256 ≤ order_minus_2 + 1 := Nat.mod_le _ _
          have hmod2 : (order_minus_2 + 2) % 256 ≤ order_minus_2 + 2 := Nat.mod_le _ _
          have := ih (hist_iter + 1) ((order_minus_2 + 1) % 256) (backoff_out + 1)
            { node := (search_.LookupMiddle order_minus_2 (words hist_iter) w.node
                w.ret.independent_left w.ret.extend_left).node
              backoff := Function.update w.backoff backoff_out (GenericProbingProxy.Backoff pointer)
              next_use := if HasExtension (GenericProbingProxy.Backoff pointer)
                then (order_minus_2 + 2) % 256 else w.next_use
              ret := { prob := GenericProbingProxy.Prob pointer
                       rest := GenericProbingProxy.Rest pointer
                       ngram_length := (order_minus_2 + 2) % 256
                       independent_left := (search_.LookupMiddle order_minus_2 (words hist_iter)
                         w.node w.ret.independent_left w.ret.extend_left).independent_left
                       extend_left := (search_.LookupMiddle order_minus_2 (words hist_iter) w.node
                         w.ret.independent_left w.ret.extend_left).extend_left } }
            (by omega) (by dsimp only; split <;> omega)
          omega

/-- The output state of `ScoreExceptBackoff` is at most one longer than the context. -/
theorem ScoreExceptBackoff_length_le (search_ : Search) (context_rbegin : Nat → Nat)
    (context_length new_word : Nat) (out_state : State) :
    (ScoreExceptBackoff search_ context_rbegin context_length new_word out_state).2.length
      ≤ context_length + 1 := by
  unfold ScoreExceptBackoff
  dsimp only
  by_cases hzero : context_length = 0
  · rw [if_pos hzero]
    dsimp only
    split <;> omega
  · rw [if_neg hzero]
    simp only [CopyRemainingHistory]
    have := ResumeScore_next_use_bound search_ context_rbegin context_length 0 0 1
      { node := (search_.LookupUnigram new_word).node
        backoff := Function.update out_state.backoff 0
          (GenericProbingProxy.Backoff (search_.LookupUnigram new_word).pointer)
        next_use := if HasExtension (Function.update out_state.backoff 0
          (GenericProbingProxy.Backoff (search_.LookupUnigram new_word).pointer) 0) then 1 else 0
        ret := { ngram_length := 1
                 independent_left := (search_.LookupUnigram new_word).independent_left
                 extend_left := (search_.LookupUnigram new_word).extend_left
                 prob := GenericProbingProxy.Prob (search_.LookupUnigram new_word).pointer
                 rest := GenericProbingProxy.Rest (search_.LookupUnigram new_word).pointer } }
      (le_refl _) (by dsimp only; split <;> omega)
    omega

/-- The loop of `FullScore` reads the backoffs from `i` up to `i + count`, excluded. -/
theorem chargeBackoff_congr (backoff other : Nat → Nat) :
    ∀ (count i prob : Nat), (∀ j, i ≤ j → j < i + count → backoff j = other j) →
      chargeBackoff backoff count i prob = chargeBackoff other count i prob := by
  intro count
  induction count with
  | zero => intro _ _ _; rfl
  | succ n ih =>
    intro i prob h
    rw [chargeBackoff, chargeBackoff, h i (le_refl _) (by omega)]
    exact ih _ _ (fun j h1 h2 => h j (by omega) (by omega))

/-- `ScoreExceptBackoff` on two contexts with the same words below `context_length`. -/
theorem ScoreExceptBackoff_words (search_ : Search) (words other : Nat → Nat)
    (context_length new_word : Nat) (out_state : State)
    (hwords : ∀ i, i < context_length → words i = other i) :
    (ScoreExceptBackoff search_ words context_length new_word out_state).1
      = (ScoreExceptBackoff search_ other context_length new_word out_state).1 ∧
    (ScoreExceptBackoff search_ words context_length new_word out_state).2.length
      = (ScoreExceptBackoff search_ other context_length new_word out_state).2.length ∧
    ∀ i, i < (ScoreExceptBackoff search_ words context_length new_word out_state).2.length →
      (ScoreExceptBackoff search_ words context_length new_word out_state).2.words i
        = (ScoreExceptBackoff search_ other context_length new_word out_state).2.words i ∧
      (ScoreExceptBackoff search_ words context_length new_word out_state).2.backoff i
        = (ScoreExceptBackoff search_ other context_length new_word out_state).2.backoff i := by
  have hle := ScoreExceptBackoff_length_le search_ words context_length new_word out_state
  revert hle
  unfold ScoreExceptBackoff
  dsimp only
  by_cases hzero : context_length = 0
  · rw [if_pos hzero, if_pos hzero]
    intro _
    exact ⟨rfl, rfl, fun i _ => ⟨rfl, rfl⟩⟩
  · rw [if_neg hzero, if_neg hzero,
      ResumeScore_words search_ words other context_length 0 0 1 _
        (fun i _ h => hwords i (by omega))]
    simp only [CopyRemainingHistory]
    intro hle
    refine ⟨by trivial, by trivial, fun i hi => ⟨?_, by trivial⟩⟩
    by_cases hcopy : 1 ≤ i ∧ i < (ResumeScore search_ other context_length 0 0 1
        { node := (search_.LookupUnigram new_word).node
          backoff := Function.update out_state.backoff 0
            (GenericProbingProxy.Backoff (search_.LookupUnigram new_word).pointer)
          next_use := if HasExtension (Function.update out_state.backoff 0
            (GenericProbingProxy.Backoff (search_.LookupUnigram new_word).pointer) 0) then 1 else 0
          ret := { ngram_length := 1
                   independent_left := (search_.LookupUnigram new_word).independent_left
                   extend_left := (search_.LookupUnigram new_word).extend_left
                   prob := GenericProbingProxy.Prob (search_.LookupUnigram new_word).pointer
                   rest := GenericProbingProxy.Rest (search_.LookupUnigram new_word).pointer } }).next_use
    · rw [if_pos hcopy, if_pos hcopy]
      exact hwords (i - 1) (by omega)
    · rw [if_neg hcopy, if_neg hcopy]

/-- C29. `FullScore` reads and determines only valid prefixes: for every search and
word, if two input states have the same length `L`, the same `words[0..L)` and
the same `backoff[0..L)`, then whatever their remaining slots hold and whatever
the two output storages held before, the two calls return equal
`FullScoreReturn` values and output states with equal length, equal
`words[0..length)` and equal `backoff[0..length)`; as the output storages are
arbitrary, every slot of the valid portion of the output state is written by
the call. -/
theorem FullScore_reads_valid_portion (search_ : Search) (in_state other_in : State) (new_word : Nat)
    (out_state other_out : State) (hlength : in_state.length = other_in.length)
    (hwords : ∀ i, i < in_state.length → in_state.words i = other_in.words i)
    (hbackoff : ∀ i, i < in_state.length → in_state.backoff i = other_in.backoff i) :
    (FullScore search_ in_state new_word out_state).1
      = (FullScore search_ other_in new_word other_out).1 ∧
    (FullScore search_ in_state new_word out_state).2.length
      = (FullScore search_ other_in new_word other_out).2.length ∧
    ∀ i, i < (FullScore search_ in_state new_word out_state).2.length →
      (FullScore search_ in_state new_word out_state).2.words i
        = (FullScore search_ other_in new_word other_out).2.words i ∧
      (FullScore search_ in_state new_word out_state).2.backoff i
        = (FullScore search_ other_in new_word other_out).2.backoff i := by
  obtain ⟨hw1, hw2, hw3⟩ := ScoreExceptBackoff_words search_ in_state.words other_in.words
    in_state.length new_word out_state hwords
  obtain ⟨hs1, hs2, hs3⟩ := ScoreExceptBackoff_storage search_ other_in.words in_state.length
    new_word out_state other_out
  simp only [FullScore]
  rw [← hlength]
  refine ⟨?_, hw2.trans hs2, ?_⟩
  · rw [← hs1, ← hw1]
    congr 1
    apply chargeBackoff_congr
    intro j h1 h2
    exact hbackoff j (by omega)
  · intro i hi
    have h3 := hs3 i (Or.inr (hw2 ▸ hi))
    exact ⟨(hw3 i hi).1.trans h3.1, (hw3 i hi).2.trans h3.2⟩

/-- Witness of `FullScore_reads_valid_portion`: the fixture states `context` and
`contextWithRest` have the same two valid entries and differ behind them, and
the output storages differ too. -/
theorem FullScore_reads_valid_portion_witness :
    Fixture.context.words 2 ≠ Fixture.contextWithRest.words 2 ∧
    Fixture.context.backoff 2 ≠ Fixture.contextWithRest.backoff 2 ∧
    (FullScore Fixture.trigrams Fixture.context 3 Fixture.usedState).1
      = (FullScore Fixture.trigrams Fixture.contextWithRest 3 Fixture.outState).1 ∧
    (FullScore Fixture.trigrams Fixture.context 3 Fixture.usedState).2.length
      = (FullScore Fixture.trigrams Fixture.contextWithRest 3 Fixture.outState).2.length ∧
    ∀ i, i < (FullScore Fixture.trigrams Fixture.context 3 Fixture.usedState).2.length →
      (FullScore Fixture.trigrams Fixture.context 3 Fixture.usedState).2.words i
        = (FullScore Fixture.trigrams Fixture.contextWithRest 3 Fixture.outState).2.words i ∧
      (FullScore Fixture.trigrams Fixture.context 3 Fixture.usedState).2.backoff i
        = (FullScore Fixture.trigrams Fixture.contextWithRest 3 Fixture.outState).2.backoff i :=
  ⟨by decide, by decide,
    FullScore_reads_valid_portion Fixture.trigrams Fixture.context Fixture.contextWithRest 3
      Fixture.usedState Fixture.outState rfl (by decide) (by decide)⟩

end GenericModel
end lm

/-! ## The indices of a scoring step -/

namespace lm

/-- The loop of `HashedSearch::SetupMemory` pushes one table for each count. -/
theorem HashedSearch.SetupMiddle_length (mem : List Nat) (config : Config) :
    ∀ (counts : List Nat) (start : Nat) (middle_ tables : List (util.ProbingHashTable ProbBackoff))
      (offset : Nat),
      HashedSearch.SetupMiddle mem config counts start middle_ = some (tables, offset) →
      tables.length = middle_.length + counts.length := by
  intro counts
  induction counts with
  | nil =>
    intro start middle_ tables offset h
    simp only [HashedSearch.SetupMiddle, Option.some.injEq, Prod.mk.injEq] at h
    rw [← h.1]
    rfl
  | cons count counts ih =>
    intro start middle_ tables offset h
    rw [HashedSearch.SetupMiddle] at h
    split at h
    · exact absurd h (by simp)
    · have := ih _ _ _ _ h
      simp only [List.length_append, List.length_singleton, List.length_cons,
        List.length_nil] at this ⊢
      omega

/-- The search that `HashedSearch::SetupMemory` places has one middle table for each
order from 2 up to the last but one. -/
theorem HashedSearch.SetupMemory_middle_length {b : Build} {start counts : List Nat}
    {config : Config} {placed : HashedSearch} {advanced : Nat}
    (h : HashedSearch.SetupMemory b start counts config = .ok (placed, advanced)) :
    placed.middle_.length = counts.length - 2 := by
  unfold HashedSearch.SetupMemory at h
  split at h
  · split at h
    · exact absurd h (by simp)
    · rename_i middle_ offset hmiddle
      split at h
      · exact absurd h (by simp)
      · simp only [Except.ok.injEq, Prod.mk.injEq] at h
        rw [← h.1]
        have := HashedSearch.SetupMiddle_length _ _ _ _ _ _ _ hmiddle
        simp only [List.length_nil, List.length_dropLast, List.length_drop, Nat.zero_add] at this
        exact this.trans (by omega)
  · exact absurd h (by simp)

namespace GenericModel

/-- The walk with its accesses is the walk. -/
theorem ResumeScoreLogged_fst (search_ : Search) (words : Nat → Nat) :
    ∀ (remaining hist_iter order_minus_2 backoff_out : Nat) (w : ScoreWalk),
      (ResumeScoreLogged search_ words remaining hist_iter order_minus_2 backoff_out w).1
        = ResumeScore search_ words remaining hist_iter order_minus_2 backoff_out w := by
  intro remaining
  induction remaining with
  | zero => intro _ _ _ _; rfl
  | succ r ih =>
    intro hist_iter order_minus_2 backoff_out w
    rw [ResumeScoreLogged, ResumeScore]
    split
    · rfl
    · split
      · dsimp only
        cases search_.LookupLongest (words hist_iter) w.node <;> rfl
      · dsimp only
        cases (search_.LookupMiddle order_minus_2 (words hist_iter) w.node w.ret.independent_left
            w.ret.extend_left).pointer with
        | none => rfl
        | some pointer => exact ih _ _ _ _

/-- `ScoreExceptBackoff` with its accesses is `ScoreExceptBackoff`. -/
theorem ScoreExceptBackoffLogged_fst (search_ : Search) (context_rbegin : Nat → Nat)
    (context_length new_word : Nat) (out_state : State) :
    (ScoreExceptBackoffLogged search_ context_rbegin context_length new_word out_state).1
      = ScoreExceptBackoff search_ context_rbegin context_length new_word out_state := by
  unfold ScoreExceptBackoffLogged ScoreExceptBackoff
  dsimp only
  split
  · rfl
  · rw [ResumeScoreLogged_fst]

/-- The accesses of the walk of a model of order 2 to 255 are in range. -/
theorem ResumeScoreLogged_in_range (search_ : Search) (words : Nat → Nat)
    (hmax : search_.Order < 256) :
    ∀ (remaining hist_iter : Nat) (w : ScoreWalk), hist_iter + 2 ≤ search_.Order →
      ∀ a ∈ (ResumeScoreLogged search_ words remaining hist_iter hist_iter (hist_iter + 1) w).2,
        Access.InRange search_.Order (hist_iter + remaining) a := by
  intro remaining
  induction remaining with
  | zero =>
    intro hist_iter w _ a ha
    simp [ResumeScoreLogged] at ha
  | succ r ih =>
    intro hist_iter w hord a ha
    rw [ResumeScoreLogged] at ha
    split at ha
    · simp at ha
    · split at ha
      · have hread : a = .contextWord hist_iter := by
          dsimp only at ha
          split at ha <;> simpa using ha
        rw [hread]
        show hist_iter < hist_iter + (r + 1)
        omega
      · rename_i hlong
        dsimp only at ha
        split at ha
        · simp only [List.mem_cons, List.mem_singleton, List.not_mem_nil, or_false] at ha
          rcases ha with ha | ha
          · rw [ha]
            show hist_iter + 3 ≤ search_.Order
            omega
          · rw [ha]
            show hist_iter < hist_iter + (r + 1)
            omega
        · simp only [List.cons_append, List.nil_append, List.mem_cons] at ha
          rcases ha with ha | ha | ha | ha
          · rw [ha]
            show hist_iter + 3 ≤ search_.Order
            omega
          · rw [ha]
            show hist_iter < hist_iter + (r + 1)
            omega
          · rw [ha]
            show hist_iter + 1 + 2 ≤ search_.Order
            omega
          · rw [Nat.mod_eq_of_lt (show hist_iter + 1 < 256 by omega)] at ha
            have := ih (hist_iter + 1) _ (by omega) a ha
            rw [show hist_iter + (r + 1) = hist_iter + 1 + r by omega]
            exact this

/-- The accesses of `FullScore` on a model of order 2 to 255 are in range. -/
theorem FullScoreAccesses_in_range (search_ : Search) (h2 : 2 ≤ search_.Order)
    (hmax : search_.Order < 256) (in_state : State) (new_word : Nat) (out_state : State) :
    ∀ a ∈ FullScoreAccesses search_ in_state new_word out_state,
      Access.InRange search_.Order in_state.length a := by
  intro a ha
  unfold FullScoreAccesses ScoreExceptBackoffLogged at ha
  dsimp only at ha
  by_cases hzero : in_state.length = 0
  · rw [if_pos hzero] at ha
    simp only [List.mem_singleton] at ha
    rw [ha]
    show 0 + 2 ≤ search_.Order
    omega
  · rw [if_neg hzero] at ha
    simp only [List.cons_append, List.nil_append, List.mem_cons, List.mem_append, List.mem_map,
      List.mem_range] at ha
    rcases ha with ha | ha | ⟨index, hindex, ha⟩
    · rw [ha]
      show 0 + 2 ≤ search_.Order
      omega
    · have := ResumeScoreLogged_in_range search_ in_state.words hmax in_state.length 0 _
        (by omega) a ha
      rwa [Nat.zero_add] at this
    · rw [← ha]
      show index < in_state.length
      rw [ResumeScoreLogged_fst] at hindex
      have := ResumeScore_next_use_bound search_ in_state.words in_state.length 0 0 1
        { node := (search_.LookupUnigram new_word).node
          backoff := Function.update out_state.backoff 0
            (GenericProbingProxy.Backoff (search_.LookupUnigram new_word).pointer)
          next_use := if HasExtension (Function.update out_state.backoff 0
            (GenericProbingProxy.Backoff (search_.LookupUnigram new_word).pointer) 0) then 1 else 0
          ret := { ngram_length := 1
                   independent_left := (search_.LookupUnigram new_word).independent_left
                   extend_left := (search_.LookupUnigram new_word).extend_left
                   prob := GenericProbingProxy.Prob (search_.LookupUnigram new_word).pointer
                   rest := GenericProbingProxy.Rest (search_.LookupUnigram new_word).pointer } }
        (le_refl _) (by dsimp only; split <;> omega)
      omega

/-- C28. In-range table and slot indices during the walk: in every `FullScore` call
on a search of an order from 2 on (below 256, as `Order()` is an `unsigned char`),
each `LookupMiddle` call uses a table index `order_minus_2 <= order - 3`, each
context word read, the one passed to `LookupLongest` and the ones copied to the
output state included, is at an index `< in_state.length`, and each write to
`out_state.backoff` is at an index `<= order - 2`. The table index is inside the
`order - 2` middle tables that `HashedSearch::SetupMemory` creates from `order`
counts; and with `order <= KENLM_MAX_ORDER` and `in_state.length <=
KENLM_MAX_ORDER - 1` every word read and every backoff written lies inside the
arrays of `KENLM_MAX_ORDER - 1` entries of a `State`. The accesses are those of
`ScoreExceptBackoff` with its walk, which computes what the scoring functions
compute. -/
theorem FullScore_indices_in_range (search_ : Search) (h2 : 2 ≤ search_.Order)
    (hmax : search_.Order < 256) (in_state : State) (new_word : Nat) (out_state : State) :
    (ScoreExceptBackoffLogged search_ in_state.words in_state.length new_word out_state).1
      = ScoreExceptBackoff search_ in_state.words in_state.length new_word out_state ∧
    (∀ a ∈ FullScoreAccesses search_ in_state new_word out_state,
      Access.InRange search_.Order in_state.length a) ∧
    (∀ (b : Build) (start counts : List Nat) (config : Config) (placed : HashedSearch)
        (advanced : Nat),
      HashedSearch.SetupMemory b start counts config = .ok (placed, advanced) →
      counts.length = search_.Order →
      ∀ order_minus_2, Access.middleTable order_minus_2
          ∈ FullScoreAccesses search_ in_state new_word out_state →
        order_minus_2 < placed.middle_.length) ∧
    (∀ KENLM_MAX_ORDER, search_.Order ≤ KENLM_MAX_ORDER →
      in_state.length ≤ KENLM_MAX_ORDER - 1 →
      ∀ index,
        (Access.contextWord index ∈ FullScoreAccesses search_ in_state new_word out_state ∨
          Access.backoffWrite index ∈ FullScoreAccesses search_ in_state new_word out_state) →
        index < KENLM_MAX_ORDER - 1) := by
  have hrange := FullScoreAccesses_in_range search_ h2 hmax in_state new_word out_state
  refine ⟨ScoreExceptBackoffLogged_fst _ _ _ _ _, hrange, ?_, ?_⟩
  · intro b start counts config placed advanced hplaced hcounts k hk
    rw [HashedSearch.SetupMemory_middle_length hplaced, hcounts]
    have : k + 3 ≤ search_.Order := hrange _ hk
    omega
  · intro KENLM_MAX_ORDER hle hlen index hindex
    rcases hindex with h | h
    · have : index < in_state.length := hrange _ h
      omega
    · have : index + 2 ≤ search_.Order := hrange _ h
      omega

/-- Witness of `FullScore_indices_in_range`: in the fixture search of order 3 the word
3 scored after the words 7 and 8 hits the middle table with the word 7 and
the longest table with the word 8. -/
theorem FullScore_indices_in_range_witness :
    FullScoreAccesses Fixture.trigrams Fixture.context 3 Fixture.usedState
      = [.backoffWrite 0, .middleTable 0, .contextWord 0, .backoffWrite 1, .contextWord 1] ∧
    (HashedSearch.SetupMemory Fixture.build (List.replicate 64 0) [1, 1, 1]
        { probing_multiplier := 0x3F800000 }).map (fun placed => placed.1.middle_.length)
      = .ok 1 ∧
    ∀ a ∈ FullScoreAccesses Fixture.trigrams Fixture.context 3 Fixture.usedState,
      Access.InRange Fixture.trigrams.Order Fixture.context.length a :=
  ⟨by decide, by decide,
    (FullScore_indices_in_range Fixture.trigrams (by decide) (by decide) Fixture.context 3
      Fixture.usedState).2.1⟩

end GenericModel
end lm

/-! ## The bucket count of the vocabulary table -/

namespace lm
namespace ProbingVocabulary

/-- The table of a vocabulary that `SetupMemory` has set up: the entries behind the
aligned header, with the bucket count taken from the whole of `allocated`. -/
theorem SetupMemory_lookup {start : List Nat} {allocated : Nat} {vocab : ProbingVocabulary}
    (h : SetupMemory start allocated = .ok vocab) :
    vocab.lookup_ = util.ProbingHashTable.construct sizeofProbingVocabularyEntry
      (readEntries sizeofProbingVocabularyEntry util.leValue
        (start.drop (ALIGN8 sizeofProbingVocabularyHeader)))
      allocated 0 IdentityHash := by
  unfold SetupMemory at h
  dsimp only at h
  split at h
  · exact absurd h (by simp)
  · split at h
    · exact absurd h (by simp)
    · split at h
      · exact absurd h (by simp)
      · split at h
        · simp only [Except.ok.injEq] at h
          rw [← h]
        · exact absurd h (by simp)

/-- What `GenericModel::SetupMemory` hands to the vocabulary: the memory from `base` on
and the whole of `VocabularyT::Size(counts[0], config)`. -/
theorem SetupMemory_of_model {b : Build} {base counts : List Nat} {config : Config}
    {vocab : ProbingVocabulary} {search : HashedSearch}
    (h : GenericModel.SetupMemory b base counts config = .ok (vocab, search)) :
    ∃ entries allocated, counts.head? = some entries ∧
      Size entries config.probing_multiplier = some allocated ∧
      SetupMemory base allocated = .ok vocab := by
  unfold GenericModel.SetupMemory at h
  split at h
  · exact absurd h (by simp)
  · split at h
    · exact absurd h (by simp)
    · split at h
      · exact absurd h (by simp)
      · rename_i allocated hallocated
        split at h
        · exact absurd h (by simp)
        · rename_i vocab_ hvocab
          split at h
          · exact absurd h (by simp)
          · split at h
            · exact absurd h (by simp)
            · simp only [Except.ok.injEq, Prod.mk.injEq] at h
              cases hhead : counts.head? with
              | none => rw [hhead] at hallocated; simp at hallocated
              | some entries =>
                rw [hhead] at hallocated
                exact ⟨entries, allocated, rfl, hallocated, by rw [← h.1]; exact hvocab⟩

/-- C30. Vocabulary table bucket count: when the truncated single-precision
product `floor(m * float(entries))` is `scaled`, `B = max(entries + 1, scaled)`, and
`8 + 12 * B` fits 64 bits, the size of the table alone is `12 * B` bytes and
`ProbingVocabulary::Size(entries, m)` is `8 + 12 * B` bytes, the 8-byte aligned header
plus `B` entries of 12 bytes; `SetupMemory` called with this whole allocation
builds its table from all of it, over the entries that begin behind the
header, and the bucket count `(8 + 12 * B) / 12` is `B` all the same, as it is for
every `B`: the ideal buckets are below `B`, and the end of the table, 8 bytes for
the header and 12 for each bucket from the start, is the end of the allocation.
This is the call `GenericModel::SetupMemory` makes: the vocabulary it returns for
`entries = counts[0]` and the multiplier of the configuration has `B` buckets. -/
theorem SetupMemory_bucket_count (entries probing_multiplier scaled : Nat) (start : List Nat)
    (hscaled : F32.toU64 (F32.mul probing_multiplier (F32.ofU64 entries)) = some scaled)
    (hfit : 8 + 12 * max ((entries + 1) % 2 ^ 64) scaled < 2 ^ 64) :
    scaled = ⌊F32.toRat (F32.mul probing_multiplier (F32.ofU64 entries))⌋₊ ∧
    util.ProbingHashTable.Size sizeofProbingVocabularyEntry entries probing_multiplier
      = some (12 * max ((entries + 1) % 2 ^ 64) scaled) ∧
    Size entries probing_multiplier = some (8 + 12 * max ((entries + 1) % 2 ^ 64) scaled) ∧
    (∀ B : Nat, (8 + 12 * B) / sizeofProbingVocabularyEntry = B) ∧
    (∀ vocab, SetupMemory start (8 + 12 * max ((entries + 1) % 2 ^ 64) scaled) = .ok vocab →
      vocab.lookup_.buckets_
        = (8 + 12 * max ((entries + 1) % 2 ^ 64) scaled) / sizeofProbingVocabularyEntry ∧
      vocab.lookup_.buckets_ = max ((entries + 1) % 2 ^ 64) scaled ∧
      vocab.lookup_.slots = readEntries 12 util.leValue (start.drop 8) ∧
      (∀ key ideal, vocab.lookup_.Ideal key = some ideal →
        ideal < max ((entries + 1) % 2 ^ 64) scaled) ∧
      ALIGN8 sizeofProbingVocabularyHeader
          + sizeofProbingVocabularyEntry * vocab.lookup_.buckets_
        = 8 + 12 * max ((entries + 1) % 2 ^ 64) scaled) ∧
    ∀ (b : Build) (base counts : List Nat) (config : Config) (vocab : ProbingVocabulary)
        (search : HashedSearch),
      counts.head? = some entries → config.probing_multiplier = probing_multiplier →
      GenericModel.SetupMemory b base counts config = .ok (vocab, search) →
      vocab.lookup_.buckets_ = max ((entries + 1) % 2 ^ 64) scaled := by
  have hdiv : ∀ B : Nat, (8 + 12 * B) / sizeofProbingVocabularyEntry = B := by
    intro B
    show (8 + 12 * B) / 12 = B
    omega
  have htable : util.ProbingHashTable.Size sizeofProbingVocabularyEntry entries probing_multiplier
      = some (12 * max ((entries + 1) % 2 ^ 64) scaled) := by
    unfold util.ProbingHashTable.Size
    rw [hscaled]
    show some (max ((entries + 1) % 2 ^ 64) scaled * 12 % 2 ^ 64) = _
    rw [Nat.mod_eq_of_lt (by omega), Nat.mul_comm]
  have hsize : Size entries probing_multiplier
      = some (8 + 12 * max ((entries + 1) % 2 ^ 64) scaled) := by
    unfold Size
    rw [htable]
    show some ((ALIGN8 8 + 12 * max ((entries + 1) % 2 ^ 64) scaled) % 2 ^ 64) = _
    rw [show ALIGN8 8 = 8 by decide, Nat.mod_eq_of_lt hfit]
  refine ⟨util.ProbingHashTable.toU64_eq_floor hscaled, htable, hsize, hdiv, ?_, ?_⟩
  · intro vocab hsetup
    rw [SetupMemory_lookup hsetup]
    have hbuckets : (util.ProbingHashTable.construct sizeofProbingVocabularyEntry
        (readEntries sizeofProbingVocabularyEntry util.leValue
          (start.drop (ALIGN8 sizeofProbingVocabularyHeader)))
        (8 + 12 * max ((entries + 1) % 2 ^ 64) scaled) 0 IdentityHash).buckets_
        = max ((entries + 1) % 2 ^ 64) scaled := hdiv _
    refine ⟨rfl, hbuckets, rfl, ?_, ?_⟩
    · intro key ideal hideal
      unfold util.ProbingHashTable.Ideal util.DivMod.Ideal at hideal
      rw [hbuckets] at hideal
      split at hideal
      · exact absurd hideal (by simp)
      · simp only [Option.some.injEq] at hideal
        rw [← hideal]
        exact Nat.mod_lt _ (by omega)
    · rw [hbuckets]
      rfl
  · intro b base counts config vocab search hhead hmultiplier hmodel
    obtain ⟨first, allocated, hfirst, hallocated, hsetup⟩ := SetupMemory_of_model hmodel
    rw [hhead] at hfirst
    obtain rfl : entries = first := Option.some.inj hfirst
    rw [hmultiplier, hsize] at hallocated
    obtain rfl := Option.some.inj hallocated
    rw [SetupMemory_lookup hsetup]
    exact hdiv _

/-- Witness of `SetupMemory_bucket_count`: one entry at the multiplier `1.0` gives two
buckets and an allocation of 32 bytes, and `SetupMemory` over zeroed memory
builds a table of `32 / 12 = 2` buckets. -/
theorem SetupMemory_bucket_count_witness :
    (SetupMemory (List.replicate 64 0) 32).map (fun vocab => vocab.lookup_.buckets_) = .ok 2 ∧
    util.ProbingHashTable.Size sizeofProbingVocabularyEntry 1 0x3F800000 = some 24 ∧
    Size 1 0x3F800000 = some 32 :=
  ⟨by decide,
    (SetupMemory_bucket_count 1 0x3F800000 1 (List.replicate 64 0) (by decide) (by decide)).2.1,
    (SetupMemory_bucket_count 1 0x3F800000 1 (List.replicate 64 0) (by decide) (by decide)).2.2.1⟩

end ProbingVocabulary
end lm

/-! ## The consistency check -/

namespace util
namespace ProbingHashTable

/-- The first entry of the memory from the slot `i` on is the slot `i`. -/
theorem drop_eq_cons {V : Type} {t : ProbingHashTable V} {i : Nat} {entry : Entry V}
    {mem : List (Entry V)} (h : t.slots.drop i = entry :: mem) :
    t.GetKey i = some entry.key ∧ t.slots.drop (i + 1) = mem := by
  constructor
  · have h0 : (t.slots.drop i)[0]? = t.slots[i]? := by
      rw [List.getElem?_drop]
      rfl
    rw [GetKey, ← h0, h]
    simp
  · have h1 : t.slots.drop (i + 1) = (t.slots.drop i).drop 1 := by
      rw [List.drop_drop, Nat.add_comm]
    rw [h1, h]
    rfl

/-- The first loop of `CheckConsistency` stops at the last empty slot. -/
theorem lastInvalid_some {V : Type} (t : ProbingHashTable V) :
    ∀ (n last : Nat), lastInvalid t n = some (some last) →
      last < n ∧ t.GetKey last = some t.invalid_ ∧
      ∀ j, last < j → j < n → ∃ k, t.GetKey j = some k ∧ k ≠ t.invalid_ := by
  intro n
  induction n with
  | zero => intro last h; simp [lastInvalid] at h
  | succ n ih =>
    intro last h
    rw [lastInvalid] at h
    cases hkey : t.GetKey n with
    | none => rw [hkey] at h; simp at h
    | some got =>
      rw [hkey] at h
      dsimp only at h
      by_cases hinv : got = t.invalid_
      · rw [if_pos hinv] at h
        simp only [Option.some.injEq] at h
        subst h
        exact ⟨by omega, by rw [hkey, hinv], fun j h1 h2 => by omega⟩
      · rw [if_neg hinv] at h
        obtain ⟨h1, h2, h3⟩ := ih last h
        refine ⟨by omega, h2, fun j hj1 hj2 => ?_⟩
        by_cases hjn : j = n
        · rw [hjn]
          exact ⟨got, hkey, hinv⟩
        · exact h3 j hj1 (by omega)

/-- The first loop of `CheckConsistency` leaves the table at its start when no slot
is empty. -/
theorem lastInvalid_none {V : Type} (t : ProbingHashTable V) :
    ∀ (n : Nat), lastInvalid t n = some none →
      ∀ j, j < n → ∃ k, t.GetKey j = some k ∧ k ≠ t.invalid_ := by
  intro n
  induction n with
  | zero => intro _ j hj; omega
  | succ n ih =>
    intro h j hj
    rw [lastInvalid] at h
    cases hkey : t.GetKey n with
    | none => rw [hkey] at h; simp at h
    | some got =>
      rw [hkey] at h
      dsimp only at h
      by_cases hinv : got = t.invalid_
      · rw [if_pos hinv] at h
        simp at h
      · rw [if_neg hinv] at h
        by_cases hjn : j = n
        · rw [hjn]
          exact ⟨got, hkey, hinv⟩
        · exact ih h j (by omega)

/-- The second loop of `CheckConsistency` stops at the first empty slot, and has
tested every slot before it. -/
theorem checkWrapped_ok {V : Type} (t : ProbingHashTable V) (last : Option Nat) :
    ∀ (mem : List (Entry V)) (i gap : Nat), t.slots.drop i = mem →
      checkWrapped t last mem i = .ok gap →
      i ≤ gap ∧ t.GetKey gap = some t.invalid_ ∧
      ∀ j, i ≤ j → j < gap → ∃ k ideal, t.GetKey j = some k ∧ k ≠ t.invalid_ ∧
        t.Ideal k = some ideal ∧ ¬(j < ideal ∧ leLast ideal last = true) := by
  intro mem
  induction mem with
  | nil => intro i gap _ h; simp [checkWrapped] at h
  | cons entry mem ih =>
    intro i gap hmem h
    obtain ⟨hkey, hrest⟩ := drop_eq_cons hmem
    rw [checkWrapped] at h
    by_cases hinv : entry.key = t.invalid_
    · rw [if_pos hinv] at h
      simp only [Except.ok.injEq] at h
      subst h
      exact ⟨le_refl _, by rw [hkey, hinv], fun j h1 h2 => by omega⟩
    · rw [if_neg hinv] at h
      cases hideal : t.Ideal entry.key with
      | none => rw [hideal] at h; simp at h
      | some ideal =>
        rw [hideal] at h
        dsimp only at h
        by_cases hbad : i < ideal ∧ leLast ideal last = true
        · rw [if_pos hbad] at h
          simp at h
        · rw [if_neg hbad] at h
          obtain ⟨h1, h2, h3⟩ := ih (i + 1) gap hrest h
          refine ⟨by omega, h2, fun j hj1 hj2 => ?_⟩
          by_cases hji : j = i
          · rw [hji]
            exact ⟨entry.key, ideal, hkey, hinv, hideal, hbad⟩
          · exact h3 j (by omega) hj2

/-- The third loop of `CheckConsistency` reads every slot up to the end of the
table, and has tested every occupied one against the last gap before it. -/
theorem checkRuns_ok {V : Type} (t : ProbingHashTable V) :
    ∀ (mem : List (Entry V)) (i pre_gap : Nat), t.slots.drop i = mem →
      (∀ e, pre_gap < e → e < i → t.GetKey e ≠ some t.invalid_) →
      checkRuns t mem i pre_gap = .ok () →
      i ≤ t.buckets_ ∧
      ∀ j, i ≤ j → j < t.buckets_ → ∃ k, t.GetKey j = some k ∧
        (k ≠ t.invalid_ → ∃ ideal, t.Ideal k = some ideal ∧ ideal ≤ j ∧
          ∀ e, ideal ≤ e → e < j → t.GetKey e ≠ some t.invalid_) := by
  intro mem
  induction mem with
  | nil =>
    intro i pre_gap _ _ h
    rw [checkRuns] at h
    split at h
    · next hend => exact ⟨by omega, fun j h1 h2 => by omega⟩
    · simp at h
  | cons entry mem ih =>
    intro i pre_gap hmem hrun h
    obtain ⟨hkey, hrest⟩ := drop_eq_cons hmem
    rw [checkRuns] at h
    by_cases hend : i = t.buckets_
    · exact ⟨by omega, fun j h1 h2 => by omega⟩
    · rw [if_neg hend] at h
      by_cases hinv : entry.key = t.invalid_
      · rw [if_pos hinv] at h
        obtain ⟨h1, h2⟩ := ih (i + 1) i hrest (fun e he1 he2 => by omega) h
        refine ⟨by omega, fun j hj1 hj2 => ?_⟩
        by_cases hji : j = i
        · rw [hji]
          exact ⟨entry.key, hkey, fun hne => absurd hinv hne⟩
        · exact h2 j (by omega) hj2
      · rw [if_neg hinv] at h
        cases hideal : t.Ideal entry.key with
        | none => rw [hideal] at h; simp at h
        | some ideal =>
          rw [hideal] at h
          dsimp only at h
          by_cases hbad : i < ideal ∨ ideal ≤ pre_gap
          · rw [if_pos hbad] at h
            simp at h
          · rw [if_neg hbad] at h
            have hhere : t.GetKey i ≠ some t.invalid_ := by
              rw [hkey]
              intro hc
              exact hinv (Option.some.inj hc)
            obtain ⟨h1, h2⟩ := ih (i + 1) pre_gap hrest
              (fun e he1 he2 => by
                by_cases hei : e = i
                · rw [hei]; exact hhere
                · exact hrun e he1 (by omega)) h
            refine ⟨by omega, fun j hj1 hj2 => ?_⟩
            by_cases hji : j = i
            · rw [hji]
              refine ⟨entry.key, hkey, fun _ => ⟨ideal, hideal, by omega, fun e he1 he2 => ?_⟩⟩
              exact hrun e (by omega) he2
            · exact h2 j (by omega) hj2

/-- A key that sits in a slot on the probe path from its ideal bucket, with
readable occupied slots before it, is found. -/
theorem Find_of_path {V : Type} (t : ProbingHashTable V) (key ideal d : Nat)
    (hideal : t.Ideal key = some ideal) (hd : d < t.buckets_)
    (hpath : ∀ e, e < d → ∃ g, t.GetKey ((ideal + e) % t.buckets_) = some g ∧ g ≠ t.invalid_)
    (hkey : t.GetKey ((ideal + d) % t.buckets_) = some key) :
    ∀ fuel, t.buckets_ ≤ fuel → ∃ i, t.Find key fuel = some (true, i) := by
  intro fuel hfuel
  have hex : ∃ e, e ≤ d ∧ t.GetKey ((ideal + e) % t.buckets_) = some key := ⟨d, le_refl _, hkey⟩
  classical
  have hfirst := Nat.find_spec hex
  have hmin := fun e => @Nat.find_min _ _ hex e
  have hlt : ideal < t.buckets_ := by
    unfold Ideal DivMod.Ideal at hideal
    split at hideal
    · simp at hideal
    · simp only [Option.some.injEq] at hideal
      rw [← hideal]
      exact Nat.mod_lt _ (by omega)
  have := FindFromIdeal_stop t key ideal (Nat.find hex) fuel key hlt (by omega)
    (fun e he => by
      obtain ⟨g, hg, hginv⟩ := hpath e (by omega)
      refine ⟨g, hg, fun hgk => hmin e he ⟨by omega, by rw [hg, hgk]⟩, hginv⟩)
    hfirst.2 (Or.inl rfl)
  refine ⟨(ideal + Nat.find hex) % t.buckets_, ?_⟩
  rw [Find, hideal]
  simpa using this


/-- The ideal bucket of a key is a remainder by a bucket count that is not zero. -/
theorem Ideal_eq_some {V : Type} {t : ProbingHashTable V} {key ideal : Nat}
    (h : t.Ideal key = some ideal) :
    0 < t.buckets_ ∧ ideal = t.hash_ key % t.buckets_ ∧ ideal < t.buckets_ := by
  unfold Ideal DivMod.Ideal at h
  split at h
  · simp at h
  · simp only [Option.some.injEq] at h
    rw [← h]
    exact ⟨by omega, rfl, Nat.mod_lt _ (by omega)⟩

/-- When `CheckConsistency` completes on a table with an empty slot, every bucket
is readable and every occupied one is reached from the ideal bucket of its key
over readable occupied buckets. -/
theorem CheckConsistency_paths {V : Type} (t : ProbingHashTable V) (hempty : t.HasEmptySlot)
    (hok : t.CheckConsistency = .ok ()) :
    ∀ j key, j < t.buckets_ → t.GetKey j = some key → key ≠ t.invalid_ →
      ∃ ideal d, t.Ideal key = some ideal ∧ d < t.buckets_ ∧ (ideal + d) % t.buckets_ = j ∧
        ∀ e, e < d → ∃ g, t.GetKey ((ideal + e) % t.buckets_) = some g ∧ g ≠ t.invalid_ := by
  obtain ⟨s, hs, hsinv⟩ := hempty
  unfold CheckConsistency at hok
  cases hlast : lastInvalid t t.buckets_ with
  | none => rw [hlast] at hok; simp at hok
  | some last =>
    rw [hlast] at hok
    dsimp only at hok
    by_cases hzero : last = some 0
    · rw [if_pos hzero] at hok
      simp at hok
    · rw [if_neg hzero] at hok
      cases hwrapped : checkWrapped t last t.slots 0 with
      | error e => rw [hwrapped] at hok; simp at hok
      | ok gap =>
        rw [hwrapped] at hok
        dsimp only at hok
        obtain ⟨_, hgap, hhead⟩ := checkWrapped_ok t last t.slots 0 gap rfl hwrapped
        obtain ⟨hgapC, htail⟩ := checkRuns_ok t _ gap gap rfl (fun e h1 h2 => by omega) hok
        have hgs : gap ≤ s := by
          by_contra hlt
          obtain ⟨k, _, hk, hkinv, _⟩ := hhead s (Nat.zero_le _) (by omega)
          rw [hsinv] at hk
          exact hkinv (Option.some.inj hk).symm
        have hread : ∀ e, e < t.buckets_ → ∃ g, t.GetKey e = some g := by
          intro e he
          by_cases heg : e < gap
          · obtain ⟨k, _, hk, _⟩ := hhead e (Nat.zero_le _) heg
            exact ⟨k, hk⟩
          · obtain ⟨k, hk, _⟩ := htail e (by omega) he
            exact ⟨k, hk⟩
        cases last with
        | none =>
          obtain ⟨k, hk, hkinv⟩ := lastInvalid_none t _ hlast s hs
          rw [hsinv] at hk
          exact absurd (Option.some.inj hk).symm hkinv
        | some l =>
          obtain ⟨hlC, hlinv, habove⟩ := lastInvalid_some t _ l hlast
          have hsl : s ≤ l := by
            by_contra hlt
            obtain ⟨k, hk, hkinv⟩ := habove s (by omega) hs
            rw [hsinv] at hk
            exact hkinv (Option.some.inj hk).symm
          intro j key hj hkey hkeyinv
          by_cases hjg : j < gap
          · obtain ⟨k, ideal, hk, _, hideal, hbad⟩ := hhead j (Nat.zero_le _) hjg
            rw [hkey] at hk
            obtain rfl : key = k := Option.some.inj hk
            obtain ⟨hpos, _, hlt⟩ := Ideal_eq_some hideal
            by_cases hij : ideal ≤ j
            · refine ⟨ideal, j - ideal, hideal, by omega, ?_, fun e he => ?_⟩
              · rw [Nat.add_sub_cancel' hij, Nat.mod_eq_of_lt hj]
              · rw [Nat.mod_eq_of_lt (by omega)]
                obtain ⟨g, _, hg, hginv, _⟩ := hhead (ideal + e) (Nat.zero_le _) (by omega)
                exact ⟨g, hg, hginv⟩
            · have hil : l < ideal := by
                by_contra hle
                exact hbad ⟨by omega, by simp [leLast]; omega⟩
              refine ⟨ideal, t.buckets_ - ideal + j, hideal, by omega, ?_, fun e he => ?_⟩
              · rw [show ideal + (t.buckets_ - ideal + j) = j + t.buckets_ by omega,
                  Nat.add_mod_right, Nat.mod_eq_of_lt hj]
              · by_cases hwrap : ideal + e < t.buckets_
                · rw [Nat.mod_eq_of_lt hwrap]
                  exact habove (ideal + e) (by omega) hwrap
                · rw [show ideal + e = (ideal + e - t.buckets_) + t.buckets_ by omega,
                    Nat.add_mod_right, Nat.mod_eq_of_lt (by omega)]
                  obtain ⟨g, _, hg, hginv, _⟩ := hhead (ideal + e - t.buckets_) (Nat.zero_le _)
                    (by omega)
                  exact ⟨g, hg, hginv⟩
          · obtain ⟨k, hk, hrun⟩ := htail j (by omega) hj
            rw [hkey] at hk
            obtain rfl : key = k := Option.some.inj hk
            obtain ⟨ideal, hideal, hij, hfree⟩ := hrun hkeyinv
            refine ⟨ideal, j - ideal, hideal, by omega, ?_, fun e he => ?_⟩
            · rw [Nat.add_sub_cancel' hij, Nat.mod_eq_of_lt hj]
            · rw [Nat.mod_eq_of_lt (by omega)]
              obtain ⟨g, hg⟩ := hread (ideal + e) (by omega)
              refine ⟨g, hg, fun hginv => hfree (ideal + e) (by omega) (by omega) ?_⟩
              rw [hg, hginv]

/-- C25. `CheckConsistency` is sound: for every table with at least one empty slot,
if `CheckConsistency` completes without raising, then every occupied slot lies
on the forward wrapping probe path from the ideal bucket of its key with no
empty slot in between, and `Find`, given the fuel for one round through the
table, returns true for every key stored in the table. -/
theorem CheckConsistency_sound {V : Type} (t : ProbingHashTable V) (hempty : t.HasEmptySlot)
    (hok : t.CheckConsistency = .ok ()) :
    t.EachOccupiedReachable ∧
    ∀ j key, j < t.buckets_ → t.GetKey j = some key → key ≠ t.invalid_ →
      ∀ fuel, t.buckets_ ≤ fuel → ∃ i, t.Find key fuel = some (true, i) := by
  have hpaths := CheckConsistency_paths t hempty hok
  constructor
  · intro j key hj hkey hkeyinv
    obtain ⟨ideal, d, hideal, hd, hreach, hfree⟩ := hpaths j key hj hkey hkeyinv
    obtain ⟨_, hmod, _⟩ := Ideal_eq_some hideal
    refine ⟨d, hd, by rw [← hmod]; exact hreach, fun e he => ?_⟩
    obtain ⟨g, hg, hginv⟩ := hfree e he
    rw [← hmod, hg]
    intro hc
    exact hginv (Option.some.inj hc)
  · intro j key hj hkey hkeyinv fuel hfuel
    obtain ⟨ideal, d, hideal, hd, hreach, hfree⟩ := hpaths j key hj hkey hkeyinv
    exact Find_of_path t key ideal d hideal hd hfree (by rw [hreach]; exact hkey) fuel hfuel

/-- Witness of `CheckConsistency_sound`: the fixture table of four buckets, whose key 7
sits in bucket 0 after the wrap from its ideal bucket 3, passes the check. -/
theorem CheckConsistency_sound_witness :
    Fixture.table.CheckConsistency = .ok () ∧
    Fixture.table.EachOccupiedReachable ∧
    ∀ j key, j < Fixture.table.buckets_ → Fixture.table.GetKey j = some key →
      key ≠ Fixture.table.invalid_ →
      ∀ fuel, Fixture.table.buckets_ ≤ fuel → ∃ i, Fixture.table.Find key fuel = some (true, i) :=
  ⟨by decide, CheckConsistency_sound Fixture.table ⟨1, by decide, by decide⟩ (by decide)⟩

/-- The first loop of `CheckConsistency` reads inside a table that lies in its memory. -/
theorem lastInvalid_isSome {V : Type} (t : ProbingHashTable V) :
    ∀ (n : Nat), n ≤ t.slots.length → ∃ last, lastInvalid t n = some last := by
  intro n
  induction n with
  | zero => intro _; exact ⟨none, rfl⟩
  | succ n ih =>
    intro hn
    obtain ⟨k, hk⟩ : ∃ k, t.GetKey n = some k :=
      ⟨(t.slots[n]).key, by simp [GetKey, List.getElem?_eq_getElem (show n < t.slots.length by omega)]⟩
    rw [lastInvalid, hk]
    dsimp only
    split
    · exact ⟨_, rfl⟩
    · exact ih (by omega)

/-- The second loop of `CheckConsistency` completes when an empty slot lies ahead
and every occupied slot passes its test. -/
theorem checkWrapped_completes {V : Type} (t : ProbingHashTable V) (last : Option Nat) :
    ∀ (mem : List (Entry V)) (i : Nat), t.slots.drop i = mem →
      (∃ s, i ≤ s ∧ t.GetKey s = some t.invalid_) →
      (∀ j k, i ≤ j → t.GetKey j = some k → k ≠ t.invalid_ →
        ∃ ideal, t.Ideal k = some ideal ∧ ¬(j < ideal ∧ leLast ideal last = true)) →
      ∃ gap, checkWrapped t last mem i = .ok gap := by
  intro mem
  induction mem with
  | nil =>
    intro i hmem hgap _
    obtain ⟨s, his, hs⟩ := hgap
    rw [List.drop_eq_nil_iff] at hmem
    rw [GetKey, List.getElem?_eq_none (by omega)] at hs
    simp at hs
  | cons entry mem ih =>
    intro i hmem hgap hpass
    obtain ⟨hkey, hrest⟩ := drop_eq_cons hmem
    rw [checkWrapped]
    by_cases hinv : entry.key = t.invalid_
    · rw [if_pos hinv]
      exact ⟨i, rfl⟩
    · rw [if_neg hinv]
      obtain ⟨ideal, hideal, hgood⟩ := hpass i entry.key (le_refl _) hkey hinv
      rw [hideal]
      dsimp only
      rw [if_neg hgood]
      obtain ⟨s, his, hs⟩ := hgap
      have hsi : s ≠ i := by
        intro h
        rw [h, hkey] at hs
        exact hinv (Option.some.inj hs)
      exact ih (i + 1) hrest ⟨s, by omega, hs⟩ (fun j k hj => hpass j k (by omega))

/-- The third loop of `CheckConsistency` completes on a table inside its memory when
every occupied slot is reached from its ideal bucket, at or before it, over
occupied slots. -/
theorem checkRuns_completes {V : Type} (t : ProbingHashTable V)
    (hmem : t.buckets_ ≤ t.slots.length) :
    ∀ (mem : List (Entry V)) (i pre_gap : Nat), t.slots.drop i = mem → i ≤ t.buckets_ →
      pre_gap ≤ i → t.GetKey pre_gap = some t.invalid_ →
      (∀ j k, i ≤ j → j < t.buckets_ → t.GetKey j = some k → k ≠ t.invalid_ →
        ∃ ideal, t.Ideal k = some ideal ∧ ideal ≤ j ∧
          ∀ e, ideal ≤ e → e < j → t.GetKey e ≠ some t.invalid_) →
      checkRuns t mem i pre_gap = .ok () := by
  intro mem
  induction mem with
  | nil =>
    intro i pre_gap hdrop hi _ _ _
    rw [List.drop_eq_nil_iff] at hdrop
    rw [checkRuns, if_pos (by omega)]
  | cons entry mem ih =>
    intro i pre_gap hdrop hi hpre hgap hpass
    obtain ⟨hkey, hrest⟩ := drop_eq_cons hdrop
    rw [checkRuns]
    by_cases hend : i = t.buckets_
    · rw [if_pos hend]
    · rw [if_neg hend]
      by_cases hinv : entry.key = t.invalid_
      · rw [if_pos hinv]
        exact ih (i + 1) i hrest (by omega) (by omega) (by rw [hkey, hinv])
          (fun j k hj => hpass j k (by omega))
      · rw [if_neg hinv]
        obtain ⟨ideal, hideal, hle, hfree⟩ := hpass i entry.key (le_refl _) (by omega) hkey hinv
        rw [hideal]
        dsimp only
        have hpi : pre_gap ≠ i := by
          intro h
          rw [h, hkey] at hgap
          exact hinv (Option.some.inj hgap)
        have hgood : ¬(i < ideal ∨ ideal ≤ pre_gap) := by
          rintro (h | h)
          · omega
          · exact hfree pre_gap h (by omega) hgap
        rw [if_neg hgood]
        exact ih (i + 1) pre_gap hrest (by omega) (by omega) hgap
          (fun j k hj => hpass j k (by omega))

/-- Apart from the case of an empty first slot, `CheckConsistency` completes without
raising on every well-formed table: on every table that lies inside its memory, in which each occupied slot is
reachable from the ideal bucket of its key by forward wrapping probing without
crossing an empty slot, and in which some slot other than the first one is
empty. -/
theorem CheckConsistency_accepts {V : Type} (t : ProbingHashTable V)
    (hmem : t.buckets_ ≤ t.slots.length)
    (hempty : ∃ s, 1 ≤ s ∧ s < t.buckets_ ∧ t.GetKey s = some t.invalid_)
    (hreach : t.EachOccupiedReachable) :
    t.CheckConsistency = .ok () := by
  obtain ⟨s, hs1, hs, hsinv⟩ := hempty
  obtain ⟨last, hlast⟩ := lastInvalid_isSome t t.buckets_ hmem
  unfold CheckConsistency
  rw [hlast]
  dsimp only
  cases last with
  | none =>
    obtain ⟨k, hk, hkinv⟩ := lastInvalid_none t _ hlast s hs
    rw [hsinv] at hk
    exact absurd (Option.some.inj hk).symm hkinv
  | some l =>
    obtain ⟨hlC, hlinv, habove⟩ := lastInvalid_some t _ l hlast
    have hsl : s ≤ l := by
      by_contra hlt
      obtain ⟨k, hk, hkinv⟩ := habove s (by omega) hs
      rw [hsinv] at hk
      exact hkinv (Option.some.inj hk).symm
    rw [if_neg (by simp; omega)]
    -- what reachability gives for an occupied slot
    have hpath : ∀ j k, j < t.buckets_ → t.GetKey j = some k → k ≠ t.invalid_ →
        ∃ ideal d, t.Ideal k = some ideal ∧ ideal < t.buckets_ ∧ d < t.buckets_ ∧
          (ideal + d) % t.buckets_ = j ∧
          ∀ e, e < d → t.GetKey ((ideal + e) % t.buckets_) ≠ some t.invalid_ := by
      intro j k hj hk hkinv
      obtain ⟨d, hd, hdj, hfree⟩ := hreach j k hj hk hkinv
      refine ⟨t.hash_ k % t.buckets_, d, ?_, Nat.mod_lt _ (by omega), hd, hdj, hfree⟩
      rw [Ideal, DivMod.Ideal, if_neg (by omega)]
    -- a path that wraps around the end of the table crosses every slot from its ideal bucket on
    have hwrap : ∀ {j ideal d : Nat}, j < t.buckets_ → ideal < t.buckets_ → d < t.buckets_ →
        (ideal + d) % t.buckets_ = j → j < ideal → d = j + t.buckets_ - ideal := by
      intro j ideal d hj hi hd hdj hji
      by_cases hlow : ideal + d < t.buckets_
      · rw [Nat.mod_eq_of_lt hlow] at hdj
        omega
      · have : (ideal + d - t.buckets_) % t.buckets_ = j := by
          rw [← hdj]
          conv_rhs => rw [show ideal + d = (ideal + d - t.buckets_) + t.buckets_ by omega]
          rw [Nat.add_mod_right]
        rw [Nat.mod_eq_of_lt (by omega)] at this
        omega
    have hhead : ∀ j k, 0 ≤ j → t.GetKey j = some k → k ≠ t.invalid_ →
        ∃ ideal, t.Ideal k = some ideal ∧ ¬(j < ideal ∧ leLast ideal (some l) = true) := by
      intro j k _ hk hkinv
      by_cases hj : j < t.buckets_
      · obtain ⟨ideal, d, hideal, hi, hd, hdj, hfree⟩ := hpath j k hj hk hkinv
        refine ⟨ideal, hideal, ?_⟩
        rintro ⟨hji, hle⟩
        have hle : ideal ≤ l := by simpa [leLast] using hle
        have hdeq := hwrap hj hi hd hdj hji
        have := hfree (l - ideal) (by omega)
        rw [Nat.add_sub_cancel' hle, Nat.mod_eq_of_lt hlC] at this
        exact this hlinv
      · -- behind the end of the table: the ideal bucket is inside the table
        refine ⟨t.hash_ k % t.buckets_, ?_, ?_⟩
        · rw [Ideal, DivMod.Ideal, if_neg (by omega)]
        · rintro ⟨hji, _⟩
          have := Nat.mod_lt (t.hash_ k) (show 0 < t.buckets_ by omega)
          omega
    obtain ⟨gap, hwrapped⟩ := checkWrapped_completes t (some l) t.slots 0 rfl
      ⟨s, Nat.zero_le _, hsinv⟩ hhead
    rw [hwrapped]
    dsimp only
    obtain ⟨_, hgap, hbefore⟩ := checkWrapped_ok t (some l) t.slots 0 gap rfl hwrapped
    have hgs : gap ≤ s := by
      by_contra hlt
      obtain ⟨k, _, hk, hkinv, _⟩ := hbefore s (Nat.zero_le _) (by omega)
      rw [hsinv] at hk
      exact hkinv (Option.some.inj hk).symm
    apply checkRuns_completes t hmem _ gap gap rfl (by omega) (le_refl _) hgap
    intro j k hgj hj hk hkinv
    obtain ⟨ideal, d, hideal, hi, hd, hdj, hfree⟩ := hpath j k hj hk hkinv
    have hgj' : gap < j := by
      rcases Nat.lt_or_ge gap j with h | h
      · exact h
      · have : j = gap := by omega
        rw [this, hgap] at hk
        exact absurd (Option.some.inj hk).symm hkinv
    have hij : ideal ≤ j := by
      by_contra hji
      have hdeq := hwrap hj hi hd hdj (by omega)
      have := hfree (gap + t.buckets_ - ideal) (by omega)
      rw [show ideal + (gap + t.buckets_ - ideal) = gap + t.buckets_ by omega,
        Nat.add_mod_right, Nat.mod_eq_of_lt (by omega)] at this
      exact this hgap
    have hdeq : d = j - ideal := by
      by_cases hlow : ideal + d < t.buckets_
      · rw [Nat.mod_eq_of_lt hlow] at hdj
        omega
      · have : (ideal + d - t.buckets_) % t.buckets_ = j := by
          rw [← hdj]
          conv_rhs => rw [show ideal + d = (ideal + d - t.buckets_) + t.buckets_ by omega]
          rw [Nat.add_mod_right]
        rw [Nat.mod_eq_of_lt (by omega)] at this
        omega
    refine ⟨ideal, hideal, hij, fun e he1 he2 => ?_⟩
    have := hfree (e - ideal) (by omega)
    rwa [Nat.add_sub_cancel' he1, Nat.mod_eq_of_lt (by omega)] at this

/-- C24 (the code at the failing input). The fixture table of two buckets has an
empty slot, bucket 0, and its only occupied slot, bucket 1, holds the key 1 in
its ideal bucket: the table is well formed and `Find` finds the key. The first
loop of `CheckConsistency` ends with `last == begin_`, because the last empty slot
is the first slot of the table, and the check throws the `ProbingSizeException`
"Completely full". -/
theorem CheckConsistency_rejects_empty_first :
    Fixture.emptyFirst.HasEmptySlot ∧ Fixture.emptyFirst.EachOccupiedReachable ∧
    Fixture.emptyFirst.Find 1 2 = some (true, 1) ∧
    lastInvalid Fixture.emptyFirst Fixture.emptyFirst.buckets_ = some (some 0) ∧
    Fixture.emptyFirst.CheckConsistency = .error .ProbingSizeException := by
  refine ⟨⟨0, by decide, by decide⟩, ?_, by decide, by decide, by decide⟩
  intro j key hj hkey hkeyinv
  have hj2 : j < 2 := hj
  have h1 : j = 1 := by
    by_contra hne
    have h0 : j = 0 := by omega
    rw [h0] at hkey
    have : key = 0 := by
      have h : Fixture.emptyFirst.GetKey 0 = some 0 := by decide
      rw [h] at hkey
      exact (Option.some.inj hkey).symm
    exact hkeyinv this
  have hk : key = 1 := by
    rw [h1] at hkey
    have h : Fixture.emptyFirst.GetKey 1 = some 1 := by decide
    rw [h] at hkey
    exact (Option.some.inj hkey).symm
  rw [h1, hk]
  exact ⟨0, by decide, by decide, fun e he => by omega⟩

end ProbingHashTable
end util

/-! ## The tokens of the query -/

namespace clb

end clb

/-! ## The query on a model whose vocabulary lookup returns -/

namespace lm
namespace ProbingVocabulary

end ProbingVocabulary
end lm

namespace clb

set_option maxRecDepth 100000 in
/-- Without an empty slot in the vocabulary table the probe loop of `Index` does not
end for a word that is not in the table, and `kenlm_query` does not return: it
has no value. -/
theorem kenlm_query_full_table :
    ¬ Fixture.fullTableModel.vocab_.lookup_.HasEmptySlot ∧
    kenlm_query (some Fixture.fullTableModel) [0x63] Fixture.outState = none := by
  refine ⟨?_, by decide⟩
  rintro ⟨s, hs, hkey⟩
  have hzero : s = 0 := by
    have : s < 1 := hs
    omega
  rw [hzero] at hkey
  exact absurd hkey (by decide)

set_option maxRecDepth 100000 in
/-- With an id in the vocabulary table that is not below `Bound()`, a token gets a word
index for which the assertion at the head of `ScoreExceptBackoff` fails. -/
theorem Index_above_bound :
    lm.ProbingVocabulary.Index Fixture.lowBoundModel.vocab_.lookup_ [0x61] = some 3 ∧
    ¬ 3 < Fixture.lowBoundModel.vocab_.bound_ := by
  refine ⟨by decide, by decide⟩

end clb

/-! ## The empty word -/

namespace lm
namespace ProbingVocabulary

/-- The table that `SetupMemory` builds has the sentinel key 0 and the identity hash. -/
theorem SetupMemory_sentinel {start : List Nat} {allocated : Nat} {vocab : ProbingVocabulary}
    (h : SetupMemory start allocated = .ok vocab) :
    vocab.lookup_.invalid_ = 0 ∧ vocab.lookup_.hash_ = IdentityHash := by
  rw [SetupMemory_lookup h]
  exact ⟨rfl, rfl⟩

/-- C31. Sentinel-key lookup: `MurmurHash64A` of the empty byte string with seed 0 is
0, the sentinel key of the empty slots of the vocabulary table (the table that
`SetupMemory` builds has the sentinel `Key() = 0` and the identity hash, and
`kenlm_query` cuts the empty token out of the empty text). In every such table
that lies inside its memory and has an empty slot, there is a first empty
slot on the probe path from bucket 0; `Find(0)`, which tests the equality of the
keys before it tests for the sentinel, returns true positioned at that slot,
given the fuel to reach it; and `Index` of the empty word returns the value
field stored in that slot, not the 0 of the miss branch. -/
theorem Index_empty_word (lookup_ : util.ProbingHashTable Nat)
    (hinvalid : lookup_.invalid_ = 0) (hhash : lookup_.hash_ = IdentityHash)
    (hmem : lookup_.buckets_ ≤ lookup_.slots.length) (hempty : lookup_.HasEmptySlot) :
    HashForVocab [] = 0 ∧ HashForVocab [] = lookup_.invalid_ ∧
    clb.splitWords [] [] = [[]] ∧
    (∀ start allocated vocab, SetupMemory start allocated = .ok vocab →
      vocab.lookup_.invalid_ = 0 ∧ vocab.lookup_.hash_ = IdentityHash) ∧
    lookup_.Ideal (HashForVocab []) = some 0 ∧
    ∃ first entry, first < lookup_.buckets_ ∧ lookup_.slots[first]? = some entry ∧
      entry.key = lookup_.invalid_ ∧
      (∀ j, j < first → lookup_.GetKey j ≠ some lookup_.invalid_) ∧
      (∀ fuel, first < fuel → lookup_.Find (HashForVocab []) fuel = some (true, first)) ∧
      (∀ fuel i, lookup_.Find (HashForVocab []) fuel ≠ some (false, i)) ∧
      Index lookup_ [] = some entry.value := by
  have h0 : HashForVocab [] = 0 := by decide
  classical
  have hspec := Nat.find_spec hempty
  have hmin := fun j => @Nat.find_min _ _ hempty j
  have hpos : 0 < lookup_.buckets_ := by omega
  have hideal : lookup_.Ideal (HashForVocab []) = some 0 := by
    rw [h0, util.ProbingHashTable.Ideal, util.DivMod.Ideal, if_neg (by omega), hhash]
    rfl
  have hlen : Nat.find hempty < lookup_.slots.length := by omega
  have hentry : lookup_.slots[Nat.find hempty]? = some (lookup_.slots[Nat.find hempty]) :=
    List.getElem?_eq_getElem hlen
  have hkey : (lookup_.slots[Nat.find hempty]).key = lookup_.invalid_ := by
    have := hspec.2
    rw [util.ProbingHashTable.GetKey, hentry] at this
    exact Option.some.inj this
  have hbefore : ∀ j, j < Nat.find hempty → lookup_.GetKey j ≠ some lookup_.invalid_ :=
    fun j hj hc => hmin j hj ⟨by omega, hc⟩
  have hFind : ∀ fuel, lookup_.Find (HashForVocab []) fuel = lookup_.FindFromIdeal 0 fuel 0 := by
    intro fuel
    rw [util.ProbingHashTable.Find, hideal, h0]
  have hskip : ∀ e, e < Nat.find hempty →
      ∃ g, lookup_.GetKey ((0 + e) % lookup_.buckets_) = some g ∧ g ≠ 0 ∧ g ≠ lookup_.invalid_ := by
    intro e he
    obtain ⟨g, hg⟩ := util.ProbingHashTable.GetKey_isSome lookup_ hmem
      (show e < lookup_.buckets_ by omega)
    rw [Nat.zero_add, Nat.mod_eq_of_lt (by omega)]
    have hne : g ≠ lookup_.invalid_ := fun hc => hbefore e he (by rw [hg, hc])
    exact ⟨g, hg, by rw [← hinvalid]; exact hne, hne⟩
  have hfind : ∀ fuel, Nat.find hempty < fuel →
      lookup_.Find (HashForVocab []) fuel = some (true, Nat.find hempty) := by
    intro fuel hfuel
    have hstop := util.ProbingHashTable.FindFromIdeal_stop lookup_ 0 0 (Nat.find hempty) fuel 0
      hpos hfuel hskip
      (by rw [Nat.zero_add, Nat.mod_eq_of_lt hspec.1, hspec.2, hinvalid])
      (Or.inl rfl)
    rw [Nat.zero_add, Nat.mod_eq_of_lt hspec.1] at hstop
    rw [hFind, hstop]
    rfl
  refine ⟨h0, by rw [h0, hinvalid], rfl, fun _ _ _ h => SetupMemory_sentinel h, hideal,
    Nat.find hempty, lookup_.slots[Nat.find hempty], hspec.1, hentry, hkey, hbefore, hfind, ?_, ?_⟩
  · intro fuel i hmiss
    rw [hFind] at hmiss
    by_cases hfuel : Nat.find hempty < fuel
    · have := hfind fuel hfuel
      rw [hFind, hmiss] at this
      simp at this
    · -- the probe has not reached the empty slot when the fuel ends
      have hout := util.ProbingHashTable.FindFromIdeal_skip lookup_ 0 0 fuel 0 hpos
        (fun e (he : e < fuel) => hskip e (by omega))
      rw [Nat.add_zero, hmiss] at hout
      simp [util.ProbingHashTable.FindFromIdeal] at hout
  · rw [Index, hfind _ hspec.1]
    dsimp only
    rw [hentry]
    rfl

/-- Witness of `Index_empty_word`: in the fixture vocabulary table the first empty slot
from bucket 0 is bucket 2, and `Index` of the empty word returns its value 0. -/
theorem Index_empty_word_witness :
    Fixture.vocabularyTable.Find (HashForVocab []) 7 = some (true, 2) ∧
    Index Fixture.vocabularyTable [] = some 0 ∧
    ∃ first entry, first < Fixture.vocabularyTable.buckets_ ∧
      Fixture.vocabularyTable.slots[first]? = some entry ∧
      entry.key = Fixture.vocabularyTable.invalid_ ∧
      (∀ j, j < first → Fixture.vocabularyTable.GetKey j ≠ some Fixture.vocabularyTable.invalid_) ∧
      (∀ fuel, first < fuel →
        Fixture.vocabularyTable.Find (HashForVocab []) fuel = some (true, first)) ∧
      (∀ fuel i, Fixture.vocabularyTable.Find (HashForVocab []) fuel ≠ some (false, i)) ∧
      Index Fixture.vocabularyTable [] = some entry.value :=
  ⟨by decide, by decide,
    (Index_empty_word Fixture.vocabularyTable rfl rfl (by decide)
      ⟨2, by decide, by decide⟩).2.2.2.2.2⟩

end ProbingVocabulary
end lm

/-! ## The message of kenlm_init -/

namespace clb

/-- The bytes before the first zero byte, and that byte. -/
theorem strlen_eq_some : ∀ (mem : List Nat) (length : Nat), strlen mem = some length →
    length < mem.length ∧ 0 ∉ mem.take length ∧ mem.take (length + 1) = mem.take length ++ [0] := by
  intro mem
  induction mem with
  | nil => intro length h; simp [strlen] at h
  | cons c rest ih =>
    intro length h
    unfold strlen at h
    split at h
    · next hmem =>
      simp only [Option.some.injEq] at h
      by_cases hc : c = 0
      · subst hc
        simp only [List.takeWhile_cons, bne_self_eq_false, Bool.false_eq_true, if_false,
          List.length_nil] at h
        subst h
        simp
      · have hrest : 0 ∈ rest := by
          rcases List.mem_cons.mp hmem with h0 | h0
          · exact absurd h0.symm hc
          · exact h0
        have hne : (c != 0) = true := by simpa using hc
        simp only [List.takeWhile_cons, hne, if_true, List.length_cons] at h
        obtain ⟨h1, h2, h3⟩ := ih (rest.takeWhile fun c => c != 0).length
          (by unfold strlen; rw [if_pos hrest])
        subst h
        refine ⟨by simp only [List.length_cons]; omega, ?_, ?_⟩
        · simp only [List.take_succ_cons, List.mem_cons, not_or]
          exact ⟨fun h0 => hc h0.symm, h2⟩
        · simp only [List.take_succ_cons, List.cons_append, h3]
    · simp at h

/-- What `kenlm_init` does on a construction failure with a message, for a buffer of
`ex_msg_size >= 1` bytes: it returns the null handle and writes `min(strlen(what),
ex_msg_size - 1) + 1` bytes, at most `ex_msg_size`. When the message is shorter
than the buffer, the bytes written are the message and its terminating zero;
when it is not, they fill the buffer with the first `ex_msg_size` bytes of the
message, none of which is zero. -/
theorem kenlm_init_message (b : lm.Build) (init_config : lm.Config)
    (what : Fault → Option (List Nat)) (size : Nat) (data : List Nat) (ex_msg_size : Nat)
    (buffer : List Nat) (ex : Fault) (text : List Nat) (length : Nat)
    (hfail : lm.GenericModel.construct b size data init_config = .error ex)
    (hex : ex ≠ .undefinedBehaviour) (hwhat : what ex = some text)
    (hstrlen : strlen text = some length) (hsize : 1 ≤ ex_msg_size) (hmax : ex_msg_size < 2 ^ 64)
    (hbuffer : buffer.length = ex_msg_size) :
    kenlm_init b init_config what size data ex_msg_size (some buffer)
      = some { handle := none
               ex_msg := some (text.take (min length (ex_msg_size - 1) + 1)
                 ++ buffer.drop (min length (ex_msg_size - 1) + 1)) } ∧
    (text.take (min length (ex_msg_size - 1) + 1)).length = min length (ex_msg_size - 1) + 1 ∧
    min length (ex_msg_size - 1) + 1 ≤ ex_msg_size ∧
    (length < ex_msg_size →
      text.take (min length (ex_msg_size - 1) + 1) = text.take length ++ [0] ∧
      IsTerminatedPrefix (text.take length) (text.take (min length (ex_msg_size - 1) + 1))) ∧
    (ex_msg_size ≤ length →
      text.take (min length (ex_msg_size - 1) + 1) ++ buffer.drop (min length (ex_msg_size - 1) + 1)
        = text.take ex_msg_size ∧
      0 ∉ text.take ex_msg_size) := by
  obtain ⟨hlt, hnozero, hzero⟩ := strlen_eq_some text length hstrlen
  have hwrap : (ex_msg_size + 2 ^ 64 - 1) % 2 ^ 64 = ex_msg_size - 1 := by
    rw [show ex_msg_size + 2 ^ 64 - 1 = (ex_msg_size - 1) + 2 ^ 64 by omega, Nat.add_mod_right,
      Nat.mod_eq_of_lt (by omega)]
  have hle : min length (ex_msg_size - 1) + 1 ≤ ex_msg_size := by
    have := Nat.min_le_right length (ex_msg_size - 1)
    omega
  have hlen : min length (ex_msg_size - 1) ≤ length := Nat.min_le_left _ _
  refine ⟨?_, ?_, hle, ?_, ?_⟩
  · unfold kenlm_init
    rw [hfail]
    dsimp only
    rw [if_neg hex, hwhat]
    dsimp only
    rw [hstrlen]
    dsimp only
    rw [hwrap, Nat.mod_eq_of_lt (by omega), memcpy, if_neg (by omega)]
    rfl
  · rw [List.length_take]
    omega
  · intro hshort
    rw [Nat.min_eq_left (by omega), hzero]
    exact ⟨rfl, length, by rw [List.length_take]; omega, by rw [List.take_take, Nat.min_self]⟩
  · intro hlong
    rw [Nat.min_eq_right (by omega), show ex_msg_size - 1 + 1 = ex_msg_size by omega,
      List.drop_eq_nil_of_le (by omega), List.append_nil]
    refine ⟨rfl, fun hmem => hnozero ?_⟩
    have : text.take ex_msg_size = (text.take length).take ex_msg_size := by
      rw [List.take_take, Nat.min_eq_left hlong]
    rw [this] at hmem
    exact List.mem_of_mem_take hmem

set_option maxRecDepth 100000 in
/-- C32 (the code at the failing input). The buffer `abcd` of 4 bytes is not a binary
file, so the constructor throws the `FormatLoadException` "Not a binary format of a
file"; for a message buffer of 8 bytes `kenlm_init` returns the null handle,
computes `len = min(strlen(what), 8 - 1) = 7` and copies `len + 1 = 8` bytes, the
first eight bytes `Not a bi` of the message: the buffer holds no zero byte
afterwards, so what was written is not a prefix of the message followed by a
terminating zero inside the buffer. -/
theorem kenlm_init_unterminated :
    (lm.GenericModel.construct Fixture.build 4 [0x61, 0x62, 0x63, 0x64]
        { probing_multiplier := 0 }).map (fun _ => ())
      = .error (.FormatLoadException .notBinaryFormat) ∧
    (Fixture.what (.FormatLoadException .notBinaryFormat)).bind strlen = some 29 ∧
    (kenlm_init Fixture.build { probing_multiplier := 0 } Fixture.what 4 [0x61, 0x62, 0x63, 0x64] 8
        (some Fixture.shortBuffer)).map (fun result => (result.handle.isSome, result.ex_msg))
      = some (false, some [0x4E, 0x6F, 0x74, 0x20, 0x61, 0x20, 0x62, 0x69]) ∧
    0 ∉ [0x4E, 0x6F, 0x74, 0x20, 0x61, 0x20, 0x62, 0x69] ∧
    ∀ text, ¬IsTerminatedPrefix text [0x4E, 0x6F, 0x74, 0x20, 0x61, 0x20, 0x62, 0x69] := by
  refine ⟨by decide, by decide, by decide, by decide, ?_⟩
  rintro text ⟨n, _, hwritten⟩
  have hzero : (0 : Nat) ∈ text.take n ++ [0] := by simp
  rw [← hwritten] at hzero
  exact absurd hzero (by decide)

end clb

end KenLM
